import Mathlib

/-!
Verification development for the cache-nest cache engine
(repository `groc-prog/cache-nest`, TypeScript).

The definitions below are a shallow embedding of the policy layer
(`apps/api/src/policies/*.ts`), the memory driver
(`apps/api/src/drivers/memory.ts`) and the file-system driver
(`apps/api/src/drivers/file-system.ts`).  JavaScript `Map`s are embedded as
association lists in insertion order (a JS `Map` preserves insertion order and
has unique keys), JS `Set`s as duplicate-free lists in insertion order, and the
doubly linked lists of the LRU/MRU policies as described at each definition.
Telemetry spans, counters and logging have no effect on the cache state and are
omitted.  Wall-clock time (`Date.now()`) is passed in as an explicit `now`
argument, and the `object-hash` digest library is passed in as an explicit
`digest` function.
-/

/-- Structured cache identifier: a nested tree of strings, numbers, booleans,
ordered arrays and string-keyed maps (`packages/types/src/api.ts`,
`IdentifierType` in the route schemas). -/
inductive Identifier where
  | str (s : String)
  | num (n : Int)
  | boolean (b : Bool)
  | arr (elems : List Identifier)
  | map (entries : List (String × Identifier))

/-- Entry options: `ttl` (0 means never expires) and the list of invalidation
identifiers (`Cache.options` in `packages/types/src/api.ts`). -/
structure CacheOptions where
  ttl : Nat
  invalidatedBy : List Identifier

/-- A cache entry as stored by the drivers (`Cache` in
`packages/types/src/api.ts`): identifier, opaque payload, optional metadata,
hit counter, creation/access timestamps, options. -/
structure Cache where
  identifier : Identifier
  data : String
  metadata : Option String
  hits : Nat
  ctime : Nat
  atime : Nat
  options : CacheOptions

/-- The caller-supplied part of a `set` request (`CreateCache` in
`types/cache.ts`): payload, metadata and optional overrides for the default
options. -/
structure CreateCache where
  data : String
  metadata : Option String
  ttl : Option Nat
  invalidatedBy : Option (List Identifier)

/-- `BasePolicy.generateHash` (policies/base.ts lines 244-261): the digest of
the identifier prefixed with `c.` for cache hashes and `i.` for invalidation
hashes.  The `object-hash` library is the `digest` parameter. -/
def generateHash (digest : Identifier → String) (identifier : Identifier)
    (isCacheHash : Bool) : String :=
  (if isCacheHash then "c." else "i.") ++ digest identifier

/-- `BasePolicy.generateCache` (policies/base.ts lines 99-136): merge the
defaults (zero hits, `ctime = atime = now`, `ttl = 0`, empty `invalidatedBy`)
with the caller-supplied partial cache.  The TTL registration that
`generateCache` performs when `ttl > 0` is modelled at the driver level. -/
def generateCache (now : Nat) (identifier : Identifier) (partialCache : CreateCache) :
    Cache :=
  { identifier := identifier
    data := partialCache.data
    metadata := partialCache.metadata
    hits := 0
    ctime := now
    atime := now
    options :=
      { ttl := partialCache.ttl.getD 0
        invalidatedBy := partialCache.invalidatedBy.getD [] } }

/-! ### Association-list embedding of JS `Map` and `Set` -/

/-- Lookup in a JS `Map` embedded as an association list (`Map.get`). -/
def alook {κ α : Type} [DecidableEq κ] (l : List (κ × α)) (k : κ) : Option α :=
  match l with
  | [] => none
  | (k', v) :: rest => if k' = k then some v else alook rest k

/-- `Map.set`: replace the value in place if the key is present (a JS `Map`
keeps the original insertion position), otherwise append. -/
def aset {κ α : Type} [DecidableEq κ] (l : List (κ × α)) (k : κ) (v : α) :
    List (κ × α) :=
  match l with
  | [] => [(k, v)]
  | (k', v') :: rest => if k' = k then (k, v) :: rest else (k', v') :: aset rest k v

/-- `Map.delete`: remove the (unique) entry for the key. -/
def adel {κ α : Type} [DecidableEq κ] (l : List (κ × α)) (k : κ) : List (κ × α) :=
  match l with
  | [] => []
  | (k', v') :: rest => if k' = k then rest else (k', v') :: adel rest k

/-- Update the value stored at an existing key, leaving the map unchanged when
the key is absent (models `map.get(k)?.mutate(...)` / `map.get(k)!.push(...)`
on a value that is mutated in place). -/
def aupd {κ α : Type} [DecidableEq κ] (l : List (κ × α)) (k : κ) (f : α → α) :
    List (κ × α) :=
  match l with
  | [] => []
  | (k', v') :: rest => if k' = k then (k', f v') :: rest else (k', v') :: aupd rest k f

/-- `Set.add`: append if absent (JS `Set` keeps first-insertion order). -/
def sadd (l : List String) (k : String) : List String :=
  if k ∈ l then l else l ++ [k]

/-! ### LRU policy (`policies/lru.ts`, class `LRUPolicy`)

The LRU policy keeps a doubly linked list of nodes (head
`_leastRecentlyUsed`, tail `_mostRecentlyUsed`), a `_cacheKeyMap` from hash to
node, and a `_keyOrder` array.  Every mutator keeps the map's key set equal to
the chain's key set, keeps `_leastRecentlyUsed` at the chain head, and keeps
`_mostRecentlyUsed` at the chain tail (the only operation that can leave
`_mostRecentlyUsed` desynchronised is `applySnapshot` on a one-element
snapshot, which leaves it `null`; no operation proved about here observes that
field afterwards, since `evict` walks from the head).  The chain is therefore
embedded as the single list `order` of keys from least- to most-recently used,
and `_cacheKeyMap` membership is `order` membership. -/
structure LRUState where
  order : List String
  keyOrder : List String
deriving Repr, DecidableEq

/-- A freshly constructed `LRUPolicy`. -/
def lruInit : LRUState := { order := [], keyOrder := [] }

/-- `LRUPolicy.track` (lru.ts lines 45-79): no-op when already tracked,
otherwise a new node is appended at the most-recently-used end and the hash is
pushed onto `_keyOrder`. -/
def lruTrack (h : String) (s : LRUState) : LRUState :=
  if h ∈ s.order then s
  else { order := s.order ++ [h], keyOrder := s.keyOrder ++ [h] }

/-- `LRUPolicy.stopTracking` (lru.ts lines 81-113): no-op when untracked,
otherwise the node is unlinked from the chain and the first occurrence of the
hash is spliced out of `_keyOrder`. -/
def lruStopTracking (h : String) (s : LRUState) : LRUState :=
  if h ∈ s.order then
    { order := s.order.erase h, keyOrder := s.keyOrder.erase h }
  else s

/-- `LRUPolicy.hit` (lru.ts lines 115-155): when the hash is tracked and is not
already the most-recently-used tail, the node is unlinked and re-appended at
the tail, and (when `_keyOrder` has more than one element) the hash is spliced
out of `_keyOrder` and pushed at the end. -/
def lruHit (h : String) (s : LRUState) : LRUState :=
  if h ∈ s.order ∧ s.order.getLast? ≠ some h then
    { order := s.order.erase h ++ [h]
      keyOrder :=
        if s.keyOrder.length > 1 then s.keyOrder.erase h ++ [h] else s.keyOrder }
  else s

/-- `LRUPolicy.evict` (lru.ts lines 157-192): `null` when the chain is empty,
otherwise the head (least-recently-used) key is removed from the chain and the
map, and `_keyOrder` is replaced by `_keyOrder.filter(key => key !==
hashToEvict)`. -/
def lruEvict (s : LRUState) : Option String × LRUState :=
  match s.order with
  | [] => (none, s)
  | k :: rest =>
      (some k, { order := rest, keyOrder := s.keyOrder.filter (fun key => key ≠ k) })

/-- `LRUPolicy.getSnapshot` (lru.ts lines 194-213): the snapshot is the
`_keyOrder` array. -/
def lruGetSnapshot (s : LRUState) : List String := s.keyOrder

/-- `LRUPolicy.applySnapshot` (lru.ts lines 215-253), as invoked by the drivers
on a freshly constructed policy: `_keyOrder` becomes the snapshot order
filtered by the valid-hash set, and the chain is rebuilt node by node in that
order (so the chain equals the filtered order; for a one-element result the
early return leaves `_mostRecentlyUsed` as `null`, which `evict` does not
read). -/
def lruApplySnapshot (valid : List String) (keyOrder : List String) : LRUState :=
  { order := keyOrder.filter (fun k => k ∈ valid)
    keyOrder := keyOrder.filter (fun k => k ∈ valid) }

/-- Keys currently tracked by an LRU policy (the key set of `_cacheKeyMap`). -/
def lruTracked (s : LRUState) : List String := s.order

/-! ### FIFO policy (`policies/fifo.ts`, the `FIFOPolicy` queue variant)

State is an array `_queue` and a set `_hashes`. -/
structure FIFOState where
  queue : List String
  hashes : List String
deriving Repr, DecidableEq

/-- A freshly constructed FIFO policy. -/
def fifoInit : FIFOState := { queue := [], hashes := [] }

/-- `FIFOPolicy.track`: no-op when the hash is already in `_hashes`, otherwise
push onto `_queue` and add to `_hashes`. -/
def fifoTrack (h : String) (s : FIFOState) : FIFOState :=
  if h ∈ s.hashes then s
  else { queue := s.queue ++ [h], hashes := s.hashes ++ [h] }

/-- `FIFOPolicy.stopTracking`: no-op when the hash is missing from `_hashes` or
from `_queue`; otherwise splice it out of `_queue` and delete it from
`_hashes`. -/
def fifoStopTracking (h : String) (s : FIFOState) : FIFOState :=
  if h ∈ s.hashes ∧ h ∈ s.queue then
    { queue := s.queue.erase h, hashes := s.hashes.erase h }
  else s

/-- `FIFOPolicy.hit` is a no-op. -/
def fifoHit (_h : String) (s : FIFOState) : FIFOState := s

/-- `FIFOPolicy.evict`: `_queue.shift()`; when the shifted hash is truthy it is
deleted from `_hashes` and returned; `hash || null` means an empty-string hash
is returned as `null` (after the queue has already been shifted). -/
def fifoEvict (s : FIFOState) : Option String × FIFOState :=
  match s.queue with
  | [] => (none, s)
  | h :: rest =>
      if h = "" then (none, { queue := rest, hashes := s.hashes })
      else (some h, { queue := rest, hashes := s.hashes.erase h })

/-- `FIFOPolicy.getSnapshot`: the `_queue` array. -/
def fifoGetSnapshot (s : FIFOState) : List String := s.queue

/-- `FIFOPolicy.applySnapshot` on a freshly constructed policy: push every
snapshot hash that is in the valid set onto `_queue` and into `_hashes`. -/
def fifoApplySnapshot (valid : List String) (queue : List String) : FIFOState :=
  { queue := queue.filter (fun k => k ∈ valid)
    hashes := (queue.filter (fun k => k ∈ valid)).foldl sadd [] }

/-- Keys currently tracked by a FIFO policy (the `_hashes` set). -/
def fifoTracked (s : FIFOState) : List String := s.hashes

/-! ### RR policy (`policies/rr.ts`, the `FIFOPolicy` variant constructed with
`Policy.RR` that evicts with lodash `sample`)

Same `_queue`/`_hashes` state as FIFO; `sample`'s random draw is modelled by an
explicit index choice `pick`. -/
structure RRState where
  queue : List String
  hashes : List String
deriving Repr, DecidableEq

/-- A freshly constructed RR policy. -/
def rrInit : RRState := { queue := [], hashes := [] }

/-- RR `track`: identical to FIFO `track`. -/
def rrTrack (h : String) (s : RRState) : RRState :=
  if h ∈ s.hashes then s
  else { queue := s.queue ++ [h], hashes := s.hashes ++ [h] }

/-- RR `stopTracking` (lru.ts related file, lines 448-472): when the hash is in
`_hashes` the code calls `this._queue.shift()` — it removes the queue HEAD, not
the given hash — and deletes the hash from `_hashes`. -/
def rrStopTracking (h : String) (s : RRState) : RRState :=
  if h ∈ s.hashes then
    { queue := s.queue.tail, hashes := s.hashes.erase h }
  else s

/-- RR `hit` is a no-op. -/
def rrHit (_h : String) (s : RRState) : RRState := s

/-- RR `evict` (lru.ts related file, lines 476-498):
`hash = sample([...queue])`; when the sampled hash is truthy the code calls
`this._queue.shift()` — removing the queue HEAD, not the sampled element — and
deletes the sampled hash from `_hashes`.  `pick` chooses the sampled index
(uniform in the source); an empty-string sample is falsy and returns `null`
without mutating. -/
def rrEvict (pick : Nat) (s : RRState) : Option String × RRState :=
  match s.queue with
  | [] => (none, s)
  | q =>
      let h := q.getD (pick % q.length) ""
      if h = "" then (none, s)
      else (some h, { queue := q.tail, hashes := s.hashes.erase h })

/-- RR `getSnapshot`: the `_queue` array. -/
def rrGetSnapshot (s : RRState) : List String := s.queue

/-- RR `applySnapshot` on a freshly constructed policy. -/
def rrApplySnapshot (valid : List String) (queue : List String) : RRState :=
  { queue := queue.filter (fun k => k ∈ valid)
    hashes := (queue.filter (fun k => k ∈ valid)).foldl sadd [] }

/-- Keys currently tracked by an RR policy (the `_hashes` set). -/
def rrTracked (s : RRState) : List String := s.hashes

/-! ### MRU policy (`policies/mru.ts`, class `MRUPolicy`)

Unlike the LRU policy, the MRU policy's pointer manipulation leaves the chain
in states where `_mostRecentlyUsed` is `null` while nodes remain, where evicted
nodes stay referenced, and where `_cacheKeyMap` retains unlinked keys.  The
linked structure is therefore embedded at the pointer level: every `new Node`
allocates a fresh heap id, nodes store their `prev`/`next` pointers as optional
heap ids, and `_mostRecentlyUsed` / `_leastRecentlyUsed` / `_cacheKeyMap` hold
heap ids.  The heap only grows; deleting a key from `_cacheKeyMap` leaves the
node allocated, exactly as in the garbage-collected source. -/
structure MRUNode where
  key : String
  prev : Option Nat
  next : Option Nat
deriving Repr, DecidableEq

/-- Heap read for a node id. -/
def hget (heap : List (Nat × MRUNode)) (i : Nat) : Option MRUNode := alook heap i

/-- In-place mutation of the node at a heap id. -/
def hupd (heap : List (Nat × MRUNode)) (i : Nat) (f : MRUNode → MRUNode) :
    List (Nat × MRUNode) :=
  aupd heap i f

/-- State of an `MRUPolicy`. -/
structure MRUState where
  heap : List (Nat × MRUNode)
  counter : Nat
  mru : Option Nat
  lru : Option Nat
  keyMap : List (String × Nat)
  keyOrder : List String
deriving Repr, DecidableEq

/-- A freshly constructed `MRUPolicy`. -/
def mruInit : MRUState :=
  { heap := [], counter := 0, mru := none, lru := none, keyMap := [], keyOrder := [] }

/-- The `key` of an optionally-referenced node (`this._mostRecentlyUsed?.key`).
Evaluates to `none` for a null pointer. -/
def mruKeyOf (s : MRUState) (oi : Option Nat) : Option String :=
  (oi.bind (hget s.heap)).map MRUNode.key

/-- `MRUPolicy.track` (mru.ts lines 47-81): no-op when already in
`_cacheKeyMap`; otherwise allocate a node, link it after the current
`_mostRecentlyUsed` (when non-null), make it the new `_mostRecentlyUsed`, set
`_leastRecentlyUsed` when it was null, register it in `_cacheKeyMap` and push
its key onto `_keyOrder`. -/
def mruTrack (h : String) (s : MRUState) : MRUState :=
  if (alook s.keyMap h).isSome then s
  else
    let nid := s.counter
    let heap1 :=
      match s.mru with
      | some m => hupd s.heap m (fun n => { n with next := some nid })
      | none => s.heap
    { heap := heap1 ++ [(nid, { key := h, prev := s.mru, next := none })]
      counter := nid + 1
      mru := some nid
      lru := if s.lru = none then some nid else s.lru
      keyMap := aset s.keyMap h nid
      keyOrder := s.keyOrder ++ [h] }

/-- The four unlink statements shared by `MRUPolicy.stopTracking` (mru.ts lines
103-106) and the constructor's `ttlExpired` handler (lines 40-43): move
`_leastRecentlyUsed` / `_mostRecentlyUsed` off the node when their `key` equals
the node's key, then splice the node out of the chain. -/
def mruUnlink (s : MRUState) (nid : Nat) : MRUState :=
  match hget s.heap nid with
  | none => s
  | some node =>
      let lru1 := if mruKeyOf s s.lru = some node.key then node.next else s.lru
      let mru1 := if mruKeyOf s s.mru = some node.key then node.prev else s.mru
      let heap1 :=
        match node.prev with
        | some p => hupd s.heap p (fun n => { n with next := node.next })
        | none => s.heap
      let heap2 :=
        match node.next with
        | some q => hupd heap1 q (fun n => { n with prev := node.prev })
        | none => heap1
      { s with heap := heap2, lru := lru1, mru := mru1 }

/-- The `ttlExpired` subscriber installed by the `MRUPolicy` constructor
(mru.ts lines 36-44): look up the node and unlink it from the chain.  It does
NOT delete the key from `_cacheKeyMap`, does not splice `_keyOrder`, and does
not call `stopTracking` (every other policy's subscriber does). -/
def mruTtlHandler (h : String) (s : MRUState) : MRUState :=
  match alook s.keyMap h with
  | none => s
  | some nid => mruUnlink s nid

/-- `MRUPolicy.stopTracking` (mru.ts lines 83-116): no-op when untracked;
otherwise unlink the node, delete the key from `_cacheKeyMap` and splice the
first occurrence out of `_keyOrder` (the TTL clearing is modelled at the
driver level). -/
def mruStopTracking (h : String) (s : MRUState) : MRUState :=
  match alook s.keyMap h with
  | none => s
  | some nid =>
      let s1 := mruUnlink s nid
      { s1 with keyMap := adel s1.keyMap h, keyOrder := s1.keyOrder.erase h }

/-- The `_keyOrder` update performed by `MRUPolicy.hit` (mru.ts lines 148-156):
when the array has more than one element, the key is SWAPPED with its immediate
successor (`keyOrder[index] = keyOrder[index+1]; keyOrder[index+1] = swap`) —
it is not moved to the end.  When the key sits at the last index, JavaScript
writes `undefined` into the slot and extends the array; that branch is modelled
with a sentinel string and is not reached by any state considered in this
file. -/
def mruKeyOrderSwap (ko : List String) (h : String) : List String :=
  if ko.length > 1 then
    match ko.findIdx? (fun k => k = h) with
    | none => ko
    | some idx =>
        match ko.get? (idx + 1) with
        | some nxt => (ko.set idx nxt).set (idx + 1) h
        | none => ko.set idx "undefined" ++ [h]
  else ko

/-- `MRUPolicy.hit` (mru.ts lines 118-162): when the hash is tracked and its
node's key differs from `_mostRecentlyUsed?.key`, unlink the node, re-link it
after the old `_mostRecentlyUsed`, make it the new tail with `next = null`,
and apply the `_keyOrder` swap. -/
def mruHit (h : String) (s : MRUState) : MRUState :=
  match alook s.keyMap h with
  | none => s
  | some nid =>
      match hget s.heap nid with
      | none => s
      | some node =>
          if mruKeyOf s s.mru = some node.key then s
          else
            let heap1 :=
              match node.next with
              | some q => hupd s.heap q (fun n => { n with prev := node.prev })
              | none => s.heap
            let heap2 :=
              match node.prev with
              | some p => hupd heap1 p (fun n => { n with next := node.next })
              | none => heap1
            let lru1 := if mruKeyOf s s.lru = some node.key then node.next else s.lru
            let heap3 :=
              match s.mru with
              | some m => hupd (hupd heap2 m (fun n => { n with next := some nid }))
                  nid (fun n => { n with prev := s.mru })
              | none => heap2
            let heap4 := hupd heap3 nid (fun n => { n with next := none })
            { s with
                heap := heap4
                lru := lru1
                mru := some nid
                keyOrder := mruKeyOrderSwap s.keyOrder node.key }

/-- `MRUPolicy.evict` (mru.ts lines 164-199): `null` when `_mostRecentlyUsed`
is null; otherwise evict the tail's key; the new `_mostRecentlyUsed` is taken
from `newMostRecentlyUsedNode = this._mostRecentlyUsed.next` — the tail's
`next` pointer, which is always `null` for a tail — the key is deleted from
`_cacheKeyMap` and filtered out of `_keyOrder`.  `_leastRecentlyUsed` is not
updated. -/
def mruEvict (s : MRUState) : Option String × MRUState :=
  match s.mru with
  | none => (none, s)
  | some mid =>
      match hget s.heap mid with
      | none => (none, s)
      | some node =>
          let heap1 :=
            match node.next with
            | some q => hupd s.heap q (fun n => { n with prev := none })
            | none => s.heap
          (some node.key,
            { s with
                heap := heap1
                mru := node.next
                keyMap := adel s.keyMap node.key
                keyOrder := s.keyOrder.filter (fun k => k ≠ node.key) })

/-- `MRUPolicy.getSnapshot` (mru.ts lines 201-220): the `_keyOrder` array. -/
def mruGetSnapshot (s : MRUState) : List String := s.keyOrder

/-- One step of `MRUPolicy.applySnapshot`'s `forEach` (mru.ts lines 236-256),
executed on the filtered `_keyOrder`: allocate a node; when
`_leastRecentlyUsed` is null and there is no previous key, it becomes the head
and the iteration returns early (so `_mostRecentlyUsed` is NOT set for a
one-element snapshot); otherwise the node is linked after the node registered
for the previous key and becomes `_mostRecentlyUsed` when it is the last
index. -/
def mruApplyLoop (keys : List String) (total : Nat) (idx : Nat)
    (prevKey : Option String) (s : MRUState) : MRUState :=
  match keys with
  | [] => s
  | key :: rest =>
      let nid := s.counter
      let s' :=
        if s.lru = none ∧ prevKey = none then
          { s with
              heap := s.heap ++ [(nid, { key := key, prev := none, next := none })]
              counter := nid + 1
              lru := some nid
              keyMap := aset s.keyMap key nid }
        else
          let pn := match prevKey with
            | some pk => alook s.keyMap pk
            | none => none
          let heap1 :=
            match pn with
            | some pid => hupd s.heap pid (fun n => { n with next := some nid })
            | none => s.heap
          let s1 :=
            { s with
                heap := heap1 ++ [(nid, { key := key, prev := pn, next := none })]
                counter := nid + 1
                keyMap := aset s.keyMap key nid }
          if idx = total - 1 then { s1 with mru := some nid } else s1
      mruApplyLoop rest total (idx + 1) (some key) s'

/-- `MRUPolicy.applySnapshot` (mru.ts lines 222-261) on a freshly constructed
policy: `_keyOrder` becomes the snapshot order filtered by the valid-hash set,
and the chain is rebuilt by `mruApplyLoop`. -/
def mruApplySnapshot (valid : List String) (keyOrder : List String) : MRUState :=
  let filtered := keyOrder.filter (fun k => k ∈ valid)
  mruApplyLoop filtered filtered.length 0 none { mruInit with keyOrder := filtered }

/-- Keys currently tracked by an MRU policy (the key set of `_cacheKeyMap`). -/
def mruTracked (s : MRUState) : List String := s.keyMap.map Prod.fst

/-! ### MFU policy (`policies/mfu.ts`, class `MFUPolicy`)

State is `_cacheKeyMap : Map<hash, hitCount>`, `_keyOrderMap : Map<hitCount,
hash[]>` and the cached `_highestHitCount`. -/
structure MFUState where
  cacheKeyMap : List (String × Nat)
  keyOrderMap : List (Nat × List String)
  highestHitCount : Nat
deriving Repr, DecidableEq

/-- A freshly constructed `MFUPolicy`. -/
def mfuInit : MFUState := { cacheKeyMap := [], keyOrderMap := [], highestHitCount := 0 }

/-- `max(Array.from(map.keys())) || 0`: lodash `max` of the key array, with
`undefined` (empty array) and `0` both collapsing to `0`. -/
def maxKeys {α : Type} (l : List (Nat × α)) : Nat :=
  (l.map Prod.fst).foldl Nat.max 0

/-- `MFUPolicy.track` (mfu.ts lines 27-51): ensure the hit-count-0 bucket
exists (this happens before the already-tracked check), then no-op when
already tracked; otherwise record the hash with hit count 0 and push it onto
the 0 bucket. -/
def mfuTrack (h : String) (s : MFUState) : MFUState :=
  let kom := if (alook s.keyOrderMap 0).isSome then s.keyOrderMap else aset s.keyOrderMap 0 []
  if (alook s.cacheKeyMap h).isSome then { s with keyOrderMap := kom }
  else
    { s with
        cacheKeyMap := aset s.cacheKeyMap h 0
        keyOrderMap := aupd kom 0 (fun lst => lst ++ [h]) }

/-- `MFUPolicy.stopTracking` (mfu.ts lines 53-88): no-op when the hash is not
found in its hit-count bucket; otherwise delete it from both maps, and when the
bucket becomes empty delete the bucket and, if it was the cached
`_highestHitCount`, recompute the maximum over the REMAINING bucket keys
(which may name an empty bucket left behind by `hit`). -/
def mfuStopTracking (h : String) (s : MFUState) : MFUState :=
  match alook s.cacheKeyMap h with
  | none => s
  | some hits =>
      match alook s.keyOrderMap hits with
      | none => s
      | some lst =>
          if h ∈ lst then
            let lst' := lst.erase h
            let ckm := adel s.cacheKeyMap h
            let kom1 := aupd s.keyOrderMap hits (fun _ => lst')
            if lst'.length = 0 then
              let kom2 := adel kom1 hits
              { cacheKeyMap := ckm, keyOrderMap := kom2,
                highestHitCount :=
                  if s.highestHitCount = hits then maxKeys kom2 else s.highestHitCount }
            else { s with cacheKeyMap := ckm, keyOrderMap := kom1 }
          else s

/-- `MFUPolicy.hit` (mfu.ts lines 90-123): no-op when the hash is not found in
its bucket; otherwise create the `hits+1` bucket when missing, raise
`_highestHitCount` when exceeded, move the hash from its old bucket (which is
left in the map even when it becomes empty) to the end of the new one. -/
def mfuHit (h : String) (s : MFUState) : MFUState :=
  match alook s.cacheKeyMap h with
  | none => s
  | some hits =>
      match alook s.keyOrderMap hits with
      | none => s
      | some lst =>
          if h ∈ lst then
            let kom1 :=
              if (alook s.keyOrderMap (hits + 1)).isSome then s.keyOrderMap
              else aset s.keyOrderMap (hits + 1) []
            { cacheKeyMap := aset s.cacheKeyMap h (hits + 1),
              keyOrderMap := aupd (aupd kom1 hits (fun l => l.erase h)) (hits + 1)
                (fun l => l ++ [h]),
              highestHitCount := Nat.max s.highestHitCount (hits + 1) }
          else s

/-- `MFUPolicy.evict` (mfu.ts lines 125-155): pop the LAST key of the bucket at
`_highestHitCount` (`null` when the bucket is missing or empty); delete it from
`_cacheKeyMap`; when the bucket becomes empty delete it and recompute the
maximum over the remaining bucket keys. -/
def mfuEvict (s : MFUState) : Option String × MFUState :=
  match alook s.keyOrderMap s.highestHitCount with
  | none => (none, s)
  | some lst =>
      match lst.getLast? with
      | none => (none, s)
      | some h =>
          let lst' := lst.dropLast
          let kom1 := aupd s.keyOrderMap s.highestHitCount (fun _ => lst')
          let ckm := adel s.cacheKeyMap h
          if lst'.length = 0 then
            let kom2 := adel kom1 s.highestHitCount
            (some h,
              { cacheKeyMap := ckm
                keyOrderMap := kom2
                highestHitCount := maxKeys kom2 })
          else
            (some h, { s with cacheKeyMap := ckm, keyOrderMap := kom1 })

/-- `MFUPolicy.getSnapshot` (mfu.ts lines 157-176): the `_keyOrderMap`. -/
def mfuGetSnapshot (s : MFUState) : List (Nat × List String) := s.keyOrderMap

/-- One iteration of `MFUPolicy.applySnapshot`'s loop over the dumped buckets
(mfu.ts lines 178-203): filter the bucket's hashes by the valid set, raise
`_highestHitCount`, insert the bucket when missing and record each hash's hit
count. -/
def mfuApplyStep (valid : List String) (s : MFUState) (kv : Nat × List String) : MFUState :=
  let validHashes := kv.2.filter (fun k => k ∈ valid)
  let s1 := { s with highestHitCount :=
    if kv.1 > s.highestHitCount then kv.1 else s.highestHitCount }
  let s2 :=
    if (alook s1.keyOrderMap kv.1).isSome then s1
    else { s1 with keyOrderMap := aset s1.keyOrderMap kv.1 validHashes }
  { s2 with cacheKeyMap := validHashes.foldl (fun m h => aset m h kv.1) s2.cacheKeyMap }

/-- `MFUPolicy.applySnapshot` (mfu.ts lines 178-203) on a freshly constructed
policy: `mfuApplyStep` over every dumped bucket. -/
def mfuApplySnapshot (valid : List String) (kom : List (Nat × List String)) : MFUState :=
  kom.foldl (mfuApplyStep valid) mfuInit

/-- Keys currently tracked by an MFU policy (the key set of `_cacheKeyMap`). -/
def mfuTracked (s : MFUState) : List String := s.cacheKeyMap.map Prod.fst

/-! ### LFU policy

Modelled from the spec: the LFU policy source (`apps/api/src/policies/lfu.ts`)
is not present under `src/` (only its test file
`apps/api/test/policies/lfu.test.ts` is).  Per spec §4.2 the LFU policy is
symmetric to MFU with a cached `lowestHitCount`: `track` records a key at hit
count 0, `hit` moves a key one bucket up, `evict` removes the FIRST key of the
bucket at the lowest hit count (insertion order within a count), and after a
removal empties the bucket holding the cached extreme, the remaining counts are
scanned for the new extreme (or zero if empty), following §9(a). -/
structure LFUState where
  cacheKeyMap : List (String × Nat)
  keyOrderMap : List (Nat × List String)
  lowestHitCount : Nat
deriving Repr, DecidableEq

/-- Modelled from the spec: a fresh LFU policy. -/
def lfuInit : LFUState := { cacheKeyMap := [], keyOrderMap := [], lowestHitCount := 0 }

/-- Modelled from the spec: the minimum of the bucket keys, or zero if none. -/
def minKeys {α : Type} (l : List (Nat × α)) : Nat :=
  match l.map Prod.fst with
  | [] => 0
  | k :: ks => ks.foldl Nat.min k

/-- Modelled from the spec: LFU `track` is a pure no-op on an already-tracked
key (spec 4.2: "If already tracked, no-op"); otherwise it records the key at
hit count 0 in the (created when missing) 0 bucket, making 0 the lowest
count. -/
def lfuTrack (h : String) (s : LFUState) : LFUState :=
  if (alook s.cacheKeyMap h).isSome then s
  else
    let kom := if (alook s.keyOrderMap 0).isSome then s.keyOrderMap else aset s.keyOrderMap 0 []
    { cacheKeyMap := aset s.cacheKeyMap h 0,
      keyOrderMap := aupd kom 0 (fun lst => lst ++ [h]),
      lowestHitCount := 0 }

/-- Modelled from the spec: LFU `stopTracking` removes a tracked key from both
maps and rescans for the lowest count when the just-emptied bucket held it. -/
def lfuStopTracking (h : String) (s : LFUState) : LFUState :=
  match alook s.cacheKeyMap h with
  | none => s
  | some hits =>
      match alook s.keyOrderMap hits with
      | none => s
      | some lst =>
          if h ∈ lst then
            let lst' := lst.erase h
            let ckm := adel s.cacheKeyMap h
            if lst'.length = 0 then
              let kom2 := adel (aupd s.keyOrderMap hits (fun _ => lst')) hits
              { cacheKeyMap := ckm, keyOrderMap := kom2,
                lowestHitCount :=
                  if s.lowestHitCount = hits then minKeys kom2 else s.lowestHitCount }
            else
              { s with
                  cacheKeyMap := ckm
                  keyOrderMap := aupd s.keyOrderMap hits (fun _ => lst') }
          else s

/-- Modelled from the spec: LFU `hit` moves a tracked key one bucket up and
rescans for the lowest count when the just-emptied bucket held it. -/
def lfuHit (h : String) (s : LFUState) : LFUState :=
  match alook s.cacheKeyMap h with
  | none => s
  | some hits =>
      match alook s.keyOrderMap hits with
      | none => s
      | some lst =>
          if h ∈ lst then
            let kom1 :=
              if (alook s.keyOrderMap (hits + 1)).isSome then s.keyOrderMap
              else aset s.keyOrderMap (hits + 1) []
            let kom2 := aupd (aupd kom1 hits (fun l => l.erase h)) (hits + 1)
              (fun l => l ++ [h])
            let kom3 := if (lst.erase h).length = 0 then adel kom2 hits else kom2
            { cacheKeyMap := aset s.cacheKeyMap h (hits + 1),
              keyOrderMap := kom3,
              lowestHitCount :=
                if (lst.erase h).length = 0 ∧ s.lowestHitCount = hits then minKeys kom3
                else s.lowestHitCount }
          else s

/-- Modelled from the spec: LFU `evict` removes the first key of the bucket at
the lowest hit count, deleting the bucket and rescanning when it empties. -/
def lfuEvict (s : LFUState) : Option String × LFUState :=
  match alook s.keyOrderMap s.lowestHitCount with
  | none => (none, s)
  | some lst =>
      match lst with
      | [] => (none, s)
      | h :: rest =>
          let ckm := adel s.cacheKeyMap h
          if rest.length = 0 then
            let kom2 := adel (aupd s.keyOrderMap s.lowestHitCount (fun _ => rest))
              s.lowestHitCount
            (some h,
              { cacheKeyMap := ckm
                keyOrderMap := kom2
                lowestHitCount := minKeys kom2 })
          else
            (some h,
              { s with
                  cacheKeyMap := ckm
                  keyOrderMap := aupd s.keyOrderMap s.lowestHitCount (fun _ => rest) })

/-- Modelled from the spec: the LFU snapshot is the `keyOrderMap`. -/
def lfuGetSnapshot (s : LFUState) : List (Nat × List String) := s.keyOrderMap

/-- Modelled from the spec: one restored bucket's contribution to the LFU
`cacheKeyMap` — every hash of the bucket is recorded at the bucket's count. -/
def lfuApplyStep (m : List (String × Nat)) (kv : Nat × List String) : List (String × Nat) :=
  kv.2.foldl (fun m' h => aset m' h kv.1) m

/-- Modelled from the spec: LFU `applySnapshot` restores the buckets filtered
by the valid set and recomputes the lowest count. -/
def lfuApplySnapshot (valid : List String) (kom : List (Nat × List String)) : LFUState :=
  let restored := kom.map (fun kv => (kv.1, kv.2.filter (fun k => k ∈ valid)))
  { cacheKeyMap := restored.foldl lfuApplyStep []
    keyOrderMap := restored
    lowestHitCount := minKeys restored }

/-- Keys currently tracked by an LFU policy. -/
def lfuTracked (s : LFUState) : List String := s.cacheKeyMap.map Prod.fst

/-! ### The six policies as one dispatchable record

The drivers hold one policy instance per `Policy` tag
(`memory.ts` lines 57-64, `file-system.ts` lines 35-42) and branch on the tag;
the record below is that `Record<Policy, BasePolicy>`. -/

/-- The policy tags (`Policy` in `packages/types`). -/
inductive Policy where
  | lru
  | mru
  | rr
  | fifo
  | mfu
  | lfu
deriving DecidableEq, Repr

/-- A value per policy tag (`Record<Policy, α>`). -/
structure PerPolicy (α : Type) where
  lru : α
  mru : α
  rr : α
  fifo : α
  mfu : α
  lfu : α
deriving Repr

/-- Read the slot of a policy tag. -/
def getP {α : Type} (p : Policy) (x : PerPolicy α) : α :=
  match p with
  | .lru => x.lru
  | .mru => x.mru
  | .rr => x.rr
  | .fifo => x.fifo
  | .mfu => x.mfu
  | .lfu => x.lfu

/-- Write the slot of a policy tag. -/
def setP {α : Type} (p : Policy) (v : α) (x : PerPolicy α) : PerPolicy α :=
  match p with
  | .lru => { x with lru := v }
  | .mru => { x with mru := v }
  | .rr => { x with rr := v }
  | .fifo => { x with fifo := v }
  | .mfu => { x with mfu := v }
  | .lfu => { x with lfu := v }

/-- The same value in every slot. -/
def constP {α : Type} (a : α) : PerPolicy α :=
  { lru := a, mru := a, rr := a, fifo := a, mfu := a, lfu := a }

/-- The declared iteration order of `Object.keys(this._policies)`
(memory.ts lines 57-64): LRU, MRU, RR, FIFO, MFU, LFU. -/
def policyDeclOrder : List Policy := [.lru, .mru, .rr, .fifo, .mfu, .lfu]

/-- The states of the six policy instances owned by one driver. -/
structure PoliciesState where
  lru : LRUState
  mru : MRUState
  rr : RRState
  fifo : FIFOState
  mfu : MFUState
  lfu : LFUState
deriving Repr

/-- Six freshly constructed policies (driver construction). -/
def policiesInit : PoliciesState :=
  { lru := lruInit, mru := mruInit, rr := rrInit, fifo := fifoInit
    mfu := mfuInit, lfu := lfuInit }

/-- Dispatch `track` on a policy tag. -/
def polTrack (p : Policy) (h : String) (ps : PoliciesState) : PoliciesState :=
  match p with
  | .lru => { ps with lru := lruTrack h ps.lru }
  | .mru => { ps with mru := mruTrack h ps.mru }
  | .rr => { ps with rr := rrTrack h ps.rr }
  | .fifo => { ps with fifo := fifoTrack h ps.fifo }
  | .mfu => { ps with mfu := mfuTrack h ps.mfu }
  | .lfu => { ps with lfu := lfuTrack h ps.lfu }

/-- Dispatch `stopTracking` on a policy tag (the `clearTTL` each policy
performs is modelled by the driver-level wrappers below). -/
def polStopTracking (p : Policy) (h : String) (ps : PoliciesState) : PoliciesState :=
  match p with
  | .lru => { ps with lru := lruStopTracking h ps.lru }
  | .mru => { ps with mru := mruStopTracking h ps.mru }
  | .rr => { ps with rr := rrStopTracking h ps.rr }
  | .fifo => { ps with fifo := fifoStopTracking h ps.fifo }
  | .mfu => { ps with mfu := mfuStopTracking h ps.mfu }
  | .lfu => { ps with lfu := lfuStopTracking h ps.lfu }

/-- Dispatch `hit` on a policy tag. -/
def polHit (p : Policy) (h : String) (ps : PoliciesState) : PoliciesState :=
  match p with
  | .lru => { ps with lru := lruHit h ps.lru }
  | .mru => { ps with mru := mruHit h ps.mru }
  | .rr => { ps with rr := rrHit h ps.rr }
  | .fifo => { ps with fifo := fifoHit h ps.fifo }
  | .mfu => { ps with mfu := mfuHit h ps.mfu }
  | .lfu => { ps with lfu := lfuHit h ps.lfu }

/-- Dispatch `evict` on a policy tag; `pick` models the random draw of the RR
policy's `sample` and is ignored by the other five. -/
def polEvict (pick : Nat) (p : Policy) (ps : PoliciesState) :
    Option String × PoliciesState :=
  match p with
  | .lru => let (r, t) := lruEvict ps.lru; (r, { ps with lru := t })
  | .mru => let (r, t) := mruEvict ps.mru; (r, { ps with mru := t })
  | .rr => let (r, t) := rrEvict pick ps.rr; (r, { ps with rr := t })
  | .fifo => let (r, t) := fifoEvict ps.fifo; (r, { ps with fifo := t })
  | .mfu => let (r, t) := mfuEvict ps.mfu; (r, { ps with mfu := t })
  | .lfu => let (r, t) := lfuEvict ps.lfu; (r, { ps with lfu := t })

/-- Dispatch the policy's own `ttlExpired` subscriber: every policy's
constructor subscribes `stopTracking`, except `MRUPolicy`, whose subscriber
only unlinks the node (mru.ts lines 36-44). -/
def polTtlHandler (p : Policy) (h : String) (ps : PoliciesState) : PoliciesState :=
  match p with
  | .lru => { ps with lru := lruStopTracking h ps.lru }
  | .mru => { ps with mru := mruTtlHandler h ps.mru }
  | .rr => { ps with rr := rrStopTracking h ps.rr }
  | .fifo => { ps with fifo := fifoStopTracking h ps.fifo }
  | .mfu => { ps with mfu := mfuStopTracking h ps.mfu }
  | .lfu => { ps with lfu := lfuStopTracking h ps.lfu }

/-- The keys a policy currently tracks (the key set of its map / set
structure). -/
def polTracked (p : Policy) (ps : PoliciesState) : List String :=
  match p with
  | .lru => lruTracked ps.lru
  | .mru => mruTracked ps.mru
  | .rr => rrTracked ps.rr
  | .fifo => fifoTracked ps.fifo
  | .mfu => mfuTracked ps.mfu
  | .lfu => lfuTracked ps.lfu

/-! ### Memory driver (`drivers/memory.ts`, class `MemoryDriver`) -/

/-- The errors the admission check can throw (`ApiError` with message `Cache
too big` resp. `No caches to evict`, utils/errors.ts). -/
inductive ApiErr where
  | cacheTooBig
  | noCachesToEvict
deriving DecidableEq, Repr

/-- State owned by a `MemoryDriver`: the per-policy entry tables `_caches`,
the six policy instances `_policies`, the per-policy invalidation index
`_invalidations`, and each policy's `BasePolicy._ttlMap` (modelled as the map
from hash to the registered timer's duration). -/
structure MemoryDriverState where
  caches : PerPolicy (List (String × Cache))
  policies : PoliciesState
  invalidations : PerPolicy (List (String × List String))
  ttlMap : PerPolicy (List (String × Nat))

/-- A freshly initialized memory driver with no recovered snapshot. -/
def memoryInit : MemoryDriverState :=
  { caches := constP [], policies := policiesInit
    invalidations := constP [], ttlMap := constP [] }

/-- `BasePolicy.registerTTL` (base.ts lines 176-234) as it affects `_ttlMap`:
clear any previous timer for the hash, then store the new one with its
duration. -/
def registerTTLD (p : Policy) (h : String) (ttl : Nat) (s : MemoryDriverState) :
    MemoryDriverState :=
  { s with ttlMap := setP p (aset (adel (getP p s.ttlMap) h) h ttl) s.ttlMap }

/-- Driver-level `stopTracking`: the policy operation plus the `clearTTL` it
performs on `_ttlMap`. -/
def drvStopTracking (p : Policy) (h : String) (s : MemoryDriverState) :
    MemoryDriverState :=
  { s with
      policies := polStopTracking p h s.policies
      ttlMap := setP p (adel (getP p s.ttlMap) h) s.ttlMap }

/-- Driver-level `evict`: the policy operation plus the `clearTTL` it performs
on the evicted hash. -/
def drvEvict (pick : Nat) (p : Policy) (s : MemoryDriverState) :
    Option String × MemoryDriverState :=
  let (r, ps) := polEvict pick p s.policies
  match r with
  | some h =>
      (some h,
        { s with
            policies := ps
            ttlMap := setP p (adel (getP p s.ttlMap) h) s.ttlMap })
  | none => (none, { s with policies := ps })

/-- The invalidation hashes of an entry: `options.invalidatedBy` mapped through
`generateHash(identifier, false)`. -/
def invHashesOf (digest : Identifier → String) (c : Cache) : List String :=
  c.options.invalidatedBy.map (fun identifier => generateHash digest identifier false)

/-- The loop shared by the size-eviction paths
(memory.ts lines 362-369 and 422-429, file-system.ts lines 581-588 and
663-670) and by `FileSystemDriver.delete` (lines 372-374): for each
invalidation hash of the evicted entry, delete the cache hash from that
invalidation key's set when the set exists.  A set that becomes empty is left
in the index; no path deletes it. -/
def removeHashFromSets (invHashes : List String) (h : String)
    (inv : List (String × List String)) : List (String × List String) :=
  invHashes.foldl (fun acc ik => aupd acc ik (fun set => set.erase h)) inv

/-- `MemoryDriver.set` lines 197-208 and `_initSnapshots` lines 555-568: for
each invalidation hash, create its set when missing and add the cache hash. -/
def invAdd (invHashes : List String) (h : String)
    (inv : List (String × List String)) : List (String × List String) :=
  invHashes.foldl
    (fun acc ik =>
      let acc1 := if (alook acc ik).isSome then acc else aset acc ik []
      aupd acc1 ik (fun set => sadd set h))
    inv

/-- The entry-removal body of the size-eviction loop (memory.ts lines 355-369):
read the evicted entry's `invalidatedBy` before deleting it from `_caches`,
then remove the evicted hash from each named invalidation set.  When the hash
has no entry (`get` returned `undefined`), only the (no-op) delete happens. -/
def memEvictEntry (digest : Identifier → String) (p : Policy) (h : String)
    (s : MemoryDriverState) : MemoryDriverState :=
  match alook (getP p s.caches) h with
  | none => { s with caches := setP p (adel (getP p s.caches) h) s.caches }
  | some c =>
      { s with
          caches := setP p (adel (getP p s.caches) h) s.caches
          invalidations := setP p
            (removeHashFromSets (invHashesOf digest c) h (getP p s.invalidations))
            s.invalidations }

/-- The `while (currentCacheSize > currentMaxSize)` eviction loop of
`_ensureCacheSizeLimit` (memory.ts lines 350-382 for the target policy, lines
408-442 for the others).  `currentCacheSize` and `currentMaxSize` are both
captured before the loop and never reassigned inside it, so once the loop is
entered its condition stays true and it exits only through the
`hash === null` break — the returned hash is therefore the `null` that broke
the loop.  The recursion is bounded by an explicit `fuel`, chosen by the
caller to exceed any possible number of iterations for the states considered
here; `pick` supplies the RR `sample` draw for each iteration. -/
def memoryDrain (digest : Identifier → String) (pick : Nat → Nat) (p : Policy)
    (fuel : Nat) (s : MemoryDriverState) : Option String × MemoryDriverState :=
  match fuel with
  | 0 => (none, s)
  | n + 1 =>
      let (r, s1) := drvEvict (pick n) p s
      match r with
      | none => (none, s1)
      | some h => memoryDrain digest pick p n (memEvictEntry digest p h s1)

/-- Total number of entries and tracked keys in a memory driver state, plus
one: an upper bound on the eviction-loop iterations used as `memoryDrain`
fuel. -/
def memFuel (s : MemoryDriverState) : Nat :=
  s.caches.lru.length + s.caches.mru.length + s.caches.rr.length +
    s.caches.fifo.length + s.caches.mfu.length + s.caches.lfu.length +
    s.policies.lru.order.length + s.policies.mru.keyMap.length +
    s.policies.mru.heap.length + s.policies.rr.queue.length +
    s.policies.fifo.queue.length + s.policies.mfu.cacheKeyMap.length +
    s.policies.lfu.cacheKeyMap.length + 1

/-- `MemoryDriver._getCurrentCacheSize` (memory.ts lines 312-317): the summed
serialized size of all entries across all six policies.  The
`Buffer.byteLength(JSON.stringify(...))` measurement is the `sizeOf`
oracle. -/
def memCacheSize (sizeOf : Cache → Nat) (s : MemoryDriverState) : Nat :=
  (s.caches.lru ++ s.caches.mru ++ s.caches.rr ++ s.caches.fifo ++
      s.caches.lfu ++ s.caches.mfu).foldl (fun t kv => t + sizeOf kv.2) 0

/-- The cross-policy phase of `_ensureCacheSizeLimit` (memory.ts lines
400-461): iterate the remaining policies in declared order, run the captured
size eviction loop on each, return as soon as a loop ends with a non-null
hash, and throw `No caches to evict` when every loop ended with `null`. -/
def memoryEnsureOthers (digest : Identifier → String) (pick : Nat → Nat)
    (rem : List Policy) (s : MemoryDriverState) :
    MemoryDriverState × Option ApiErr :=
  match rem with
  | [] => (s, some .noCachesToEvict)
  | q :: rest =>
      let (r, s1) := memoryDrain digest pick q (memFuel s) s
      if r.isSome then (s1, none)
      else memoryEnsureOthers digest pick rest s1

/-- `MemoryDriver._ensureCacheSizeLimit` (memory.ts lines 319-464): capture
`currentCacheSize` once; throw `Cache too big` when the new entry alone
exceeds `maxSize`; return when `currentCacheSize <= maxSize - cacheSize`;
otherwise run the captured-size eviction loop on the target policy, return if
it produced a non-null hash (it cannot — the loop only exits on `null`), throw
`No caches to evict` when `evictFromOthers` is disabled, and otherwise fall
through to the remaining policies. -/
def memoryEnsure (digest : Identifier → String) (sizeOf : Cache → Nat)
    (maxSize : Nat) (evictFromOthers : Bool) (pick : Nat → Nat) (p : Policy)
    (cache : Cache) (s : MemoryDriverState) : MemoryDriverState × Option ApiErr :=
  let currentCacheSize := memCacheSize sizeOf s
  let cacheSize := sizeOf cache
  if cacheSize > maxSize then (s, some .cacheTooBig)
  else
    let currentMaxSize := maxSize - cacheSize
    if currentCacheSize ≤ currentMaxSize then (s, none)
    else
      let (r, s1) := memoryDrain digest pick p (memFuel s) s
      if r.isSome then (s1, none)
      else if !evictFromOthers then (s1, some .noCachesToEvict)
      else memoryEnsureOthers digest pick (policyDeclOrder.filter (fun q => q ≠ p)) s1

/-- `MemoryDriver.set` (memory.ts lines 167-215): hash the identifier; return
`false` when the hash is present and `force` is unset; otherwise build the
entry with `generateCache` (which registers a TTL timer when `ttl > 0`,
base.ts line 130), run admission, and under the mutex stop tracking when
forced, track the hash, store the entry and register its invalidation
identifiers.  An admission error propagates to the caller with all state
changes made so far kept (JavaScript exceptions do not roll back the
mutations). -/
def memorySet (digest : Identifier → String) (sizeOf : Cache → Nat)
    (maxSize : Nat) (evictFromOthers : Bool) (pick : Nat → Nat) (now : Nat)
    (identifier : Identifier) (p : Policy) (partialCache : CreateCache)
    (force : Bool) (s : MemoryDriverState) :
    MemoryDriverState × Except ApiErr Bool :=
  let hash := generateHash digest identifier true
  if (alook (getP p s.caches) hash).isSome && !force then (s, .ok false)
  else
    let cache := generateCache now identifier partialCache
    let s1 := if cache.options.ttl > 0 then registerTTLD p hash cache.options.ttl s else s
    match memoryEnsure digest sizeOf maxSize evictFromOthers pick p cache s1 with
    | (s2, some e) => (s2, .error e)
    | (s2, none) =>
        let s3 := if force then drvStopTracking p hash s2 else s2
        let s4 := { s3 with policies := polTrack p hash s3.policies }
        let s5 := { s4 with caches := setP p (aset (getP p s4.caches) hash cache) s4.caches }
        let s6 :=
          if !cache.options.invalidatedBy.isEmpty then
            { s5 with
                invalidations := setP p
                  (invAdd (invHashesOf digest cache) hash (getP p s5.invalidations))
                  s5.invalidations }
          else s5
        (s6, .ok true)

/-- The composite effect of a TTL timer firing for `hash` in policy `p` of the
memory driver: the `BasePolicy` timer callback deletes the hash from `_ttlMap`
(base.ts line 218) and emits `ttlExpired`; the policy's own subscriber runs
(`stopTracking` for every policy except MRU, whose subscriber only unlinks the
node), and the driver's subscriber installed by `init` (memory.ts lines
102-107) deletes the entry from that policy's `_caches` table.  No subscriber
touches `_invalidations`. -/
def memoryTtlExpire (p : Policy) (h : String) (s : MemoryDriverState) :
    MemoryDriverState :=
  let s1 := { s with ttlMap := setP p (adel (getP p s.ttlMap) h) s.ttlMap }
  let s2 := { s1 with policies := polTtlHandler p h s1.policies }
  { s2 with caches := setP p (adel (getP p s2.caches) h) s2.caches }

/-- The per-hash body of `MemoryDriver.invalidate`'s eviction loop (memory.ts
lines 251-255): stop tracking the affected cache hash and delete its entry
from the table. -/
def memInvalidateEvictOne (p : Policy) (acc : MemoryDriverState) (ch : String) :
    MemoryDriverState :=
  let acc1 := drvStopTracking p ch acc
  { acc1 with caches := setP p (adel (getP p acc1.caches) ch) acc1.caches }

/-- One iteration of `MemoryDriver.invalidate` (memory.ts lines 229-273) for a
single invalidation identifier: hash it as an invalidation key; when its set
is missing or empty, do nothing; otherwise stop tracking and delete every
affected cache hash (`memInvalidateEvictOne`), then delete this invalidation
key's mapping.  Sets of other invalidation keys are not touched. -/
def memoryInvalidateOne (digest : Identifier → String) (p : Policy)
    (identifier : Identifier) (s : MemoryDriverState) : MemoryDriverState :=
  let ih := generateHash digest identifier false
  match alook (getP p s.invalidations) ih with
  | none => s
  | some affected =>
      if affected = [] then s
      else
        let s1 := affected.foldl (memInvalidateEvictOne p) s
        { s1 with invalidations := setP p (adel (getP p s1.invalidations) ih) s1.invalidations }

/-! ### Memory snapshot recovery (`MemoryDriver._initSnapshots`) -/

/-- The state the per-policy recovery loop of `_initSnapshots` builds: the
restored entry table, the `validHashes` set, the final contents of the
policy's `_ttlMap` (hash → registered duration), and the rebuilt invalidation
index. -/
structure RecoveryOut where
  table : List (String × Cache)
  valid : List String
  ttlRegs : List (String × Nat)
  inv : List (String × List String)

/-- The per-policy entry loop of `MemoryDriver._initSnapshots` (memory.ts
lines 532-569): for each snapshot entry, drop it when `options.ttl` is truthy
and `now > ctime + ttl`; otherwise store it in `_caches`, add the hash to
`validHashes`, when `ttl` is truthy call `registerTTL(hash,
cache.options.ttl)` — the FULL original duration — and re-register its
invalidation identifiers.  After the loop the driver calls
`applySnapshot(validHashes, snapshot.policies[policy])`.  This is the loop
body for one entry. -/
def memRecoverStep (digest : Identifier → String) (now : Nat)
    (acc : RecoveryOut) (kv : String × Cache) : RecoveryOut :=
  if kv.2.options.ttl ≠ 0 ∧ now > kv.2.ctime + kv.2.options.ttl then acc
  else
    let acc1 := { acc with table := aset acc.table kv.1 kv.2, valid := sadd acc.valid kv.1 }
    let acc2 :=
      if kv.2.options.ttl ≠ 0 then
        { acc1 with ttlRegs := aset (adel acc1.ttlRegs kv.1) kv.1 kv.2.options.ttl }
      else acc1
    if !kv.2.options.invalidatedBy.isEmpty then
      { acc2 with inv := invAdd (invHashesOf digest kv.2) kv.1 acc2.inv }
    else acc2

/-- The recovery loop folded over the snapshot entries, starting from the
empty recovery state. -/
def memoryRecoverPolicy (digest : Identifier → String) (now : Nat)
    (entries : List (String × Cache)) : RecoveryOut :=
  entries.foldl (memRecoverStep digest now)
    { table := [], valid := [], ttlRegs := [], inv := [] }

/-! ### File-system driver (`drivers/file-system.ts`, class `FileSystemDriver`)

Disk state is embedded as decoded content: `files` maps each policy to the map
from cache hash to the entry stored in `<hash>.dat` (a missing key is a
missing or empty file), `invFile` is the decoded
`invalidation-identifiers.dat`, `ttlFile` the decoded `ttl.dat` (hash →
absolute expiration), and `ttlTimers` each policy's in-memory
`BasePolicy._ttlMap` durations.  File locks serialize access and are invisible
to this sequential model. -/
structure FSDriverState where
  files : PerPolicy (List (String × Cache))
  policies : PoliciesState
  invFile : PerPolicy (List (String × List String))
  ttlFile : PerPolicy (List (String × Nat))
  ttlTimers : PerPolicy (List (String × Nat))

/-- A freshly initialized file-system driver with empty storage. -/
def fsInit : FSDriverState :=
  { files := constP [], policies := policiesInit, invFile := constP []
    ttlFile := constP [], ttlTimers := constP [] }

/-- `BasePolicy.registerTTL` on the file-system driver's policy timers. -/
def fsRegisterTTLTimer (p : Policy) (h : String) (ttl : Nat) (s : FSDriverState) :
    FSDriverState :=
  { s with ttlTimers := setP p (aset (adel (getP p s.ttlTimers) h) h ttl) s.ttlTimers }

/-- Driver-level `stopTracking` for the file-system driver: the policy
operation plus its `clearTTL`. -/
def fsDrvStopTracking (p : Policy) (h : String) (s : FSDriverState) : FSDriverState :=
  { s with
      policies := polStopTracking p h s.policies
      ttlTimers := setP p (adel (getP p s.ttlTimers) h) s.ttlTimers }

/-- Driver-level `evict` for the file-system driver. -/
def fsDrvEvict (pick : Nat) (p : Policy) (s : FSDriverState) :
    Option String × FSDriverState :=
  let (r, ps) := polEvict pick p s.policies
  match r with
  | some h =>
      (some h,
        { s with
            policies := ps
            ttlTimers := setP p (adel (getP p s.ttlTimers) h) s.ttlTimers })
  | none => (none, { s with policies := ps })

/-- The captured-size eviction loop of `FileSystemDriver._ensureCacheSizeLimit`
(file-system.ts lines 558-601 for the target policy, lines 640-683 for the
others).  Like the memory driver, `currentCacheSize` is read once before the
loop and never updated, so the loop only exits through the `null` break.  A
missing or empty cache file logs a warning and `continue`s without deleting
anything. -/
def fsDrain (digest : Identifier → String) (pick : Nat → Nat) (p : Policy)
    (fuel : Nat) (s : FSDriverState) : Option String × FSDriverState :=
  match fuel with
  | 0 => (none, s)
  | n + 1 =>
      let (r, s1) := fsDrvEvict (pick n) p s
      match r with
      | none => (none, s1)
      | some h =>
          match alook (getP p s1.files) h with
          | none => fsDrain digest pick p n s1
          | some c =>
              let s2 :=
                { s1 with
                    files := setP p (adel (getP p s1.files) h) s1.files
                    invFile := setP p
                      (removeHashFromSets (invHashesOf digest c) h (getP p s1.invFile))
                      s1.invFile }
              fsDrain digest pick p n s2

/-- Fuel bound for the file-system eviction loops. -/
def fsFuel (s : FSDriverState) : Nat :=
  s.files.lru.length + s.files.mru.length + s.files.rr.length +
    s.files.fifo.length + s.files.mfu.length + s.files.lfu.length +
    s.policies.lru.order.length + s.policies.mru.keyMap.length +
    s.policies.mru.heap.length + s.policies.rr.queue.length +
    s.policies.fifo.queue.length + s.policies.mfu.cacheKeyMap.length +
    s.policies.lfu.cacheKeyMap.length + 1

/-- The cross-policy phase of the file-system `_ensureCacheSizeLimit`
(file-system.ts lines 622-705). -/
def fsEnsureOthers (digest : Identifier → String) (pick : Nat → Nat)
    (rem : List Policy) (s : FSDriverState) : FSDriverState × Option ApiErr :=
  match rem with
  | [] => (s, some .noCachesToEvict)
  | q :: rest =>
      let (r, s1) := fsDrain digest pick q (fsFuel s) s
      if r.isSome then (s1, none)
      else fsEnsureOthers digest pick rest s1

/-- `FileSystemDriver._ensureCacheSizeLimit` (file-system.ts lines 516-708):
`currentCacheSize` comes from `checkDiskSpace` on the mount path (an external
measurement passed in as an argument); `cacheSize` is the encoded entry's byte
length (`sizeOf`).  Throw `Cache too big` when the entry alone exceeds
`maxSize`; return when the captured size fits; otherwise run the captured-size
loop on the target policy, throw `No caches to evict` when `evictFromOthers`
is unset, and otherwise try the remaining policies in declared order. -/
def fsEnsure (digest : Identifier → String) (sizeOf : Cache → Nat)
    (maxSize : Nat) (evictFromOthers : Bool) (pick : Nat → Nat)
    (currentCacheSize : Nat) (p : Policy) (cache : Cache) (s : FSDriverState) :
    FSDriverState × Option ApiErr :=
  let cacheSize := sizeOf cache
  if cacheSize > maxSize then (s, some .cacheTooBig)
  else
    let currentMaxSize := maxSize - cacheSize
    if currentCacheSize ≤ currentMaxSize then (s, none)
    else
      let (r, s1) := fsDrain digest pick p (fsFuel s) s
      if r.isSome then (s1, none)
      else if !evictFromOthers then (s1, some .noCachesToEvict)
      else fsEnsureOthers digest pick (policyDeclOrder.filter (fun q => q ≠ p)) s1

/-- `FileSystemDriver.set` (file-system.ts lines 232-312): return `false` when
the cache file exists and `force` is unset; otherwise build the entry with
`generateCache` (registering a policy TTL timer when `ttl > 0`), run
admission, and on success stop tracking when forced, track the hash, write the
cache file, add the invalidation identifiers to
`invalidation-identifiers.dat`, and when `ttl > 0` record `ctime + ttl` in
`ttl.dat`. -/
def fsSet (digest : Identifier → String) (sizeOf : Cache → Nat) (maxSize : Nat)
    (evictFromOthers : Bool) (pick : Nat → Nat) (currentCacheSize : Nat)
    (now : Nat) (identifier : Identifier) (p : Policy)
    (partialCache : CreateCache) (force : Bool) (s : FSDriverState) :
    FSDriverState × Except ApiErr Bool :=
  let hash := generateHash digest identifier true
  if (alook (getP p s.files) hash).isSome && !force then (s, .ok false)
  else
    let cache := generateCache now identifier partialCache
    let s1 := if cache.options.ttl > 0 then fsRegisterTTLTimer p hash cache.options.ttl s else s
    match fsEnsure digest sizeOf maxSize evictFromOthers pick currentCacheSize p cache s1 with
    | (s2, some e) => (s2, .error e)
    | (s2, none) =>
        let s3 := if force then fsDrvStopTracking p hash s2 else s2
        let s4 := { s3 with policies := polTrack p hash s3.policies }
        let s5 := { s4 with files := setP p (aset (getP p s4.files) hash cache) s4.files }
        let s6 :=
          if !cache.options.invalidatedBy.isEmpty then
            { s5 with
                invFile := setP p
                  (invAdd (invHashesOf digest cache) hash (getP p s5.invFile))
                  s5.invFile }
          else s5
        let s7 :=
          if cache.options.ttl > 0 then
            { s6 with
                ttlFile := setP p
                  (aset (getP p s6.ttlFile) hash (cache.ctime + cache.options.ttl))
                  s6.ttlFile }
          else s6
        (s7, .ok true)

/-- `FileSystemDriver.delete` (file-system.ts lines 314-383): return when the
cache file does not exist; otherwise read the entry, remove the file, stop
tracking the hash, and when `invalidatedBy` is non-empty delete the hash from
each of its invalidation keys' sets in `invalidation-identifiers.dat` (sets
that become empty are written back, not dropped). -/
def fsDelete (digest : Identifier → String) (identifier : Identifier)
    (p : Policy) (s : FSDriverState) : FSDriverState :=
  let hash := generateHash digest identifier true
  match alook (getP p s.files) hash with
  | none => s
  | some c =>
      let s1 := { s with files := setP p (adel (getP p s.files) hash) s.files }
      let s2 := fsDrvStopTracking p hash s1
      if !c.options.invalidatedBy.isEmpty then
        { s2 with
            invFile := setP p
              (removeHashFromSets (invHashesOf digest c) hash (getP p s2.invFile))
              s2.invFile }
      else s2

/-- The composite effect of a TTL timer firing for `hash` in policy `p` of the
file-system driver: the `BasePolicy` callback removes the `_ttlMap` entry and
emits `ttlExpired`; the policy's subscriber runs (`stopTracking`, or the MRU
unlink), and the driver's subscribers installed by `init` (file-system.ts
lines 142-158) remove the cache file and drop the hash from `ttl.dat`.
`invalidation-identifiers.dat` is not touched. -/
def fsTtlExpire (p : Policy) (h : String) (s : FSDriverState) : FSDriverState :=
  let s1 := { s with ttlTimers := setP p (adel (getP p s.ttlTimers) h) s.ttlTimers }
  let s2 := { s1 with policies := polTtlHandler p h s1.policies }
  { s2 with
      files := setP p (adel (getP p s2.files) h) s2.files
      ttlFile := setP p (adel (getP p s2.ttlFile) h) s2.ttlFile }

/-- The result of the file-system TTL recovery: the surviving `ttl.dat`
contents, the cache files removed, and the relative durations handed to
`registerTTL`. -/
structure FSTtlRecoveryOut where
  kept : List (String × Nat)
  removedFiles : List String
  regs : List (String × Nat)

/-- The TTL-recovery loop of `FileSystemDriver.init` (file-system.ts lines
98-123), per policy: read `ttl.dat`; for each entry whose absolute expiration
lies in the past (`Date.now() > timestamp`), drop it from the map and remove
the corresponding cache file; re-register every remaining entry as a relative
timer with duration `timestamp - Date.now()`; write the pruned map back.
This is the loop body for one `ttl.dat` entry. -/
def fsRecoverStep (now : Nat) (acc : FSTtlRecoveryOut) (kv : String × Nat) :
    FSTtlRecoveryOut :=
  if now > kv.2 then { acc with removedFiles := acc.removedFiles ++ [kv.1] }
  else
    { acc with
        kept := aset acc.kept kv.1 kv.2
        regs := aset (adel acc.regs kv.1) kv.1 (kv.2 - now) }

/-- The TTL-recovery loop folded over the decoded `ttl.dat` entries. -/
def fsRecoverTTL (now : Nat) (ttlMap : List (String × Nat)) : FSTtlRecoveryOut :=
  ttlMap.foldl (fsRecoverStep now) { kept := [], removedFiles := [], regs := [] }

/-! ### Concrete instances used by the closed theorems below -/

/-- A concrete digest standing in for the external `object-hash` library in
closed instances (the engine treats the digest as an opaque function of the
identifier). -/
def dStr : Identifier → String := fun identifier =>
  match identifier with
  | .str s => s
  | _ => "q"

/-- A plain `set` payload with no option overrides. -/
def plainPartial : CreateCache :=
  { data := "d", metadata := none, ttl := none, invalidatedBy := none }

/-- The memory driver state of spec scenario 5: one 600-byte entry tracked by
LRU and one 600-byte entry tracked by MRU (all sizes are delivered by the
constant-600 `sizeOf` oracle passed at the call sites). -/
def scenario5State : MemoryDriverState :=
  { caches := setP .lru [("c.A", generateCache 0 (.str "A") plainPartial)]
      (setP .mru [("c.B", generateCache 0 (.str "B") plainPartial)] (constP []))
    policies := polTrack .mru "c.B" (polTrack .lru "c.A" policiesInit)
    invalidations := constP []
    ttlMap := constP [] }

/-- The MRU policy state obtained by tracking `A`, `B`, `C` and then hitting
`A` (spec scenario 2). -/
def mruABC : MRUState := mruHit "A" (mruTrack "C" (mruTrack "B" (mruTrack "A" mruInit)))

/-- An entry with a 100ms TTL created at time 0. -/
def ttlCache : Cache :=
  { identifier := .str "A", data := "d", metadata := none, hits := 0
    ctime := 0, atime := 0, options := { ttl := 100, invalidatedBy := [] } }

/-- An entry invalidated by the identifier `x`, tracked by LRU at hash `c.A`,
with the invalidation index mapping `i.x` to it. -/
def invCache : Cache :=
  { identifier := .str "A", data := "d", metadata := none, hits := 0
    ctime := 0, atime := 0, options := { ttl := 100, invalidatedBy := [.str "x"] } }

/-- Memory driver state holding `invCache` under LRU with its invalidation
index entry, and its TTL timer registered. -/
def invState : MemoryDriverState :=
  { caches := setP .lru [("c.A", invCache)] (constP [])
    policies := polTrack .lru "c.A" policiesInit
    invalidations := setP .lru [("i.x", ["c.A"])] (constP [])
    ttlMap := setP .lru [("c.A", 100)] (constP []) }

/-! ### Draining a policy and reachable policy states

`drain` calls `evict()` repeatedly until it returns `null`, collecting the
returned keys; the fuel is the structure's length, which bounds the number of
successful evictions.  The `Reach` predicates describe every state a policy
can be in after any sequence of `track` / `stopTracking` / `hit` / `evict`
calls on a freshly constructed instance. -/

/-- Fuelled LRU drain. -/
def lruDrainF : Nat → LRUState → List String
  | 0, _ => []
  | n + 1, s =>
      match lruEvict s with
      | (none, _) => []
      | (some k, s') => k :: lruDrainF n s'

/-- Drain an LRU policy by calling `evict()` until it returns `null`. -/
def lruDrain (s : LRUState) : List String := lruDrainF s.order.length s

/-- Fuelled FIFO drain. -/
def fifoDrainF : Nat → FIFOState → List String
  | 0, _ => []
  | n + 1, s =>
      match fifoEvict s with
      | (none, _) => []
      | (some k, s') => k :: fifoDrainF n s'

/-- Drain a FIFO policy by calling `evict()` until it returns `null`. -/
def fifoDrain (s : FIFOState) : List String := fifoDrainF s.queue.length s

/-- LRU policy states reachable from a fresh instance. -/
inductive LRUReach : LRUState → Prop where
  | init : LRUReach lruInit
  | track (h : String) (s : LRUState) : LRUReach s → LRUReach (lruTrack h s)
  | stop (h : String) (s : LRUState) : LRUReach s → LRUReach (lruStopTracking h s)
  | hit (h : String) (s : LRUState) : LRUReach s → LRUReach (lruHit h s)
  | evict (s : LRUState) : LRUReach s → LRUReach (lruEvict s).2

/-- FIFO policy states reachable from a fresh instance. -/
inductive FIFOReach : FIFOState → Prop where
  | init : FIFOReach fifoInit
  | track (h : String) (s : FIFOState) : FIFOReach s → FIFOReach (fifoTrack h s)
  | stop (h : String) (s : FIFOState) : FIFOReach s → FIFOReach (fifoStopTracking h s)
  | hit (h : String) (s : FIFOState) : FIFOReach s → FIFOReach (fifoHit h s)
  | evict (s : FIFOState) : FIFOReach s → FIFOReach (fifoEvict s).2

/-- Fuelled drain of an MFU policy: repeated `evict` until it returns `null`. -/
def mfuDrainF : Nat → MFUState → List String
  | 0, _ => []
  | n + 1, s =>
      match mfuEvict s with
      | (none, _) => []
      | (some k, s') => k :: mfuDrainF n s'

/-- Total number of keys stored across the MFU hit-count buckets (each
successful `evict` removes exactly one, so this bounds the drain length). -/
def mfuSize (s : MFUState) : Nat := (s.keyOrderMap.map (fun kv => kv.2.length)).sum

/-- Draining an MFU policy: `evict` until it returns `null`. -/
def mfuDrain (s : MFUState) : List String := mfuDrainF (mfuSize s) s

/-- Fuelled drain of an LFU policy: repeated `evict` until it returns `null`. -/
def lfuDrainF : Nat → LFUState → List String
  | 0, _ => []
  | n + 1, s =>
      match lfuEvict s with
      | (none, _) => []
      | (some k, s') => k :: lfuDrainF n s'

/-- Total number of keys stored across the LFU hit-count buckets. -/
def lfuSize (s : LFUState) : Nat := (s.keyOrderMap.map (fun kv => kv.2.length)).sum

/-- Draining an LFU policy: `evict` until it returns `null`. -/
def lfuDrain (s : LFUState) : List String := lfuDrainF (lfuSize s) s

/-- The MFU states reachable from a freshly constructed policy through the
`BasePolicy` interface. -/
inductive MFUReach : MFUState → Prop where
  | init : MFUReach mfuInit
  | track (h : String) (s : MFUState) : MFUReach s → MFUReach (mfuTrack h s)
  | stop (h : String) (s : MFUState) : MFUReach s → MFUReach (mfuStopTracking h s)
  | hit (h : String) (s : MFUState) : MFUReach s → MFUReach (mfuHit h s)
  | evict (s : MFUState) : MFUReach s → MFUReach (mfuEvict s).2

/-- The LFU states reachable from a freshly constructed policy through the
`BasePolicy` interface. -/
inductive LFUReach : LFUState → Prop where
  | init : LFUReach lfuInit
  | track (h : String) (s : LFUState) : LFUReach s → LFUReach (lfuTrack h s)
  | stop (h : String) (s : LFUState) : LFUReach s → LFUReach (lfuStopTracking h s)
  | hit (h : String) (s : LFUState) : LFUReach s → LFUReach (lfuHit h s)
  | evict (s : LFUState) : LFUReach s → LFUReach (lfuEvict s).2

/-- The numeric core of `maxKeys`: lodash `max || 0` over a plain `Nat` list
(so `maxKeys l = maxNat (l.map Prod.fst)`). -/
def maxNat (l : List Nat) : Nat := l.foldl Nat.max 0

/-- The numeric core of `minKeys`: the minimum of a plain `Nat` list, zero when
empty (so `minKeys l = minNat (l.map Prod.fst)`). -/
def minNat (l : List Nat) : Nat :=
  match l with
  | [] => 0
  | k :: ks => ks.foldl Nat.min k

/-! ### Theorems -/

/-- C1 (code bug): in the spec's size-limit cross-policy scenario
(`maxSize = 1000`, `evictFromOthers = true`, a 600-byte LRU entry, a 600-byte
MRU entry, a new 600-byte LRU `set`), the embedded `MemoryDriver.set` does
evict the LRU entry and then the MRU entry, but instead of returning `true` it
fails with `No caches to evict`: `_ensureCacheSizeLimit` compares against a
`currentCacheSize` captured before the loop, so its eviction loops exit only
when `evict()` returns `null`, and the returned hash is then always `null`,
which sends the code into the final throw even though 1200 bytes were
freed. -/
theorem c1_admission_stale_size :
    (memorySet dStr (fun _ => 600) 1000 true (fun _ => 0) 0 (.str "N") .lru
        plainPartial false scenario5State).2 = .error .noCachesToEvict ∧
    (memorySet dStr (fun _ => 600) 1000 true (fun _ => 0) 0 (.str "N") .lru
        plainPartial false scenario5State).1.caches.lru.map Prod.fst = [] ∧
    (memorySet dStr (fun _ => 600) 1000 true (fun _ => 0) 0 (.str "N") .lru
        plainPartial false scenario5State).1.caches.mru.map Prod.fst = [] :=
  ⟨rfl, rfl, rfl⟩

/-- C2 (code bug): a completed TTL expiry on the MRU policy of the memory
driver breaks `entryTable.keys == policy.trackedKeys`: the driver's subscriber
deletes the entry from `_caches`, but `MRUPolicy`'s own `ttlExpired` subscriber
only unlinks the node and leaves the key in `_cacheKeyMap` (and `_keyOrder`),
so afterwards the table keys are `[]` while the policy still tracks the
key. -/
theorem c2_mru_ttl_desync :
    (memoryTtlExpire .mru "c.A"
        { caches := setP .mru [("c.A", ttlCache)] (constP [])
          policies := polTrack .mru "c.A" policiesInit
          invalidations := constP []
          ttlMap := setP .mru [("c.A", 100)] (constP []) }).caches.mru.map Prod.fst
      = [] ∧
    polTracked .mru (memoryTtlExpire .mru "c.A"
        { caches := setP .mru [("c.A", ttlCache)] (constP [])
          policies := polTrack .mru "c.A" policiesInit
          invalidations := constP []
          ttlMap := setP .mru [("c.A", 100)] (constP []) }).policies = ["c.A"] ∧
    ([] : List String) ≠ ["c.A"] :=
  ⟨rfl, rfl, by decide⟩

/-- C3 (code bug): on the MRU policy tracking `A`, `B`, `C` with `A` hit (spec
scenario 2), the first `evict()` returns `A` as predicted, but the second
returns `null` even though `B` and `C` are still tracked — `evict` takes the
new `_mostRecentlyUsed` from the evicted tail's `next` pointer, which is
always `null` — so draining does NOT return every tracked key exactly
once. -/
theorem c3_mru_drain_incomplete :
    (mruEvict mruABC).1 = some "A" ∧
    (mruEvict (mruEvict mruABC).2).1 = none ∧
    mruTracked (mruEvict mruABC).2 = ["B", "C"] :=
  ⟨rfl, rfl, rfl⟩

/-- C8 (code bug): on the RR policy tracking `A` then `B`, an `evict` whose
`sample` draw picks `B` removes the queue HEAD `A` (the code calls
`queue.shift()` instead of removing the sampled element) while deleting `B`
from `_hashes`; the next `evict` then returns `B` again — a key that is no
longer tracked — and leaves the tracked set `["A"]` unchanged instead of
reducing it by one. -/
theorem c8_rr_evict_untracked :
    (rrEvict 1 (rrTrack "B" (rrTrack "A" rrInit))).1 = some "B" ∧
    rrTracked (rrEvict 1 (rrTrack "B" (rrTrack "A" rrInit))).2 = ["A"] ∧
    (rrEvict 0 (rrEvict 1 (rrTrack "B" (rrTrack "A" rrInit))).2).1 = some "B" ∧
    "B" ∉ rrTracked (rrEvict 1 (rrTrack "B" (rrTrack "A" rrInit))).2 ∧
    rrTracked (rrEvict 0 (rrEvict 1 (rrTrack "B" (rrTrack "A" rrInit))).2).2 = ["A"] :=
  ⟨rfl, rfl, rfl, by decide, rfl⟩

/-- C6 (counterexample): the MRU snapshot round trip does not reconstruct the
eviction order.  After tracking `A`, `B`, `C` and hitting `A`, the original
policy's first `evict()` returns `A` (the chain tail), but the policy restored
from `applySnapshot(trackedKeys, getSnapshot())` evicts `C` first: `hit` only
swapped `A` one position forward in `_keyOrder` (`[B, A, C]`) instead of
moving it to the end, so the restored order differs from the chain. -/
theorem c6_mru_roundtrip_fails :
    (mruEvict mruABC).1 = some "A" ∧
    (mruEvict (mruApplySnapshot (mruTracked mruABC) (mruGetSnapshot mruABC))).1
      = some "C" ∧
    (mruEvict (mruApplySnapshot (mruTracked mruABC) (mruGetSnapshot mruABC))).1
      ≠ (mruEvict mruABC).1 :=
  ⟨rfl, rfl, by decide⟩

/-- C4 (counterexample): recovering, at time 50, a memory snapshot holding an
entry with `ctime = 0` and `ttl = 100` keeps the entry but registers its timer
with the FULL original duration 100 (`registerTTL(hash, cache.options.ttl)`,
memory.ts line 554), not with the remaining duration
`(ctime + ttl) - now = 50`, so the entry expires a full TTL after recovery
rather than at `ctime + ttl`. -/
theorem c4_memory_recovery_registers_full_ttl :
    (memoryRecoverPolicy dStr 50 [("c.A", ttlCache)]).table.map Prod.fst = ["c.A"] ∧
    (memoryRecoverPolicy dStr 50 [("c.A", ttlCache)]).ttlRegs = [("c.A", 100)] ∧
    (ttlCache.ctime + ttlCache.options.ttl) - 50 = 50 ∧
    (memoryRecoverPolicy dStr 50 [("c.A", ttlCache)]).ttlRegs ≠ [("c.A", 50)] :=
  ⟨rfl, rfl, rfl, by decide⟩

/-- C5 (counterexample): a TTL expiry in the memory driver does not remove the
evicted cache key from the invalidation index.  For an entry `c.A` declared
`invalidatedBy` the identifier `x` (index `i.x ↦ {c.A}`), firing its TTL
removes the entry from the table but leaves the invalidation index unchanged,
still containing `c.A` in the set of `i.x` — the claim requires the key to be
removed from every such set. -/
theorem c5_ttl_expiry_keeps_invalidation_entry :
    (memoryTtlExpire .lru "c.A" invState).caches.lru.map Prod.fst = [] ∧
    (memoryTtlExpire .lru "c.A" invState).invalidations.lru = [("i.x", ["c.A"])] ∧
    "c.A" ∈ (alook (memoryTtlExpire .lru "c.A" invState).invalidations.lru "i.x").getD [] :=
  ⟨rfl, rfl, by decide⟩

/-- C9 (confirmed): `generateHash` is a pure function of the identifier (equal
identifiers give equal hashes for any digest), a cache hash is `c.` followed
by the digest, an invalidation hash is `i.` followed by the digest, and a
cache hash is never equal to an invalidation hash (the first character
differs). -/
theorem c9_generate_hash_tagged (digest : Identifier → String)
    (i j : Identifier) :
    generateHash digest i true = "c." ++ digest i ∧
    generateHash digest i false = "i." ++ digest i ∧
    generateHash digest i true ≠ generateHash digest j false ∧
    (i = j → generateHash digest i true = generateHash digest j true) := by
  refine ⟨rfl, rfl, ?_, fun h => by rw [h]⟩
  intro h
  have h2 := congrArg (fun s => s.data.head?) h
  simp [generateHash, String.data_append] at h2

/-- Witness for `c9_generate_hash_tagged` at the concrete digest `dStr` and
the identifiers `str "a"` / `str "a"`. -/
theorem c9_witness :
    generateHash dStr (.str "a") true ≠ generateHash dStr (.str "a") false ∧
    generateHash dStr (.str "a") true = generateHash dStr (.str "a") true :=
  ⟨(c9_generate_hash_tagged dStr (.str "a") (.str "a")).2.2.1,
   (c9_generate_hash_tagged dStr (.str "a") (.str "a")).2.2.2 rfl⟩

/-- C10 (confirmed): for both drivers, `set` for an identifier whose cache
hash is already present while `force` is unset returns `false` before
constructing the entry, running admission, or touching any state: the returned
driver state is exactly the input state (entry table, policy structures, TTL
timers and invalidation index included). -/
theorem c10_set_existing_unchanged :
    (∀ (digest : Identifier → String) (sizeOf : Cache → Nat) (maxSize : Nat)
        (evictFromOthers : Bool) (pick : Nat → Nat) (now : Nat)
        (identifier : Identifier) (p : Policy) (partialCache : CreateCache)
        (s : MemoryDriverState),
        (alook (getP p s.caches) (generateHash digest identifier true)).isSome = true →
        memorySet digest sizeOf maxSize evictFromOthers pick now identifier p
          partialCache false s = (s, .ok false)) ∧
    (∀ (digest : Identifier → String) (sizeOf : Cache → Nat) (maxSize : Nat)
        (evictFromOthers : Bool) (pick : Nat → Nat) (currentCacheSize : Nat)
        (now : Nat) (identifier : Identifier) (p : Policy)
        (partialCache : CreateCache) (s : FSDriverState),
        (alook (getP p s.files) (generateHash digest identifier true)).isSome = true →
        fsSet digest sizeOf maxSize evictFromOthers pick currentCacheSize now
          identifier p partialCache false s = (s, .ok false)) := by
  constructor
  · intro digest sizeOf maxSize evictFromOthers pick now identifier p partialCache s h
    simp [memorySet, h]
  · intro digest sizeOf maxSize evictFromOthers pick currentCacheSize now identifier p
      partialCache s h
    simp [fsSet, h]

/-- Witness for `c10_set_existing_unchanged`: both drivers holding an entry at
hash `c.A` leave their state untouched and return `false`. -/
theorem c10_witness :
    memorySet dStr (fun _ => 600) 1000 true (fun _ => 0) 0 (.str "A") .lru
        plainPartial false scenario5State = (scenario5State, .ok false) ∧
    fsSet dStr (fun _ => 600) 1000 true (fun _ => 0) 0 0 (.str "A") .lru
        plainPartial false
        { fsInit with files := setP .lru [("c.A", ttlCache)] (constP []) } =
      ({ fsInit with files := setP .lru [("c.A", ttlCache)] (constP []) }, .ok false) :=
  ⟨c10_set_existing_unchanged.1 dStr (fun _ => 600) 1000 true (fun _ => 0) 0
      (.str "A") .lru plainPartial scenario5State rfl,
   c10_set_existing_unchanged.2 dStr (fun _ => 600) 1000 true (fun _ => 0) 0 0
      (.str "A") .lru plainPartial
      { fsInit with files := setP .lru [("c.A", ttlCache)] (constP []) } rfl⟩

/-- The cross-policy eviction phase never produces the `Cache too big` error:
its only error is `No caches to evict`. -/
theorem memoryEnsureOthers_not_too_big (digest : Identifier → String)
    (pick : Nat → Nat) :
    ∀ (rem : List Policy) (s : MemoryDriverState),
    (memoryEnsureOthers digest pick rem s).2 ≠ some ApiErr.cacheTooBig := by
  intro rem
  induction rem with
  | nil => intro s; simp [memoryEnsureOthers]
  | cons q rest ih =>
      intro s
      simp only [memoryEnsureOthers]
      split
      · simp
      · exact ih _

/-- `MemoryDriver._ensureCacheSizeLimit` throws `Cache too big` exactly when
the new entry alone exceeds `maxSize`, in which case it throws before evicting
anything and returns the state unchanged. -/
theorem memoryEnsure_too_big (digest : Identifier → String) (sizeOf : Cache → Nat)
    (maxSize : Nat) (evictFromOthers : Bool) (pick : Nat → Nat) (p : Policy)
    (cache : Cache) (s : MemoryDriverState) :
    ((memoryEnsure digest sizeOf maxSize evictFromOthers pick p cache s).2
        = some ApiErr.cacheTooBig ↔ sizeOf cache > maxSize) ∧
    (sizeOf cache > maxSize →
      memoryEnsure digest sizeOf maxSize evictFromOthers pick p cache s
        = (s, some ApiErr.cacheTooBig)) := by
  by_cases hgt : sizeOf cache > maxSize
  · have he : memoryEnsure digest sizeOf maxSize evictFromOthers pick p cache s
        = (s, some ApiErr.cacheTooBig) := by
      simp only [memoryEnsure]
      rw [if_pos hgt]
    exact ⟨by rw [he]; simp [hgt], fun _ => he⟩
  · refine ⟨?_, fun h => absurd h hgt⟩
    simp only [memoryEnsure]
    rw [if_neg hgt]
    constructor
    · intro hh
      exfalso
      revert hh
      split
      · simp
      · split
        · simp
        · split
          · simp
          · exact memoryEnsureOthers_not_too_big digest pick _ _
    · intro hh; exact absurd hh hgt

/-- The file-system cross-policy eviction phase never produces `Cache too
big`. -/
theorem fsEnsureOthers_not_too_big (digest : Identifier → String)
    (pick : Nat → Nat) :
    ∀ (rem : List Policy) (s : FSDriverState),
    (fsEnsureOthers digest pick rem s).2 ≠ some ApiErr.cacheTooBig := by
  intro rem
  induction rem with
  | nil => intro s; simp [fsEnsureOthers]
  | cons q rest ih =>
      intro s
      simp only [fsEnsureOthers]
      split
      · simp
      · exact ih _

/-- `FileSystemDriver._ensureCacheSizeLimit` throws `Cache too big` exactly
when the encoded entry alone exceeds `maxSize`, before evicting anything. -/
theorem fsEnsure_too_big (digest : Identifier → String) (sizeOf : Cache → Nat)
    (maxSize : Nat) (evictFromOthers : Bool) (pick : Nat → Nat)
    (currentCacheSize : Nat) (p : Policy) (cache : Cache) (s : FSDriverState) :
    ((fsEnsure digest sizeOf maxSize evictFromOthers pick currentCacheSize p cache s).2
        = some ApiErr.cacheTooBig ↔ sizeOf cache > maxSize) ∧
    (sizeOf cache > maxSize →
      fsEnsure digest sizeOf maxSize evictFromOthers pick currentCacheSize p cache s
        = (s, some ApiErr.cacheTooBig)) := by
  by_cases hgt : sizeOf cache > maxSize
  · have he : fsEnsure digest sizeOf maxSize evictFromOthers pick currentCacheSize p cache s
        = (s, some ApiErr.cacheTooBig) := by
      simp only [fsEnsure]
      rw [if_pos hgt]
    exact ⟨by rw [he]; simp [hgt], fun _ => he⟩
  · refine ⟨?_, fun h => absurd h hgt⟩
    simp only [fsEnsure]
    rw [if_neg hgt]
    constructor
    · intro hh
      exfalso
      revert hh
      split
      · simp
      · split
        · simp
        · split
          · simp
          · exact fsEnsureOthers_not_too_big digest pick _ _
    · intro hh; exact absurd hh hgt

/-- C7 (confirmed): for both drivers, on a `set` that reaches admission (the
hash is absent or `force` is set), the `Cache too big` error is produced
exactly when the serialized size of the new entry alone exceeds `maxSize`, and
on that failure the entry table, the policy structures and the invalidation
index are unchanged — no entry is stored, no key is tracked, and no existing
entry is evicted (the admission check throws before the eviction loop). -/
theorem c7_cache_too_big_exact :
    (∀ (digest : Identifier → String) (sizeOf : Cache → Nat) (maxSize : Nat)
        (evictFromOthers : Bool) (pick : Nat → Nat) (now : Nat)
        (identifier : Identifier) (p : Policy) (partialCache : CreateCache)
        (force : Bool) (s : MemoryDriverState),
        ((alook (getP p s.caches) (generateHash digest identifier true)).isSome
            && !force) = false →
        (((memorySet digest sizeOf maxSize evictFromOthers pick now identifier p
              partialCache force s).2 = .error .cacheTooBig ↔
            sizeOf (generateCache now identifier partialCache) > maxSize) ∧
          (sizeOf (generateCache now identifier partialCache) > maxSize →
            (memorySet digest sizeOf maxSize evictFromOthers pick now identifier p
                partialCache force s).1.caches = s.caches ∧
            (memorySet digest sizeOf maxSize evictFromOthers pick now identifier p
                partialCache force s).1.policies = s.policies ∧
            (memorySet digest sizeOf maxSize evictFromOthers pick now identifier p
                partialCache force s).1.invalidations = s.invalidations))) ∧
    (∀ (digest : Identifier → String) (sizeOf : Cache → Nat) (maxSize : Nat)
        (evictFromOthers : Bool) (pick : Nat → Nat) (currentCacheSize : Nat)
        (now : Nat) (identifier : Identifier) (p : Policy)
        (partialCache : CreateCache) (force : Bool) (s : FSDriverState),
        ((alook (getP p s.files) (generateHash digest identifier true)).isSome
            && !force) = false →
        (((fsSet digest sizeOf maxSize evictFromOthers pick currentCacheSize now
              identifier p partialCache force s).2 = .error .cacheTooBig ↔
            sizeOf (generateCache now identifier partialCache) > maxSize) ∧
          (sizeOf (generateCache now identifier partialCache) > maxSize →
            (fsSet digest sizeOf maxSize evictFromOthers pick currentCacheSize now
                identifier p partialCache force s).1.files = s.files ∧
            (fsSet digest sizeOf maxSize evictFromOthers pick currentCacheSize now
                identifier p partialCache force s).1.policies = s.policies ∧
            (fsSet digest sizeOf maxSize evictFromOthers pick currentCacheSize now
                identifier p partialCache force s).1.invFile = s.invFile ∧
            (fsSet digest sizeOf maxSize evictFromOthers pick currentCacheSize now
                identifier p partialCache force s).1.ttlFile = s.ttlFile))) := by
  constructor
  · intro digest sizeOf maxSize evictFromOthers pick now identifier p partialCache
      force s hfresh
    have hc : ¬(((alook (getP p s.caches) (generateHash digest identifier true)).isSome
        && !force) = true) := by simp [hfresh]
    by_cases hgt : sizeOf (generateCache now identifier partialCache) > maxSize
    · have hset : memorySet digest sizeOf maxSize evictFromOthers pick now identifier p
          partialCache force s =
          ((if (generateCache now identifier partialCache).options.ttl > 0 then
              registerTTLD p (generateHash digest identifier true)
                (generateCache now identifier partialCache).options.ttl s
            else s), .error .cacheTooBig) := by
        simp only [memorySet]
        rw [if_neg hc]
        rw [(memoryEnsure_too_big digest sizeOf maxSize evictFromOthers pick p
            (generateCache now identifier partialCache) _).2 hgt]
      refine ⟨⟨fun _ => hgt, fun _ => by rw [hset]⟩, fun _ => ?_⟩
      rw [hset]
      refine ⟨?_, ?_, ?_⟩ <;> · split <;> rfl
    · refine ⟨⟨?_, fun h => absurd h hgt⟩, fun h => absurd h hgt⟩
      intro habs
      exfalso
      revert habs
      simp only [memorySet]
      rw [if_neg hc]
      split
      next s2 e heq =>
        intro habs
        simp only at habs
        rw [Except.error.injEq] at habs
        rw [habs] at heq
        exact hgt (((memoryEnsure_too_big digest sizeOf maxSize evictFromOthers pick p
            (generateCache now identifier partialCache) _).1).mp
          (by rw [heq]))
      next s2 heq => simp
  · intro digest sizeOf maxSize evictFromOthers pick currentCacheSize now identifier p
      partialCache force s hfresh
    have hc : ¬(((alook (getP p s.files) (generateHash digest identifier true)).isSome
        && !force) = true) := by simp [hfresh]
    by_cases hgt : sizeOf (generateCache now identifier partialCache) > maxSize
    · have hset : fsSet digest sizeOf maxSize evictFromOthers pick currentCacheSize now
          identifier p partialCache force s =
          ((if (generateCache now identifier partialCache).options.ttl > 0 then
              fsRegisterTTLTimer p (generateHash digest identifier true)
                (generateCache now identifier partialCache).options.ttl s
            else s), .error .cacheTooBig) := by
        simp only [fsSet]
        rw [if_neg hc]
        rw [(fsEnsure_too_big digest sizeOf maxSize evictFromOthers pick currentCacheSize
            p (generateCache now identifier partialCache) _).2 hgt]
      refine ⟨⟨fun _ => hgt, fun _ => by rw [hset]⟩, fun _ => ?_⟩
      rw [hset]
      refine ⟨?_, ?_, ?_, ?_⟩ <;> · split <;> rfl
    · refine ⟨⟨?_, fun h => absurd h hgt⟩, fun h => absurd h hgt⟩
      intro habs
      exfalso
      revert habs
      simp only [fsSet]
      rw [if_neg hc]
      split
      next s2 e heq =>
        intro habs
        simp only at habs
        rw [Except.error.injEq] at habs
        rw [habs] at heq
        exact hgt (((fsEnsure_too_big digest sizeOf maxSize evictFromOthers pick
            currentCacheSize p (generateCache now identifier partialCache) _).1).mp
          (by rw [heq]))
      next s2 heq => simp

/-- Witness for `c7_cache_too_big_exact`: a 10-byte entry against
`maxSize = 3` fails with `Cache too big` on both (empty) drivers. -/
theorem c7_witness :
    (memorySet dStr (fun c => c.data.length) 3 false (fun _ => 0) 0 (.str "A") .lru
        { data := "0123456789", metadata := none, ttl := none, invalidatedBy := none }
        false memoryInit).2 = .error .cacheTooBig ∧
    (fsSet dStr (fun c => c.data.length) 3 false (fun _ => 0) 0 0 (.str "A") .lru
        { data := "0123456789", metadata := none, ttl := none, invalidatedBy := none }
        false fsInit).2 = .error .cacheTooBig :=
  ⟨(c7_cache_too_big_exact.1 dStr (fun c => c.data.length) 3 false (fun _ => 0) 0
      (.str "A") .lru
      { data := "0123456789", metadata := none, ttl := none, invalidatedBy := none }
      false memoryInit rfl).1.mpr (by decide),
   (c7_cache_too_big_exact.2 dStr (fun c => c.data.length) 3 false (fun _ => 0) 0 0
      (.str "A") .lru
      { data := "0123456789", metadata := none, ttl := none, invalidatedBy := none }
      false fsInit rfl).1.mpr (by decide)⟩

/-! ### Lemmas about the association-list embedding -/

/-- A key outside the key list is never found. -/
theorem alook_eq_none_of_not_mem {κ α : Type} [DecidableEq κ]
    (l : List (κ × α)) (k : κ) (h : k ∉ l.map Prod.fst) : alook l k = none := by
  induction l with
  | nil => rfl
  | cons kv rest ih =>
      obtain ⟨k', v'⟩ := kv
      simp only [List.map_cons, List.mem_cons] at h
      push_neg at h
      simp [alook, Ne.symm h.1, ih h.2]

/-- `Map.set` stores the value at the key. -/
theorem alook_aset_self {κ α : Type} [DecidableEq κ] (l : List (κ × α)) (k : κ)
    (v : α) : alook (aset l k v) k = some v := by
  induction l with
  | nil => simp [aset, alook]
  | cons kv rest ih =>
      obtain ⟨k', v'⟩ := kv
      by_cases h : k' = k
      · simp [aset, h, alook]
      · simp [aset, h, alook, ih]

/-- `Map.set` leaves other keys alone. -/
theorem alook_aset_ne {κ α : Type} [DecidableEq κ] (l : List (κ × α)) (k k' : κ)
    (v : α) (h : k' ≠ k) : alook (aset l k v) k' = alook l k' := by
  induction l with
  | nil => simp [aset, alook, Ne.symm h]
  | cons kv rest ih =>
      obtain ⟨k₀, v₀⟩ := kv
      by_cases h0 : k₀ = k
      · subst h0
        simp [aset, alook, Ne.symm h]
      · simp [aset, h0, alook, ih]

/-- `Map.delete` on a duplicate-free map removes the key. -/
theorem alook_adel_self {κ α : Type} [DecidableEq κ] (l : List (κ × α)) (k : κ)
    (hnd : (l.map Prod.fst).Nodup) : alook (adel l k) k = none := by
  induction l with
  | nil => rfl
  | cons kv rest ih =>
      obtain ⟨k', v'⟩ := kv
      simp only [List.map_cons, List.nodup_cons] at hnd
      by_cases h : k' = k
      · subst h
        simpa [adel] using alook_eq_none_of_not_mem rest k' hnd.1
      · simp [adel, h, alook, ih hnd.2]

/-- `Map.delete` leaves other keys alone. -/
theorem alook_adel_ne {κ α : Type} [DecidableEq κ] (l : List (κ × α)) (k k' : κ)
    (h : k' ≠ k) : alook (adel l k) k' = alook l k' := by
  induction l with
  | nil => rfl
  | cons kv rest ih =>
      obtain ⟨k₀, v₀⟩ := kv
      by_cases h0 : k₀ = k
      · subst h0
        simp [adel, alook, Ne.symm h]
      · simp [adel, h0, alook, ih]

/-- In-place update maps the stored value. -/
theorem alook_aupd_self {κ α : Type} [DecidableEq κ] (l : List (κ × α)) (k : κ)
    (f : α → α) : alook (aupd l k f) k = (alook l k).map f := by
  induction l with
  | nil => rfl
  | cons kv rest ih =>
      obtain ⟨k', v'⟩ := kv
      by_cases h : k' = k
      · simp [aupd, h, alook]
      · simp [aupd, h, alook, ih]

/-- In-place update leaves other keys alone. -/
theorem alook_aupd_ne {κ α : Type} [DecidableEq κ] (l : List (κ × α)) (k k' : κ)
    (f : α → α) (h : k' ≠ k) : alook (aupd l k f) k' = alook l k' := by
  induction l with
  | nil => rfl
  | cons kv rest ih =>
      obtain ⟨k₀, v₀⟩ := kv
      by_cases h0 : k₀ = k
      · subst h0
        simp [aupd, alook, Ne.symm h]
      · simp [aupd, h0, alook, ih]

/-- In-place update never changes the key list. -/
theorem map_fst_aupd {κ α : Type} [DecidableEq κ] (l : List (κ × α)) (k : κ)
    (f : α → α) : (aupd l k f).map Prod.fst = l.map Prod.fst := by
  induction l with
  | nil => rfl
  | cons kv rest ih =>
      obtain ⟨k₀, v₀⟩ := kv
      by_cases h0 : k₀ = k
      · simp [aupd, h0]
      · simp [aupd, h0, ih]

/-- Membership in `Set.add`. -/
theorem mem_sadd (l : List String) (k x : String) :
    x ∈ sadd l k ↔ x ∈ l ∨ x = k := by
  by_cases h : k ∈ l
  · simp only [sadd, if_pos h]
    constructor
    · exact Or.inl
    · rintro (hx | rfl) <;> [exact hx; exact h]
  · simp [sadd, if_neg h]

/-- Reading the slot just written. -/
theorem getP_setP_self {α : Type} (p : Policy) (v : α) (x : PerPolicy α) :
    getP p (setP p v x) = v := by
  cases p <;> rfl

/-- Writing one slot leaves the others unchanged. -/
theorem getP_setP_ne {α : Type} (p q : Policy) (v : α) (x : PerPolicy α)
    (h : q ≠ p) : getP q (setP p v x) = getP q x := by
  cases p <;> cases q <;> first | rfl | exact absurd rfl h

/-! ### Lemmas about the shared invalidation-cleanup loop -/

/-- Unfolding one step of the cleanup loop. -/
theorem removeHashFromSets_cons (ik : String) (rest : List String) (h : String)
    (inv : List (String × List String)) :
    removeHashFromSets (ik :: rest) h inv
      = removeHashFromSets rest h (aupd inv ik (fun set => set.erase h)) := rfl

/-- The cleanup loop never adds or drops an invalidation key — in particular a
set that becomes empty stays in the index. -/
theorem removeHashFromSets_map_fst (ihs : List String) (h : String) :
    ∀ (inv : List (String × List String)),
    (removeHashFromSets ihs h inv).map Prod.fst = inv.map Prod.fst := by
  induction ihs with
  | nil => intro inv; rfl
  | cons ik rest ih =>
      intro inv
      rw [removeHashFromSets_cons, ih, map_fst_aupd]

/-- The cleanup loop leaves invalidation keys outside the entry's
`invalidatedBy` hashes untouched. -/
theorem removeHashFromSets_alook_notmem (ihs : List String) (h k : String) :
    ∀ (inv : List (String × List String)), k ∉ ihs →
    alook (removeHashFromSets ihs h inv) k = alook inv k := by
  induction ihs with
  | nil => intro inv _; rfl
  | cons ik rest ih =>
      intro inv hk
      simp only [List.mem_cons] at hk
      push_neg at hk
      rw [removeHashFromSets_cons, ih _ hk.2, alook_aupd_ne _ _ _ _ hk.1]

/-- The cleanup loop erases the evicted hash from the set of every
invalidation key among the entry's `invalidatedBy` hashes. -/
theorem removeHashFromSets_alook_mem (ihs : List String) (h k : String) :
    ∀ (inv : List (String × List String)) (set : List String),
    k ∈ ihs → alook inv k = some set → set.Nodup →
    alook (removeHashFromSets ihs h inv) k = some (set.erase h) := by
  induction ihs with
  | nil => intro inv set hk; exact absurd hk (List.not_mem_nil k)
  | cons ik rest ih =>
      intro inv set hk hs hnd
      rw [removeHashFromSets_cons]
      by_cases hik : k = ik
      · subst hik
        have h1 : alook (aupd inv k (fun set => set.erase h)) k = some (set.erase h) := by
          rw [alook_aupd_self, hs]; rfl
        by_cases hr : k ∈ rest
        · have := ih (aupd inv k (fun set => set.erase h)) (set.erase h) hr h1
            (hnd.erase h)
          rwa [List.erase_of_not_mem hnd.not_mem_erase] at this
        · rw [removeHashFromSets_alook_notmem rest h k _ hr]
          exact h1
      · simp only [List.mem_cons] at hk
        rcases hk with hk | hk
        · exact absurd hk hik
        · exact ih _ set hk (by rw [alook_aupd_ne _ _ _ _ hik]; exact hs) hnd

/-- The eviction loop of `invalidate` never touches the invalidation index
(only the final `delete` of the triggering key does). -/
theorem memInvalidateEvictOne_foldl_invalidations (p : Policy) :
    ∀ (l : List String) (acc : MemoryDriverState),
    (l.foldl (memInvalidateEvictOne p) acc).invalidations = acc.invalidations := by
  intro l
  induction l with
  | nil => intro acc; rfl
  | cons ch rest ih =>
      intro acc
      rw [List.foldl_cons, ih]
      rfl

/-- C5 (corrected, amended claim): (i) a TTL expiry updates neither driver's
invalidation index at all; (ii) the cleanup loop shared by the size-limit
eviction paths and the file-system manual `delete` removes the evicted cache
key from the set of every invalidation key derived from its `invalidatedBy`
list, leaves every other set untouched, and never drops a key — a set that
becomes empty is retained; (iii) `memEvictEntry` (the size-eviction body) and
`fsDelete` update the index through exactly that loop; and (iv) `invalidate`
drops only the triggering invalidation key's mapping, leaving the evicted
cache keys inside any other invalidation-key sets. -/
theorem c5_amended_invalidation_maintenance :
    (∀ (p : Policy) (h : String) (s : MemoryDriverState),
        (memoryTtlExpire p h s).invalidations = s.invalidations) ∧
    (∀ (p : Policy) (h : String) (s : FSDriverState),
        (fsTtlExpire p h s).invFile = s.invFile) ∧
    (∀ (ihs : List String) (h : String) (inv : List (String × List String)),
        (removeHashFromSets ihs h inv).map Prod.fst = inv.map Prod.fst) ∧
    (∀ (ihs : List String) (h k : String) (inv : List (String × List String))
        (set : List String), k ∈ ihs → alook inv k = some set → set.Nodup →
        alook (removeHashFromSets ihs h inv) k = some (set.erase h) ∧
          h ∉ set.erase h) ∧
    (∀ (ihs : List String) (h k : String) (inv : List (String × List String)),
        k ∉ ihs → alook (removeHashFromSets ihs h inv) k = alook inv k) ∧
    (∀ (digest : Identifier → String) (p : Policy) (h : String)
        (s : MemoryDriverState) (c : Cache),
        alook (getP p s.caches) h = some c →
        (memEvictEntry digest p h s).invalidations
          = setP p (removeHashFromSets (invHashesOf digest c) h
              (getP p s.invalidations)) s.invalidations) ∧
    (∀ (digest : Identifier → String) (identifier : Identifier) (p : Policy)
        (s : FSDriverState) (c : Cache),
        alook (getP p s.files) (generateHash digest identifier true) = some c →
        (fsDelete digest identifier p s).invFile
          = if !c.options.invalidatedBy.isEmpty then
              setP p (removeHashFromSets (invHashesOf digest c)
                (generateHash digest identifier true) (getP p s.invFile)) s.invFile
            else s.invFile) ∧
    (∀ (digest : Identifier → String) (p : Policy) (identifier : Identifier)
        (s : MemoryDriverState) (affected : List String),
        ((getP p s.invalidations).map Prod.fst).Nodup →
        alook (getP p s.invalidations) (generateHash digest identifier false)
          = some affected →
        affected ≠ [] →
        alook (getP p (memoryInvalidateOne digest p identifier s).invalidations)
            (generateHash digest identifier false) = none ∧
        (∀ k, k ≠ generateHash digest identifier false →
          alook (getP p (memoryInvalidateOne digest p identifier s).invalidations) k
            = alook (getP p s.invalidations) k)) := by
  refine ⟨fun p h s => rfl, fun p h s => rfl,
    removeHashFromSets_map_fst, ?_, removeHashFromSets_alook_notmem, ?_, ?_, ?_⟩
  · intro ihs h k inv set hk hs hnd
    exact ⟨removeHashFromSets_alook_mem ihs h k inv set hk hs hnd,
      hnd.not_mem_erase⟩
  · intro digest p h s c hc
    simp only [memEvictEntry, hc]
  · intro digest identifier p s c hc
    simp only [fsDelete, hc]
    split
    · rfl
    · rfl
  · intro digest p identifier s affected hnd haff hne
    simp only [memoryInvalidateOne, haff, if_neg hne,
      memInvalidateEvictOne_foldl_invalidations, getP_setP_self]
    exact ⟨alook_adel_self _ _ hnd, fun k hk => alook_adel_ne _ _ _ hk⟩

/-- Witness for `c5_amended_invalidation_maintenance`: the cleanup loop erases
`c.A` from the set of `i.x` (leaving the now-empty set in place), and
`invalidate` for the identifier `x` drops the `i.x` mapping. -/
theorem c5_witness :
    alook (removeHashFromSets ["i.x"] "c.A" [("i.x", ["c.A"])]) "i.x" = some [] ∧
    alook (getP .lru (memoryInvalidateOne dStr .lru (.str "x") invState).invalidations)
      "i.x" = none :=
  ⟨by
    have h := c5_amended_invalidation_maintenance.2.2.2.1 ["i.x"] "c.A" "i.x"
      [("i.x", ["c.A"])] ["c.A"] (by decide) rfl (by decide)
    simpa using h.1,
   (c5_amended_invalidation_maintenance.2.2.2.2.2.2.2 dStr .lru (.str "x") invState
      ["c.A"] (by decide) rfl (by decide)).1⟩

/-! ### Lemmas about the recovery loops -/

/-- A recovery step for a different hash leaves this hash's recovery facts
unchanged. -/
theorem memRecoverStep_preserve (digest : Identifier → String) (now : Nat)
    (acc : RecoveryOut) (kv : String × Cache) (h : String) (hne : kv.1 ≠ h) :
    alook (memRecoverStep digest now acc kv).table h = alook acc.table h ∧
    (h ∈ (memRecoverStep digest now acc kv).valid ↔ h ∈ acc.valid) ∧
    alook (memRecoverStep digest now acc kv).ttlRegs h = alook acc.ttlRegs h := by
  simp only [memRecoverStep]
  split
  · exact ⟨rfl, Iff.rfl, rfl⟩
  · have hne' : h ≠ kv.1 := Ne.symm hne
    split <;> split <;>
      simp [alook_aset_ne _ _ _ _ hne', alook_adel_ne _ _ _ hne', mem_sadd, hne']

/-- Folding recovery over entries that do not mention a hash leaves that
hash's facts unchanged. -/
theorem memRecover_foldl_preserve (digest : Identifier → String) (now : Nat)
    (h : String) :
    ∀ (entries : List (String × Cache)) (acc : RecoveryOut),
    h ∉ entries.map Prod.fst →
    alook (entries.foldl (memRecoverStep digest now) acc).table h
        = alook acc.table h ∧
    (h ∈ (entries.foldl (memRecoverStep digest now) acc).valid ↔ h ∈ acc.valid) ∧
    alook (entries.foldl (memRecoverStep digest now) acc).ttlRegs h
        = alook acc.ttlRegs h := by
  intro entries
  induction entries with
  | nil => intro acc _; exact ⟨rfl, Iff.rfl, rfl⟩
  | cons kv rest ih =>
      intro acc hmem
      simp only [List.map_cons, List.mem_cons] at hmem
      push_neg at hmem
      rw [List.foldl_cons]
      have hstep := memRecoverStep_preserve digest now acc kv h (Ne.symm hmem.1)
      have hrest := ih (memRecoverStep digest now acc kv) hmem.2
      exact ⟨hrest.1.trans hstep.1, hrest.2.1.trans hstep.2.1,
        hrest.2.2.trans hstep.2.2⟩

/-- Projections of a recovery step that keeps its entry. -/
theorem memRecoverStep_kept (digest : Identifier → String) (now : Nat)
    (acc : RecoveryOut) (kv : String × Cache)
    (hdrop : ¬(kv.2.options.ttl ≠ 0 ∧ now > kv.2.ctime + kv.2.options.ttl)) :
    (memRecoverStep digest now acc kv).table = aset acc.table kv.1 kv.2 ∧
    (memRecoverStep digest now acc kv).valid = sadd acc.valid kv.1 ∧
    (memRecoverStep digest now acc kv).ttlRegs
      = (if kv.2.options.ttl ≠ 0 then
          aset (adel acc.ttlRegs kv.1) kv.1 kv.2.options.ttl
        else acc.ttlRegs) := by
  simp only [memRecoverStep, if_neg hdrop]
  split <;> split <;> simp_all

/-- The per-entry recovery facts of the memory snapshot loop, relative to an
arbitrary starting accumulator. -/
theorem memRecover_foldl_mem (digest : Identifier → String) (now : Nat) :
    ∀ (entries : List (String × Cache)) (acc : RecoveryOut) (h : String)
      (c : Cache), (entries.map Prod.fst).Nodup → (h, c) ∈ entries →
    ((c.options.ttl ≠ 0 ∧ now > c.ctime + c.options.ttl →
        alook (entries.foldl (memRecoverStep digest now) acc).table h
            = alook acc.table h ∧
        ((h ∈ (entries.foldl (memRecoverStep digest now) acc).valid) ↔ h ∈ acc.valid) ∧
        alook (entries.foldl (memRecoverStep digest now) acc).ttlRegs h
            = alook acc.ttlRegs h) ∧
     (¬(c.options.ttl ≠ 0 ∧ now > c.ctime + c.options.ttl) →
        alook (entries.foldl (memRecoverStep digest now) acc).table h = some c ∧
        h ∈ (entries.foldl (memRecoverStep digest now) acc).valid ∧
        (c.options.ttl ≠ 0 →
          alook (entries.foldl (memRecoverStep digest now) acc).ttlRegs h
            = some c.options.ttl))) := by
  intro entries
  induction entries with
  | nil => intro acc h c _ hmem; exact absurd hmem (List.not_mem_nil _)
  | cons kv rest ih =>
      intro acc h c hnd hmem
      simp only [List.map_cons, List.nodup_cons] at hnd
      rw [List.mem_cons] at hmem
      rcases hmem with hmem | hmem
      · obtain ⟨rfl, rfl⟩ : kv.1 = h ∧ kv.2 = c := by
          obtain ⟨a, b⟩ := kv
          exact ⟨congrArg Prod.fst hmem.symm, congrArg Prod.snd hmem.symm⟩
        rw [List.foldl_cons]
        have hrest := memRecover_foldl_preserve digest now kv.1 rest
          (memRecoverStep digest now acc kv) hnd.1
        by_cases hdrop : kv.2.options.ttl ≠ 0 ∧ now > kv.2.ctime + kv.2.options.ttl
        · have hstep : memRecoverStep digest now acc kv = acc := by
            simp only [memRecoverStep, if_pos hdrop]
          rw [hstep] at hrest
          rw [hstep]
          refine ⟨fun _ => hrest, fun hk => absurd hdrop hk⟩
        · have hproj := memRecoverStep_kept digest now acc kv hdrop
          have h1 : alook (memRecoverStep digest now acc kv).table kv.1 = some kv.2 ∧
              kv.1 ∈ (memRecoverStep digest now acc kv).valid ∧
              (kv.2.options.ttl ≠ 0 →
                alook (memRecoverStep digest now acc kv).ttlRegs kv.1
                  = some kv.2.options.ttl) := by
            rw [hproj.1, hproj.2.1, hproj.2.2]
            refine ⟨alook_aset_self _ _ _, (mem_sadd _ _ _).mpr (Or.inr rfl), fun ht => ?_⟩
            rw [if_pos ht, alook_aset_self]
          refine ⟨fun hk => absurd hk hdrop, fun _ => ?_⟩
          exact ⟨hrest.1.trans h1.1, hrest.2.1.mpr h1.2.1,
            fun ht => (hrest.2.2).trans (h1.2.2 ht)⟩
      · have hne : kv.1 ≠ h := by
          intro he
          exact hnd.1 (he ▸ (List.mem_map_of_mem Prod.fst hmem))
        rw [List.foldl_cons]
        have hstep := memRecoverStep_preserve digest now acc kv h hne
        have := ih (memRecoverStep digest now acc kv) h c hnd.2 hmem
        refine ⟨fun hk => ?_, this.2⟩
        have hd := this.1 hk
        exact ⟨hd.1.trans hstep.1, hd.2.1.trans hstep.2.1, hd.2.2.trans hstep.2.2⟩

/-- A TTL-recovery step for a different hash leaves this hash's facts
unchanged. -/
theorem fsRecoverStep_preserve (now : Nat) (acc : FSTtlRecoveryOut)
    (kv : String × Nat) (h : String) (hne : kv.1 ≠ h) :
    ((h ∈ (fsRecoverStep now acc kv).removedFiles) ↔ h ∈ acc.removedFiles) ∧
    alook (fsRecoverStep now acc kv).kept h = alook acc.kept h ∧
    alook (fsRecoverStep now acc kv).regs h = alook acc.regs h := by
  have hne' : h ≠ kv.1 := Ne.symm hne
  simp only [fsRecoverStep]
  split
  · simp [hne']
  · simp [alook_aset_ne _ _ _ _ hne', alook_adel_ne _ _ _ hne']

/-- Folding TTL recovery over entries that do not mention a hash leaves that
hash's facts unchanged. -/
theorem fsRecover_foldl_preserve (now : Nat) (h : String) :
    ∀ (tm : List (String × Nat)) (acc : FSTtlRecoveryOut),
    h ∉ tm.map Prod.fst →
    ((h ∈ (tm.foldl (fsRecoverStep now) acc).removedFiles) ↔ h ∈ acc.removedFiles) ∧
    alook (tm.foldl (fsRecoverStep now) acc).kept h = alook acc.kept h ∧
    alook (tm.foldl (fsRecoverStep now) acc).regs h = alook acc.regs h := by
  intro tm
  induction tm with
  | nil => intro acc _; exact ⟨Iff.rfl, rfl, rfl⟩
  | cons kv rest ih =>
      intro acc hmem
      simp only [List.map_cons, List.mem_cons] at hmem
      push_neg at hmem
      rw [List.foldl_cons]
      have hstep := fsRecoverStep_preserve now acc kv h (Ne.symm hmem.1)
      have hrest := ih (fsRecoverStep now acc kv) hmem.2
      exact ⟨hrest.1.trans hstep.1, hrest.2.1.trans hstep.2.1,
        hrest.2.2.trans hstep.2.2⟩

/-- The per-entry facts of the file-system TTL recovery loop. -/
theorem fsRecover_foldl_mem (now : Nat) :
    ∀ (tm : List (String × Nat)) (acc : FSTtlRecoveryOut) (h : String) (ts : Nat),
    (tm.map Prod.fst).Nodup → (h, ts) ∈ tm →
    ((now > ts →
        h ∈ (tm.foldl (fsRecoverStep now) acc).removedFiles ∧
        alook (tm.foldl (fsRecoverStep now) acc).kept h = alook acc.kept h ∧
        alook (tm.foldl (fsRecoverStep now) acc).regs h = alook acc.regs h) ∧
     (¬ now > ts →
        alook (tm.foldl (fsRecoverStep now) acc).kept h = some ts ∧
        alook (tm.foldl (fsRecoverStep now) acc).regs h = some (ts - now))) := by
  intro tm
  induction tm with
  | nil => intro acc h ts _ hmem; exact absurd hmem (List.not_mem_nil _)
  | cons kv rest ih =>
      intro acc h ts hnd hmem
      simp only [List.map_cons, List.nodup_cons] at hnd
      rw [List.mem_cons] at hmem
      rcases hmem with hmem | hmem
      · obtain ⟨rfl, rfl⟩ : kv.1 = h ∧ kv.2 = ts := by
          obtain ⟨a, b⟩ := kv
          exact ⟨congrArg Prod.fst hmem.symm, congrArg Prod.snd hmem.symm⟩
        rw [List.foldl_cons]
        have hrest := fsRecover_foldl_preserve now kv.1 rest
          (fsRecoverStep now acc kv) hnd.1
        by_cases hexp : now > kv.2
        · have hstep : fsRecoverStep now acc kv
              = { acc with removedFiles := acc.removedFiles ++ [kv.1] } := by
            simp only [fsRecoverStep, if_pos hexp]
          rw [hstep] at hrest
          rw [hstep]
          refine ⟨fun _ => ⟨hrest.1.mpr (by simp), hrest.2.1, hrest.2.2⟩,
            fun hk => absurd hexp hk⟩
        · have hstep : fsRecoverStep now acc kv
              = { acc with
                    kept := aset acc.kept kv.1 kv.2
                    regs := aset (adel acc.regs kv.1) kv.1 (kv.2 - now) } := by
            simp only [fsRecoverStep, if_neg hexp]
          rw [hstep] at hrest
          rw [hstep]
          refine ⟨fun hk => absurd hk hexp, fun _ =>
            ⟨hrest.2.1.trans (alook_aset_self _ _ _),
             hrest.2.2.trans (alook_aset_self _ _ _)⟩⟩
      · have hne : kv.1 ≠ h := by
          intro he
          exact hnd.1 (he ▸ (List.mem_map_of_mem Prod.fst hmem))
        rw [List.foldl_cons]
        have hstep := fsRecoverStep_preserve now acc kv h hne
        have := ih (fsRecoverStep now acc kv) h ts hnd.2 hmem
        refine ⟨fun hk => ?_, fun hk => (this.2 hk)⟩
        have hd := this.1 hk
        exact ⟨hd.1, hd.2.1.trans hstep.2.1, hd.2.2.trans hstep.2.2⟩


/-! ### Additional association-list and extremum lemmas -/

/-- A found key is in the key list. -/
theorem mem_map_fst_of_alook {κ α : Type} [DecidableEq κ] (l : List (κ × α))
    (k : κ) (v : α) (h : alook l k = some v) : k ∈ l.map Prod.fst := by
  induction l with
  | nil => simp [alook] at h
  | cons kv rest ih =>
      obtain ⟨k', v'⟩ := kv
      by_cases hk : k' = k
      · simp [hk]
      · simp only [alook, if_neg hk] at h
        simp [ih h]

/-- A key in the key list is found. -/
theorem alook_isSome_of_mem {κ α : Type} [DecidableEq κ] (l : List (κ × α))
    (k : κ) (h : k ∈ l.map Prod.fst) : (alook l k).isSome := by
  induction l with
  | nil => simp at h
  | cons kv rest ih =>
      obtain ⟨k', v'⟩ := kv
      by_cases hk : k' = k
      · simp [alook, hk]
      · simp only [List.map_cons, List.mem_cons] at h
        rcases h with h | h
        · exact absurd h.symm hk
        · simp [alook, hk, ih h]

/-- On a duplicate-free map, membership of a pair determines the lookup. -/
theorem alook_of_mem_nodup {κ α : Type} [DecidableEq κ] (l : List (κ × α))
    (k : κ) (v : α) (hnd : (l.map Prod.fst).Nodup) (hm : (k, v) ∈ l) :
    alook l k = some v := by
  induction l with
  | nil => simp at hm
  | cons kv rest ih =>
      obtain ⟨k', v'⟩ := kv
      simp only [List.map_cons, List.nodup_cons] at hnd
      rcases List.mem_cons.mp hm with hm | hm
      · injection hm with h1 h2
        simp [alook, ← h1, ← h2]
      · have hk : k' ≠ k := by
          intro he
          exact hnd.1 (by rw [he]; exact List.mem_map_of_mem Prod.fst hm)
        simp [alook, hk, ih hnd.2 hm]

/-- The key list of `Map.set`: unchanged when present, the key appended when
new. -/
theorem map_fst_aset {κ α : Type} [DecidableEq κ] (l : List (κ × α)) (k : κ)
    (v : α) :
    (aset l k v).map Prod.fst
      = if k ∈ l.map Prod.fst then l.map Prod.fst else l.map Prod.fst ++ [k] := by
  induction l with
  | nil => simp [aset]
  | cons kv rest ih =>
      obtain ⟨k', v'⟩ := kv
      by_cases hk : k' = k
      · simp [aset, hk]
      · simp only [aset, if_neg hk, List.map_cons, ih]
        by_cases hm : k ∈ rest.map Prod.fst
        · simp [hm, Ne.symm hk]
        · simp [hm, Ne.symm hk]

/-- The key list of `Map.delete` is the original with the key erased. -/
theorem map_fst_adel {κ α : Type} [DecidableEq κ] (l : List (κ × α)) (k : κ) :
    (adel l k).map Prod.fst = (l.map Prod.fst).erase k := by
  induction l with
  | nil => rfl
  | cons kv rest ih =>
      obtain ⟨k', v'⟩ := kv
      by_cases hk : k' = k
      · subst hk
        simp [adel, List.erase_cons]
      · simp [adel, hk, List.erase_cons, ih]

/-- `Map.set` of an absent key appends the binding. -/
theorem aset_eq_append {κ α : Type} [DecidableEq κ] (l : List (κ × α)) (k : κ)
    (v : α) (h : k ∉ l.map Prod.fst) : aset l k v = l ++ [(k, v)] := by
  induction l with
  | nil => rfl
  | cons kv rest ih =>
      obtain ⟨k', v'⟩ := kv
      simp only [List.map_cons, List.mem_cons] at h
      push_neg at h
      simp [aset, Ne.symm h.1, ih h.2]

/-- Folding `Set.add` over a list preserves and adds members. -/
theorem mem_foldl_sadd : ∀ (l acc : List String) (x : String),
    (x ∈ acc ∨ x ∈ l) → x ∈ l.foldl sadd acc := by
  intro l
  induction l with
  | nil =>
      intro acc x h
      rcases h with h | h
      · exact h
      · simp at h
  | cons y t ih =>
      intro acc x h
      rw [List.foldl_cons]
      apply ih
      rcases h with h | h
      · exact Or.inl ((mem_sadd acc y x).mpr (Or.inl h))
      · rcases List.mem_cons.mp h with h | h
        · exact Or.inl ((mem_sadd acc y x).mpr (Or.inr h))
        · exact Or.inr h

/-- `Nat.max` is the order-theoretic `max`. -/
theorem natMax_eq (a b : Nat) : Nat.max a b = max a b := rfl

/-- `Nat.min` is the order-theoretic `min`. -/
theorem natMin_eq (a b : Nat) : Nat.min a b = min a b := rfl

/-- Shifting the `foldl Nat.max` seed out of the fold. -/
theorem foldl_max_init : ∀ (l : List Nat) (a : Nat),
    l.foldl Nat.max a = Nat.max a (maxNat l) := by
  intro l
  induction l with
  | nil =>
      intro a
      show a = Nat.max a (maxNat [])
      have h0 : maxNat [] = 0 := rfl
      rw [h0]
      simp only [natMax_eq]
      omega
  | cons x t ih =>
      intro a
      rw [List.foldl_cons, ih]
      have hc : maxNat (x :: t) = Nat.max x (maxNat t) := by
        simp only [maxNat, List.foldl_cons]
        rw [ih]
        show Nat.max (Nat.max 0 x) (maxNat t) = Nat.max x (maxNat t)
        simp only [natMax_eq]
        omega
      rw [hc]
      simp only [natMax_eq]
      omega

/-- `maxNat` over a cons. -/
theorem maxNat_cons (x : Nat) (t : List Nat) :
    maxNat (x :: t) = Nat.max x (maxNat t) := by
  simp only [maxNat, List.foldl_cons]
  rw [foldl_max_init]
  show Nat.max (Nat.max 0 x) (maxNat t) = Nat.max x (maxNat t)
  simp only [natMax_eq]
  omega

/-- Every member is at most `maxNat`. -/
theorem le_maxNat (l : List Nat) (x : Nat) (h : x ∈ l) : x ≤ maxNat l := by
  induction l with
  | nil => simp at h
  | cons y t ih =>
      rw [maxNat_cons]
      rcases List.mem_cons.mp h with rfl | h
      · exact Nat.le_max_left _ _
      · exact Nat.le_trans (ih h) (Nat.le_max_right _ _)

/-- `maxNat` is below any upper bound of the members. -/
theorem maxNat_le (l : List Nat) (b : Nat) (h : ∀ x ∈ l, x ≤ b) :
    maxNat l ≤ b := by
  induction l with
  | nil => exact Nat.zero_le b
  | cons y t ih =>
      rw [maxNat_cons]
      exact Nat.max_le.mpr
        ⟨h y (by simp), ih (fun x hx => h x (List.mem_cons_of_mem y hx))⟩

/-- A nonzero `maxNat` is attained by a member. -/
theorem maxNat_mem (l : List Nat) (h : maxNat l ≠ 0) : maxNat l ∈ l := by
  induction l with
  | nil => simp [maxNat] at h
  | cons y t ih =>
      rw [maxNat_cons] at h ⊢
      rcases Nat.le_total y (maxNat t) with hle | hle
      · have hc : Nat.max y (maxNat t) = maxNat t := by
          simp only [natMax_eq]; omega
        rw [hc] at h ⊢
        exact List.mem_cons_of_mem y (ih h)
      · have hc : Nat.max y (maxNat t) = y := by
          simp only [natMax_eq]; omega
        rw [hc]
        exact List.mem_cons_self _ _

/-- Erasing a non-maximal member keeps the maximum. -/
theorem maxNat_erase (l : List Nat) (x : Nat) (_hx : x ∈ l)
    (hne : x ≠ maxNat l) : maxNat (l.erase x) = maxNat l := by
  apply Nat.le_antisymm
  · exact maxNat_le _ _ (fun y hy => le_maxNat l y (List.mem_of_mem_erase hy))
  · by_cases hz : maxNat l = 0
    · rw [hz]; exact Nat.zero_le _
    · exact le_maxNat _ _
        ((List.mem_erase_of_ne (Ne.symm hne)).mpr (maxNat_mem l hz))

/-- `maxNat` over an appended element. -/
theorem maxNat_append (l : List Nat) (x : Nat) :
    maxNat (l ++ [x]) = Nat.max (maxNat l) x := by
  simp only [maxNat, List.foldl_append, List.foldl_cons, List.foldl_nil]

/-- The `foldl Nat.min` result is at most the seed. -/
theorem foldl_min_le_init : ∀ (l : List Nat) (a : Nat), l.foldl Nat.min a ≤ a := by
  intro l
  induction l with
  | nil => intro a; exact Nat.le_refl a
  | cons x t ih =>
      intro a
      rw [List.foldl_cons]
      exact Nat.le_trans (ih (Nat.min a x)) (Nat.min_le_left a x)

/-- The `foldl Nat.min` result is at most every member. -/
theorem foldl_min_le_mem : ∀ (l : List Nat) (a x : Nat), x ∈ l →
    l.foldl Nat.min a ≤ x := by
  intro l
  induction l with
  | nil => intro a x h; simp at h
  | cons y t ih =>
      intro a x h
      rw [List.foldl_cons]
      rcases List.mem_cons.mp h with rfl | h
      · exact Nat.le_trans (foldl_min_le_init t _) (Nat.min_le_right a x)
      · exact ih _ x h

/-- The `foldl Nat.min` result is the seed or a member. -/
theorem foldl_min_mem_or : ∀ (l : List Nat) (a : Nat),
    l.foldl Nat.min a = a ∨ l.foldl Nat.min a ∈ l := by
  intro l
  induction l with
  | nil => intro a; exact Or.inl rfl
  | cons x t ih =>
      intro a
      rw [List.foldl_cons]
      rcases ih (Nat.min a x) with hc | hc
      · rcases Nat.le_total a x with hle | hle
        · have hm : Nat.min a x = a := by simp only [natMin_eq]; omega
          rw [hc, hm]; exact Or.inl rfl
        · have hm : Nat.min a x = x := by simp only [natMin_eq]; omega
          rw [hc, hm]; exact Or.inr (List.mem_cons_self _ _)
      · exact Or.inr (List.mem_cons_of_mem x hc)

/-- A lower bound of the seed and the members bounds `foldl Nat.min`. -/
theorem le_foldl_min : ∀ (l : List Nat) (a b : Nat), b ≤ a → (∀ x ∈ l, b ≤ x) →
    b ≤ l.foldl Nat.min a := by
  intro l
  induction l with
  | nil => intro a b hb _; exact hb
  | cons x t ih =>
      intro a b hb h
      rw [List.foldl_cons]
      exact ih _ b (Nat.le_min.mpr ⟨hb, h x (by simp)⟩)
        (fun y hy => h y (List.mem_cons_of_mem x hy))

/-- `minNat` is at most every member. -/
theorem minNat_le_mem (l : List Nat) (x : Nat) (h : x ∈ l) : minNat l ≤ x := by
  cases l with
  | nil => simp at h
  | cons y t =>
      show t.foldl Nat.min y ≤ x
      rcases List.mem_cons.mp h with rfl | h
      · exact foldl_min_le_init t x
      · exact foldl_min_le_mem t y x h

/-- The `minNat` of a nonempty list is attained by a member. -/
theorem minNat_mem (l : List Nat) (h : l ≠ []) : minNat l ∈ l := by
  cases l with
  | nil => exact absurd rfl h
  | cons y t =>
      show t.foldl Nat.min y ∈ y :: t
      rcases foldl_min_mem_or t y with hc | hc
      · rw [hc]; exact List.mem_cons_self _ _
      · exact List.mem_cons_of_mem y hc

/-- A lower bound of the members of a nonempty list bounds `minNat`. -/
theorem le_minNat (l : List Nat) (b : Nat) (h : l ≠ []) (hb : ∀ x ∈ l, b ≤ x) :
    b ≤ minNat l := by
  cases l with
  | nil => exact absurd rfl h
  | cons y t =>
      show b ≤ t.foldl Nat.min y
      exact le_foldl_min t y b (hb y (by simp))
        (fun x hx => hb x (List.mem_cons_of_mem y hx))

/-- Erasing a non-minimal member keeps the minimum. -/
theorem minNat_erase (l : List Nat) (x : Nat) (hx : x ∈ l)
    (hne : x ≠ minNat l) : minNat (l.erase x) = minNat l := by
  have hl : l ≠ [] := by intro he; rw [he] at hx; simp at hx
  have hm : minNat l ∈ l.erase x :=
    (List.mem_erase_of_ne (Ne.symm hne)).mpr (minNat_mem l hl)
  have hne' : l.erase x ≠ [] := by intro he; rw [he] at hm; simp at hm
  apply Nat.le_antisymm
  · exact minNat_le_mem _ _ hm
  · exact le_minNat _ _ hne' (fun y hy => minNat_le_mem l y (List.mem_of_mem_erase hy))

/-- `minNat` over an element appended to a nonempty list. -/
theorem minNat_append (l : List Nat) (x : Nat) (h : l ≠ []) :
    minNat (l ++ [x]) = Nat.min (minNat l) x := by
  cases l with
  | nil => exact absurd rfl h
  | cons y t =>
      show (t ++ [x]).foldl Nat.min y = Nat.min (t.foldl Nat.min y) x
      rw [List.foldl_append]
      rfl

/-- A list containing zero has `minNat` zero. -/
theorem minNat_zero_mem (l : List Nat) (h : 0 ∈ l) : minNat l = 0 :=
  Nat.le_zero.mp (minNat_le_mem l 0 h)

/-- `maxKeys` is `maxNat` of the key list. -/
theorem maxKeys_eq_maxNat {α : Type} (l : List (Nat × α)) :
    maxKeys l = maxNat (l.map Prod.fst) := rfl

/-- `minKeys` is `minNat` of the key list. -/
theorem minKeys_eq_minNat {α : Type} (l : List (Nat × α)) :
    minKeys l = minNat (l.map Prod.fst) := by
  rcases hm : l.map Prod.fst with _ | ⟨k, ks⟩
  · simp [minKeys, minNat, hm]
  · simp [minKeys, minNat, hm]

/-- The `if hits > highest then hits else highest` update is `Nat.max`. -/
theorem ite_gt_eq_max (a b : Nat) : (if b > a then b else a) = Nat.max a b := by
  rcases Nat.lt_or_ge a b with h | h
  · rw [if_pos h]
    simp only [natMax_eq]
    omega
  · rw [if_neg (Nat.not_lt.mpr h)]
    simp only [natMax_eq]
    omega

/-- Properties of the `if the bucket is missing then set(c0, [])` creation
idiom shared by `track` and `hit` in the MFU policy and its LFU analogue. -/
theorem ensure_bucket_wf (kom : List (Nat × List String)) (c0 : Nat)
    (hnd : (kom.map Prod.fst).Nodup) :
    (((if (alook kom c0).isSome then kom else aset kom c0 []).map Prod.fst).Nodup) ∧
    (alook (if (alook kom c0).isSome then kom else aset kom c0 []) c0).isSome ∧
    (∀ c lst, alook (if (alook kom c0).isSome then kom else aset kom c0 []) c = some lst →
      alook kom c = some lst ∨ (c = c0 ∧ lst = [])) ∧
    (∀ c, c ≠ c0 →
      alook (if (alook kom c0).isSome then kom else aset kom c0 []) c = alook kom c) ∧
    maxNat ((if (alook kom c0).isSome then kom else aset kom c0 []).map Prod.fst)
      = Nat.max (maxNat (kom.map Prod.fst)) c0 ∧
    (kom.map Prod.fst ≠ [] →
      minNat ((if (alook kom c0).isSome then kom else aset kom c0 []).map Prod.fst)
        = Nat.min (minNat (kom.map Prod.fst)) c0) := by
  by_cases hc : (alook kom c0).isSome
  · simp only [if_pos hc]
    obtain ⟨v, hv⟩ := Option.isSome_iff_exists.mp hc
    have hmem : c0 ∈ kom.map Prod.fst := mem_map_fst_of_alook kom c0 v hv
    refine ⟨hnd, hc, fun c lst hl => Or.inl hl, fun c _ => by trivial, ?_, ?_⟩
    · have hle := le_maxNat _ _ hmem
      simp only [natMax_eq]
      omega
    · intro _
      have hle := minNat_le_mem _ _ hmem
      simp only [natMin_eq]
      omega
  · have hnm : c0 ∉ kom.map Prod.fst := fun hm => hc (alook_isSome_of_mem kom c0 hm)
    have hset : aset kom c0 ([] : List String) = kom ++ [(c0, [])] :=
      aset_eq_append kom c0 [] hnm
    have hkeys : (aset kom c0 ([] : List String)).map Prod.fst
        = kom.map Prod.fst ++ [c0] := by
      rw [hset, List.map_append]
      rfl
    simp only [if_neg hc]
    refine ⟨?_, ?_, ?_, ?_, ?_, ?_⟩
    · rw [hkeys]
      simp [List.nodup_append, hnd, hnm]
    · rw [alook_aset_self]
      rfl
    · intro c lst hl
      by_cases hcc : c = c0
      · subst hcc
        rw [alook_aset_self] at hl
        exact Or.inr ⟨rfl, (Option.some_inj.mp hl).symm⟩
      · rw [alook_aset_ne _ _ _ _ hcc] at hl
        exact Or.inl hl
    · intro c hcc
      exact alook_aset_ne _ _ _ _ hcc
    · rw [hkeys, maxNat_append]
    · intro hne
      rw [hkeys, minNat_append _ _ hne]

/-! ### Well-formedness of reachable MFU states -/

/-- Every reachable MFU state is well-formed: the bucket keys are
duplicate-free, the cached `_highestHitCount` equals their maximum, and every
bucket is duplicate-free and holds exactly keys whose recorded hit count in
`_cacheKeyMap` is the bucket's count. -/
theorem mfu_reach_wf {s : MFUState} (hr : MFUReach s) :
    ((s.keyOrderMap.map Prod.fst).Nodup) ∧
    s.highestHitCount = maxNat (s.keyOrderMap.map Prod.fst) ∧
    (∀ c lst, alook s.keyOrderMap c = some lst →
      lst.Nodup ∧ ∀ x ∈ lst, alook s.cacheKeyMap x = some c) := by
  induction hr with
  | init =>
      refine ⟨List.nodup_nil, rfl, ?_⟩
      intro c lst hl
      simp [mfuInit, alook] at hl
  | track h s hr ih =>
      obtain ⟨hW5, hW4, hW1⟩ := ih
      obtain ⟨he5, heS, heD, heN, heMax, _⟩ := ensure_bucket_wf s.keyOrderMap 0 hW5
      simp only [mfuTrack]
      generalize hg : (if (alook s.keyOrderMap 0).isSome then s.keyOrderMap
          else aset s.keyOrderMap 0 []) = kom0
      rw [hg] at he5 heS heD heN heMax
      by_cases htr : (alook s.cacheKeyMap h).isSome = true
      · rw [if_pos htr]
        refine ⟨he5, ?_, ?_⟩
        · show s.highestHitCount = maxNat (kom0.map Prod.fst)
          rw [hW4, heMax]
          simp only [natMax_eq]
          omega
        · intro c lst hl
          rcases heD c lst hl with hOld | ⟨_, rfl⟩
          · exact hW1 c lst hOld
          · exact ⟨List.nodup_nil, fun x hx => absurd hx (List.not_mem_nil x)⟩
      · rw [if_neg htr]
        have hnone : alook s.cacheKeyMap h = none := by
          rcases ho : alook s.cacheKeyMap h with _ | v
          · rfl
          · rw [ho] at htr; simp at htr
        have hnob : ∀ c lst, alook s.keyOrderMap c = some lst → h ∉ lst := by
          intro c lst hl hmem
          have hx := (hW1 c lst hl).2 h hmem
          rw [hnone] at hx
          cases hx
        refine ⟨?_, ?_, ?_⟩
        · show ((aupd kom0 0 (fun lst => lst ++ [h])).map Prod.fst).Nodup
          rw [map_fst_aupd]
          exact he5
        · show s.highestHitCount
              = maxNat ((aupd kom0 0 (fun lst => lst ++ [h])).map Prod.fst)
          rw [map_fst_aupd, hW4, heMax]
          simp only [natMax_eq]
          omega
        · show ∀ c lst, alook (aupd kom0 0 (fun lst => lst ++ [h])) c = some lst →
              lst.Nodup ∧ ∀ x ∈ lst, alook (aset s.cacheKeyMap h 0) x = some c
          intro c lst hl
          by_cases hc0 : c = 0
          · subst hc0
            rw [alook_aupd_self] at hl
            obtain ⟨lst0, hl0⟩ := Option.isSome_iff_exists.mp heS
            rw [hl0, Option.map_some'] at hl
            have hlst : lst = lst0 ++ [h] := (Option.some_inj.mp hl).symm
            subst hlst
            have hfacts : lst0.Nodup ∧ (∀ x ∈ lst0, alook s.cacheKeyMap x = some 0)
                ∧ h ∉ lst0 := by
              rcases heD 0 lst0 hl0 with h0 | ⟨_, rfl⟩
              · exact ⟨(hW1 0 lst0 h0).1, (hW1 0 lst0 h0).2, hnob 0 lst0 h0⟩
              · exact ⟨List.nodup_nil, fun x hx => absurd hx (List.not_mem_nil x),
                  List.not_mem_nil h⟩
            obtain ⟨hnd0, htrk0, hnoh⟩ := hfacts
            constructor
            · simp [List.nodup_append, hnd0, hnoh]
            · intro x hx
              rcases List.mem_append.mp hx with hx | hx
              · have hxh : x ≠ h := fun he => hnoh (he ▸ hx)
                rw [alook_aset_ne _ _ _ _ hxh]
                exact htrk0 x hx
              · simp only [List.mem_singleton] at hx
                subst hx
                exact alook_aset_self _ _ _
          · rw [alook_aupd_ne _ _ _ _ hc0] at hl
            rcases heD c lst hl with hOld | ⟨hc0', _⟩
            · obtain ⟨hnd1, htrk1⟩ := hW1 c lst hOld
              refine ⟨hnd1, ?_⟩
              intro x hx
              have hxh : x ≠ h := by
                intro he
                have hcx := htrk1 x hx
                rw [he, hnone] at hcx
                cases hcx
              rw [alook_aset_ne _ _ _ _ hxh]
              exact htrk1 x hx
            · exact absurd hc0' hc0
  | stop h s hr ih =>
      obtain ⟨hW5, hW4, hW1⟩ := ih
      simp only [mfuStopTracking]
      split
      · exact ⟨hW5, hW4, hW1⟩
      · rename_i hits htr
        split
        · exact ⟨hW5, hW4, hW1⟩
        · rename_i lst hbk
          by_cases hmem : h ∈ lst
          · rw [if_pos hmem]
            obtain ⟨hndl, htrk⟩ := hW1 hits lst hbk
            have hhits : hits ∈ s.keyOrderMap.map Prod.fst :=
              mem_map_fst_of_alook _ _ _ hbk
            by_cases hlen : (lst.erase h).length = 0
            · rw [if_pos hlen]
              refine ⟨?_, ?_, ?_⟩
              · show (((adel (aupd s.keyOrderMap hits (fun _ => lst.erase h)) hits)).map
                    Prod.fst).Nodup
                rw [map_fst_adel, map_fst_aupd]
                exact hW5.erase hits
              · show (if s.highestHitCount = hits
                      then maxKeys (adel (aupd s.keyOrderMap hits (fun _ => lst.erase h)) hits)
                      else s.highestHitCount)
                    = maxNat ((adel (aupd s.keyOrderMap hits (fun _ => lst.erase h)) hits).map
                        Prod.fst)
                by_cases hh : s.highestHitCount = hits
                · rw [if_pos hh, maxKeys_eq_maxNat]
                · rw [if_neg hh, map_fst_adel, map_fst_aupd]
                  have hnh : hits ≠ maxNat (s.keyOrderMap.map Prod.fst) := by
                    intro he
                    exact hh (hW4.trans he.symm)
                  rw [maxNat_erase _ _ hhits hnh]
                  exact hW4
              · show ∀ c lst2,
                    alook (adel (aupd s.keyOrderMap hits (fun _ => lst.erase h)) hits) c
                      = some lst2 →
                    lst2.Nodup ∧ ∀ x ∈ lst2, alook (adel s.cacheKeyMap h) x = some c
                intro c lst2 hl2
                by_cases hch : c = hits
                · subst hch
                  rw [alook_adel_self _ _ (by rw [map_fst_aupd]; exact hW5)] at hl2
                  cases hl2
                · rw [alook_adel_ne _ _ _ hch, alook_aupd_ne _ _ _ _ hch] at hl2
                  obtain ⟨hnd2, htrk2⟩ := hW1 c lst2 hl2
                  refine ⟨hnd2, ?_⟩
                  intro x hx
                  have hxh : x ≠ h := by
                    intro he
                    have hcx := htrk2 x hx
                    rw [he, htr] at hcx
                    exact hch (Option.some_inj.mp hcx).symm
                  rw [alook_adel_ne _ _ _ hxh]
                  exact htrk2 x hx
            · rw [if_neg hlen]
              refine ⟨?_, ?_, ?_⟩
              · show (((aupd s.keyOrderMap hits (fun _ => lst.erase h))).map Prod.fst).Nodup
                rw [map_fst_aupd]
                exact hW5
              · show s.highestHitCount
                    = maxNat ((aupd s.keyOrderMap hits (fun _ => lst.erase h)).map Prod.fst)
                rw [map_fst_aupd]
                exact hW4
              · show ∀ c lst2,
                    alook (aupd s.keyOrderMap hits (fun _ => lst.erase h)) c = some lst2 →
                    lst2.Nodup ∧ ∀ x ∈ lst2, alook (adel s.cacheKeyMap h) x = some c
                intro c lst2 hl2
                by_cases hch : c = hits
                · subst hch
                  rw [alook_aupd_self, hbk, Option.map_some'] at hl2
                  have hlst2 : lst2 = lst.erase h := (Option.some_inj.mp hl2).symm
                  subst hlst2
                  refine ⟨hndl.erase h, ?_⟩
                  intro x hx
                  obtain ⟨hxh, hxl⟩ := (hndl.mem_erase_iff).mp hx
                  rw [alook_adel_ne _ _ _ hxh]
                  exact htrk x hxl
                · rw [alook_aupd_ne _ _ _ _ hch] at hl2
                  obtain ⟨hnd2, htrk2⟩ := hW1 c lst2 hl2
                  refine ⟨hnd2, ?_⟩
                  intro x hx
                  have hxh : x ≠ h := by
                    intro he
                    have hcx := htrk2 x hx
                    rw [he, htr] at hcx
                    exact hch (Option.some_inj.mp hcx).symm
                  rw [alook_adel_ne _ _ _ hxh]
                  exact htrk2 x hx
          · rw [if_neg hmem]
            exact ⟨hW5, hW4, hW1⟩
  | hit h s hr ih =>
      obtain ⟨hW5, hW4, hW1⟩ := ih
      simp only [mfuHit]
      split
      · exact ⟨hW5, hW4, hW1⟩
      · rename_i hits htr
        split
        · exact ⟨hW5, hW4, hW1⟩
        · rename_i lst hbk
          by_cases hmem : h ∈ lst
          · rw [if_pos hmem]
            obtain ⟨hndl, htrk⟩ := hW1 hits lst hbk
            obtain ⟨he5, heS, heD, heN, heMax, _⟩ :=
              ensure_bucket_wf s.keyOrderMap (hits + 1) hW5
            generalize hg : (if (alook s.keyOrderMap (hits + 1)).isSome then s.keyOrderMap
                else aset s.keyOrderMap (hits + 1) []) = kom1
            rw [hg] at he5 heS heD heN heMax
            have hne : hits ≠ hits + 1 := by omega
            have hne' : hits + 1 ≠ hits := by omega
            refine ⟨?_, ?_, ?_⟩
            · show ((aupd (aupd kom1 hits (fun l => l.erase h)) (hits + 1)
                  (fun l => l ++ [h])).map Prod.fst).Nodup
              rw [map_fst_aupd, map_fst_aupd]
              exact he5
            · show Nat.max s.highestHitCount (hits + 1)
                  = maxNat ((aupd (aupd kom1 hits (fun l => l.erase h)) (hits + 1)
                      (fun l => l ++ [h])).map Prod.fst)
              rw [map_fst_aupd, map_fst_aupd, heMax, hW4]
            · show ∀ c lst2,
                  alook (aupd (aupd kom1 hits (fun l => l.erase h)) (hits + 1)
                    (fun l => l ++ [h])) c = some lst2 →
                  lst2.Nodup ∧
                    ∀ x ∈ lst2, alook (aset s.cacheKeyMap h (hits + 1)) x = some c
              intro c lst2 hl2
              by_cases hc1 : c = hits + 1
              · subst hc1
                rw [alook_aupd_self, alook_aupd_ne _ _ _ _ hne'] at hl2
                obtain ⟨lst1, hl1⟩ := Option.isSome_iff_exists.mp heS
                rw [hl1, Option.map_some'] at hl2
                have hlst2 : lst2 = lst1 ++ [h] := (Option.some_inj.mp hl2).symm
                subst hlst2
                have hfacts : lst1.Nodup
                    ∧ (∀ x ∈ lst1, alook s.cacheKeyMap x = some (hits + 1))
                    ∧ h ∉ lst1 := by
                  rcases heD (hits + 1) lst1 hl1 with h1 | ⟨_, rfl⟩
                  · refine ⟨(hW1 _ lst1 h1).1, (hW1 _ lst1 h1).2, ?_⟩
                    intro hmem1
                    have hcx := (hW1 _ lst1 h1).2 h hmem1
                    rw [htr] at hcx
                    exact hne (Option.some_inj.mp hcx)
                  · exact ⟨List.nodup_nil, fun x hx => absurd hx (List.not_mem_nil x),
                      List.not_mem_nil h⟩
                obtain ⟨hnd1, htrk1, hnoh⟩ := hfacts
                constructor
                · simp [List.nodup_append, hnd1, hnoh]
                · intro x hx
                  rcases List.mem_append.mp hx with hx | hx
                  · have hxh : x ≠ h := fun he => hnoh (he ▸ hx)
                    rw [alook_aset_ne _ _ _ _ hxh]
                    exact htrk1 x hx
                  · simp only [List.mem_singleton] at hx
                    subst hx
                    exact alook_aset_self _ _ _
              · rw [alook_aupd_ne _ _ _ _ hc1] at hl2
                by_cases hch : c = hits
                · subst hch
                  rw [alook_aupd_self, heN c hne, hbk, Option.map_some'] at hl2
                  have hlst2 : lst2 = lst.erase h := (Option.some_inj.mp hl2).symm
                  subst hlst2
                  refine ⟨hndl.erase h, ?_⟩
                  intro x hx
                  obtain ⟨hxh, hxl⟩ := (hndl.mem_erase_iff).mp hx
                  rw [alook_aset_ne _ _ _ _ hxh]
                  exact htrk x hxl
                · rw [alook_aupd_ne _ _ _ _ hch, heN c hc1] at hl2
                  obtain ⟨hnd2, htrk2⟩ := hW1 c lst2 hl2
                  refine ⟨hnd2, ?_⟩
                  intro x hx
                  have hxh : x ≠ h := by
                    intro he
                    have hcx := htrk2 x hx
                    rw [he, htr] at hcx
                    exact hch (Option.some_inj.mp hcx).symm
                  rw [alook_aset_ne _ _ _ _ hxh]
                  exact htrk2 x hx
          · rw [if_neg hmem]
            exact ⟨hW5, hW4, hW1⟩
  | evict s hr ih =>
      obtain ⟨hW5, hW4, hW1⟩ := ih
      simp only [mfuEvict]
      split
      · exact ⟨hW5, hW4, hW1⟩
      · rename_i lst hbk
        split
        · exact ⟨hW5, hW4, hW1⟩
        · rename_i h hlast
          obtain ⟨hndl, htrk⟩ := hW1 s.highestHitCount lst hbk
          have hdecomp : lst = lst.dropLast ++ [h] :=
            (List.dropLast_append_getLast? h (Option.mem_def.mpr hlast)).symm
          have hmem : h ∈ lst := by
            rw [hdecomp]
            exact List.mem_append_right _ (List.mem_singleton_self h)
          have hnodupsplit := hdecomp ▸ hndl
          have hdropnodup : lst.dropLast.Nodup := (List.nodup_append.mp hnodupsplit).1
          have hnotdrop : h ∉ lst.dropLast := by
            intro hx
            exact (List.nodup_append.mp hnodupsplit).2.2 hx (List.mem_singleton_self h)
          have hdropsub : ∀ x ∈ lst.dropLast, x ∈ lst := by
            intro x hx
            rw [hdecomp]
            exact List.mem_append_left _ hx
          have htrh : alook s.cacheKeyMap h = some s.highestHitCount := htrk h hmem
          by_cases hlen : lst.dropLast.length = 0
          · rw [if_pos hlen]
            refine ⟨?_, ?_, ?_⟩
            · show (((adel (aupd s.keyOrderMap s.highestHitCount (fun _ => lst.dropLast))
                  s.highestHitCount)).map Prod.fst).Nodup
              rw [map_fst_adel, map_fst_aupd]
              exact hW5.erase _
            · show maxKeys (adel (aupd s.keyOrderMap s.highestHitCount (fun _ => lst.dropLast))
                  s.highestHitCount)
                = maxNat ((adel (aupd s.keyOrderMap s.highestHitCount (fun _ => lst.dropLast))
                    s.highestHitCount).map Prod.fst)
              rw [maxKeys_eq_maxNat]
            · show ∀ c lst2,
                  alook (adel (aupd s.keyOrderMap s.highestHitCount (fun _ => lst.dropLast))
                    s.highestHitCount) c = some lst2 →
                  lst2.Nodup ∧ ∀ x ∈ lst2, alook (adel s.cacheKeyMap h) x = some c
              intro c lst2 hl2
              by_cases hch : c = s.highestHitCount
              · subst hch
                rw [alook_adel_self _ _ (by rw [map_fst_aupd]; exact hW5)] at hl2
                cases hl2
              · rw [alook_adel_ne _ _ _ hch, alook_aupd_ne _ _ _ _ hch] at hl2
                obtain ⟨hnd2, htrk2⟩ := hW1 c lst2 hl2
                refine ⟨hnd2, ?_⟩
                intro x hx
                have hxh : x ≠ h := by
                  intro he
                  have hcx := htrk2 x hx
                  rw [he, htrh] at hcx
                  exact hch (Option.some_inj.mp hcx).symm
                rw [alook_adel_ne _ _ _ hxh]
                exact htrk2 x hx
          · rw [if_neg hlen]
            refine ⟨?_, ?_, ?_⟩
            · show (((aupd s.keyOrderMap s.highestHitCount (fun _ => lst.dropLast))).map
                  Prod.fst).Nodup
              rw [map_fst_aupd]
              exact hW5
            · show s.highestHitCount
                  = maxNat ((aupd s.keyOrderMap s.highestHitCount
                      (fun _ => lst.dropLast)).map Prod.fst)
              rw [map_fst_aupd]
              exact hW4
            · show ∀ c lst2,
                  alook (aupd s.keyOrderMap s.highestHitCount (fun _ => lst.dropLast)) c
                    = some lst2 →
                  lst2.Nodup ∧ ∀ x ∈ lst2, alook (adel s.cacheKeyMap h) x = some c
              intro c lst2 hl2
              by_cases hch : c = s.highestHitCount
              · subst hch
                rw [alook_aupd_self, hbk, Option.map_some'] at hl2
                have hlst2 : lst2 = lst.dropLast := (Option.some_inj.mp hl2).symm
                subst hlst2
                refine ⟨hdropnodup, ?_⟩
                intro x hx
                have hxh : x ≠ h := fun he => hnotdrop (he ▸ hx)
                rw [alook_adel_ne _ _ _ hxh]
                exact htrk x (hdropsub x hx)
              · rw [alook_aupd_ne _ _ _ _ hch] at hl2
                obtain ⟨hnd2, htrk2⟩ := hW1 c lst2 hl2
                refine ⟨hnd2, ?_⟩
                intro x hx
                have hxh : x ≠ h := by
                  intro he
                  have hcx := htrk2 x hx
                  rw [he, htrh] at hcx
                  exact hch (Option.some_inj.mp hcx).symm
                rw [alook_adel_ne _ _ _ hxh]
                exact htrk2 x hx

/-! ### The MFU snapshot round trip -/

/-- One `applySnapshot` step raises the running highest hit count to the
bucket's count. -/
theorem mfuApplyStep_high (valid : List String) (s : MFUState)
    (kv : Nat × List String) :
    (mfuApplyStep valid s kv).highestHitCount = Nat.max s.highestHitCount kv.1 := by
  simp only [mfuApplyStep]
  split
  · exact ite_gt_eq_max _ _
  · exact ite_gt_eq_max _ _

/-- The `applySnapshot` fold's highest hit count is the running maximum of the
dumped bucket counts. -/
theorem mfuApply_fold_high (valid : List String) :
    ∀ (entries : List (Nat × List String)) (s0 : MFUState),
    (entries.foldl (mfuApplyStep valid) s0).highestHitCount
      = (entries.map Prod.fst).foldl Nat.max s0.highestHitCount := by
  intro entries
  induction entries with
  | nil => intro s0; rfl
  | cons kv rest ih =>
      intro s0
      rw [List.foldl_cons, ih, List.map_cons, List.foldl_cons, mfuApplyStep_high]

/-- When the dumped bucket counts are new to the accumulator and
duplicate-free, and every bucket's valid-filter is the identity, the
`applySnapshot` fold appends the dumped buckets verbatim. -/
theorem mfuApply_fold_kom (valid : List String) :
    ∀ (entries : List (Nat × List String)) (s0 : MFUState),
    ((s0.keyOrderMap.map Prod.fst ++ entries.map Prod.fst).Nodup) →
    (∀ kv ∈ entries, kv.2.filter (fun k => k ∈ valid) = kv.2) →
    (entries.foldl (mfuApplyStep valid) s0).keyOrderMap = s0.keyOrderMap ++ entries := by
  intro entries
  induction entries with
  | nil => intro s0 _ _; rw [List.foldl_nil, List.append_nil]
  | cons kv rest ih =>
      intro s0 hnd hfil
      have hnotmem : kv.1 ∉ s0.keyOrderMap.map Prod.fst := by
        intro hm
        rw [List.map_cons] at hnd
        exact (List.disjoint_of_nodup_append hnd) hm (List.mem_cons_self _ _)
      have hnone : alook s0.keyOrderMap kv.1 = none :=
        alook_eq_none_of_not_mem _ _ hnotmem
      have hstep : (mfuApplyStep valid s0 kv).keyOrderMap
          = s0.keyOrderMap ++ [(kv.1, kv.2)] := by
        simp only [mfuApplyStep]
        rw [if_neg (by rw [hnone]; simp)]
        show aset s0.keyOrderMap kv.1 (kv.2.filter (fun k => k ∈ valid))
            = s0.keyOrderMap ++ [(kv.1, kv.2)]
        rw [hfil kv (List.mem_cons_self _ _), aset_eq_append _ _ _ hnotmem]
      rw [List.foldl_cons, ih _ ?hnd2 ?hfil2, hstep, List.append_assoc]
      case hnd2 =>
        rw [hstep, List.map_append]
        rw [List.append_assoc]
        simpa using hnd
      case hfil2 => exact fun kv' hm => hfil kv' (List.mem_cons_of_mem kv hm)
      rfl

/-- Restoring the MFU snapshot of a reachable state onto a fresh policy
reproduces the bucket map and the cached highest hit count. -/
theorem mfu_restore_eq {s : MFUState} (hr : MFUReach s) :
    (mfuApplySnapshot (mfuTracked s) (mfuGetSnapshot s)).keyOrderMap = s.keyOrderMap ∧
    (mfuApplySnapshot (mfuTracked s) (mfuGetSnapshot s)).highestHitCount
      = s.highestHitCount := by
  obtain ⟨hW5, hW4, hW1⟩ := mfu_reach_wf hr
  have hfil : ∀ kv ∈ s.keyOrderMap, kv.2.filter (fun k => k ∈ mfuTracked s) = kv.2 := by
    intro kv hkv
    rw [List.filter_eq_self]
    intro x hx
    have hal : alook s.keyOrderMap kv.1 = some kv.2 :=
      alook_of_mem_nodup _ _ _ hW5 hkv
    have htl := (hW1 kv.1 kv.2 hal).2 x hx
    simp only [mfuTracked]
    exact decide_eq_true (mem_map_fst_of_alook _ _ _ htl)
  constructor
  · have hk := mfuApply_fold_kom (mfuTracked s) s.keyOrderMap mfuInit
      (by simpa [mfuInit] using hW5) hfil
    simpa [mfuApplySnapshot, mfuGetSnapshot, mfuInit] using hk
  · have hh := mfuApply_fold_high (mfuTracked s) s.keyOrderMap mfuInit
    simp only [mfuApplySnapshot, mfuGetSnapshot]
    rw [hh]
    exact hW4.symm

/-- `mfuEvict` reads and writes only the bucket map and the cached maximum, so
draining is independent of `_cacheKeyMap`. -/
theorem mfuDrainF_ckm : ∀ (n : Nat) (kom : List (Nat × List String)) (hi : Nat)
    (ckm ckm' : List (String × Nat)),
    mfuDrainF n { cacheKeyMap := ckm, keyOrderMap := kom, highestHitCount := hi }
      = mfuDrainF n { cacheKeyMap := ckm', keyOrderMap := kom, highestHitCount := hi } := by
  intro n
  induction n with
  | zero => intro kom hi ckm ckm'; rfl
  | succ n ih =>
      intro kom hi ckm ckm'
      rcases hbk : alook kom hi with _ | lst
      · simp [mfuDrainF, mfuEvict, hbk]
      · rcases hlast : lst.getLast? with _ | h
        · simp [mfuDrainF, mfuEvict, hbk, hlast]
        · by_cases hlen : lst.dropLast.length = 0
          · simp only [mfuDrainF, mfuEvict, hbk, hlast, if_pos hlen]
            exact congrArg (fun t => h :: t) (ih _ _ _ _)
          · simp only [mfuDrainF, mfuEvict, hbk, hlast, if_neg hlen]
            exact congrArg (fun t => h :: t) (ih _ _ _ _)

/-! ### Well-formedness of reachable LFU states -/

/-- Every reachable LFU state is well-formed: the bucket keys are
duplicate-free, the cached `lowestHitCount` equals their minimum, and every
bucket is duplicate-free and holds exactly keys whose recorded hit count in
`cacheKeyMap` is the bucket's count. -/
theorem lfu_reach_wf {s : LFUState} (hr : LFUReach s) :
    ((s.keyOrderMap.map Prod.fst).Nodup) ∧
    s.lowestHitCount = minNat (s.keyOrderMap.map Prod.fst) ∧
    (∀ c lst, alook s.keyOrderMap c = some lst →
      lst.Nodup ∧ ∀ x ∈ lst, alook s.cacheKeyMap x = some c) := by
  induction hr with
  | init =>
      refine ⟨List.nodup_nil, rfl, ?_⟩
      intro c lst hl
      simp [lfuInit, alook] at hl
  | track h s hr ih =>
      obtain ⟨hW5, hW4, hW1⟩ := ih
      simp only [lfuTrack]
      by_cases htr : (alook s.cacheKeyMap h).isSome = true
      · rw [if_pos htr]
        exact ⟨hW5, hW4, hW1⟩
      · rw [if_neg htr]
        obtain ⟨he5, heS, heD, heN, _, _⟩ := ensure_bucket_wf s.keyOrderMap 0 hW5
        generalize hg : (if (alook s.keyOrderMap 0).isSome then s.keyOrderMap
            else aset s.keyOrderMap 0 []) = kom0
        rw [hg] at he5 heS heD heN
        have hnone : alook s.cacheKeyMap h = none := by
          rcases ho : alook s.cacheKeyMap h with _ | v
          · rfl
          · rw [ho] at htr; simp at htr
        have hnob : ∀ c lst, alook s.keyOrderMap c = some lst → h ∉ lst := by
          intro c lst hl hmem
          have hx := (hW1 c lst hl).2 h hmem
          rw [hnone] at hx
          cases hx
        refine ⟨?_, ?_, ?_⟩
        · show ((aupd kom0 0 (fun lst => lst ++ [h])).map Prod.fst).Nodup
          rw [map_fst_aupd]
          exact he5
        · show (0 : Nat) = minNat ((aupd kom0 0 (fun lst => lst ++ [h])).map Prod.fst)
          rw [map_fst_aupd]
          obtain ⟨v, hv⟩ := Option.isSome_iff_exists.mp heS
          exact (minNat_zero_mem _ (mem_map_fst_of_alook _ _ _ hv)).symm
        · show ∀ c lst, alook (aupd kom0 0 (fun lst => lst ++ [h])) c = some lst →
              lst.Nodup ∧ ∀ x ∈ lst, alook (aset s.cacheKeyMap h 0) x = some c
          intro c lst hl
          by_cases hc0 : c = 0
          · subst hc0
            rw [alook_aupd_self] at hl
            obtain ⟨lst0, hl0⟩ := Option.isSome_iff_exists.mp heS
            rw [hl0, Option.map_some'] at hl
            have hlst : lst = lst0 ++ [h] := (Option.some_inj.mp hl).symm
            subst hlst
            have hfacts : lst0.Nodup ∧ (∀ x ∈ lst0, alook s.cacheKeyMap x = some 0)
                ∧ h ∉ lst0 := by
              rcases heD 0 lst0 hl0 with h0 | ⟨_, rfl⟩
              · exact ⟨(hW1 0 lst0 h0).1, (hW1 0 lst0 h0).2, hnob 0 lst0 h0⟩
              · exact ⟨List.nodup_nil, fun x hx => absurd hx (List.not_mem_nil x),
                  List.not_mem_nil h⟩
            obtain ⟨hnd0, htrk0, hnoh⟩ := hfacts
            constructor
            · simp [List.nodup_append, hnd0, hnoh]
            · intro x hx
              rcases List.mem_append.mp hx with hx | hx
              · have hxh : x ≠ h := fun he => hnoh (he ▸ hx)
                rw [alook_aset_ne _ _ _ _ hxh]
                exact htrk0 x hx
              · simp only [List.mem_singleton] at hx
                subst hx
                exact alook_aset_self _ _ _
          · rw [alook_aupd_ne _ _ _ _ hc0] at hl
            rcases heD c lst hl with hOld | ⟨hc0', _⟩
            · obtain ⟨hnd1, htrk1⟩ := hW1 c lst hOld
              refine ⟨hnd1, ?_⟩
              intro x hx
              have hxh : x ≠ h := by
                intro he
                have hcx := htrk1 x hx
                rw [he, hnone] at hcx
                cases hcx
              rw [alook_aset_ne _ _ _ _ hxh]
              exact htrk1 x hx
            · exact absurd hc0' hc0
  | stop h s hr ih =>
      obtain ⟨hW5, hW4, hW1⟩ := ih
      simp only [lfuStopTracking]
      split
      · exact ⟨hW5, hW4, hW1⟩
      · rename_i hits htr
        split
        · exact ⟨hW5, hW4, hW1⟩
        · rename_i lst hbk
          by_cases hmem : h ∈ lst
          · rw [if_pos hmem]
            obtain ⟨hndl, htrk⟩ := hW1 hits lst hbk
            have hhits : hits ∈ s.keyOrderMap.map Prod.fst :=
              mem_map_fst_of_alook _ _ _ hbk
            by_cases hlen : (lst.erase h).length = 0
            · rw [if_pos hlen]
              refine ⟨?_, ?_, ?_⟩
              · show (((adel (aupd s.keyOrderMap hits (fun _ => lst.erase h)) hits)).map
                    Prod.fst).Nodup
                rw [map_fst_adel, map_fst_aupd]
                exact hW5.erase hits
              · show (if s.lowestHitCount = hits
                      then minKeys (adel (aupd s.keyOrderMap hits (fun _ => lst.erase h)) hits)
                      else s.lowestHitCount)
                    = minNat ((adel (aupd s.keyOrderMap hits (fun _ => lst.erase h)) hits).map
                        Prod.fst)
                by_cases hh : s.lowestHitCount = hits
                · rw [if_pos hh, minKeys_eq_minNat]
                · rw [if_neg hh, map_fst_adel, map_fst_aupd]
                  have hnh : hits ≠ minNat (s.keyOrderMap.map Prod.fst) := by
                    intro he
                    exact hh (hW4.trans he.symm)
                  rw [minNat_erase _ _ hhits hnh]
                  exact hW4
              · show ∀ c lst2,
                    alook (adel (aupd s.keyOrderMap hits (fun _ => lst.erase h)) hits) c
                      = some lst2 →
                    lst2.Nodup ∧ ∀ x ∈ lst2, alook (adel s.cacheKeyMap h) x = some c
                intro c lst2 hl2
                by_cases hch : c = hits
                · subst hch
                  rw [alook_adel_self _ _ (by rw [map_fst_aupd]; exact hW5)] at hl2
                  cases hl2
                · rw [alook_adel_ne _ _ _ hch, alook_aupd_ne _ _ _ _ hch] at hl2
                  obtain ⟨hnd2, htrk2⟩ := hW1 c lst2 hl2
                  refine ⟨hnd2, ?_⟩
                  intro x hx
                  have hxh : x ≠ h := by
                    intro he
                    have hcx := htrk2 x hx
                    rw [he, htr] at hcx
                    exact hch (Option.some_inj.mp hcx).symm
                  rw [alook_adel_ne _ _ _ hxh]
                  exact htrk2 x hx
            · rw [if_neg hlen]
              refine ⟨?_, ?_, ?_⟩
              · show (((aupd s.keyOrderMap hits (fun _ => lst.erase h))).map Prod.fst).Nodup
                rw [map_fst_aupd]
                exact hW5
              · show s.lowestHitCount
                    = minNat ((aupd s.keyOrderMap hits (fun _ => lst.erase h)).map Prod.fst)
                rw [map_fst_aupd]
                exact hW4
              · show ∀ c lst2,
                    alook (aupd s.keyOrderMap hits (fun _ => lst.erase h)) c = some lst2 →
                    lst2.Nodup ∧ ∀ x ∈ lst2, alook (adel s.cacheKeyMap h) x = some c
                intro c lst2 hl2
                by_cases hch : c = hits
                · subst hch
                  rw [alook_aupd_self, hbk, Option.map_some'] at hl2
                  have hlst2 : lst2 = lst.erase h := (Option.some_inj.mp hl2).symm
                  subst hlst2
                  refine ⟨hndl.erase h, ?_⟩
                  intro x hx
                  obtain ⟨hxh, hxl⟩ := (hndl.mem_erase_iff).mp hx
                  rw [alook_adel_ne _ _ _ hxh]
                  exact htrk x hxl
                · rw [alook_aupd_ne _ _ _ _ hch] at hl2
                  obtain ⟨hnd2, htrk2⟩ := hW1 c lst2 hl2
                  refine ⟨hnd2, ?_⟩
                  intro x hx
                  have hxh : x ≠ h := by
                    intro he
                    have hcx := htrk2 x hx
                    rw [he, htr] at hcx
                    exact hch (Option.some_inj.mp hcx).symm
                  rw [alook_adel_ne _ _ _ hxh]
                  exact htrk2 x hx
          · rw [if_neg hmem]
            exact ⟨hW5, hW4, hW1⟩
  | hit h s hr ih =>
      obtain ⟨hW5, hW4, hW1⟩ := ih
      simp only [lfuHit]
      split
      · exact ⟨hW5, hW4, hW1⟩
      · rename_i hits htr
        split
        · exact ⟨hW5, hW4, hW1⟩
        · rename_i lst hbk
          by_cases hmem : h ∈ lst
          · rw [if_pos hmem]
            obtain ⟨hndl, htrk⟩ := hW1 hits lst hbk
            obtain ⟨he5, heS, heD, heN, _, heMin⟩ :=
              ensure_bucket_wf s.keyOrderMap (hits + 1) hW5
            generalize hg : (if (alook s.keyOrderMap (hits + 1)).isSome then s.keyOrderMap
                else aset s.keyOrderMap (hits + 1) []) = kom1
            rw [hg] at he5 heS heD heN heMin
            have hne : hits ≠ hits + 1 := by omega
            have hne' : hits + 1 ≠ hits := by omega
            have hhitsmem : hits ∈ s.keyOrderMap.map Prod.fst :=
              mem_map_fst_of_alook _ _ _ hbk
            have hnenil : s.keyOrderMap.map Prod.fst ≠ [] := List.ne_nil_of_mem hhitsmem
            have hm2 : minNat (kom1.map Prod.fst) = minNat (s.keyOrderMap.map Prod.fst) := by
              rw [heMin hnenil]
              have hle := minNat_le_mem _ _ hhitsmem
              simp only [natMin_eq]
              omega
            have hbk1 : alook kom1 hits = some lst := by
              have hx := heN hits hne
              rw [hbk] at hx
              exact hx
            have hhitsmem1 : hits ∈ kom1.map Prod.fst := mem_map_fst_of_alook _ _ _ hbk1
            have hkom2W1 : ∀ c lst2,
                alook (aupd (aupd kom1 hits (fun l => l.erase h)) (hits + 1)
                  (fun l => l ++ [h])) c = some lst2 →
                lst2.Nodup ∧
                  ∀ x ∈ lst2, alook (aset s.cacheKeyMap h (hits + 1)) x = some c := by
              intro c lst2 hl2
              by_cases hc1 : c = hits + 1
              · subst hc1
                rw [alook_aupd_self, alook_aupd_ne _ _ _ _ hne'] at hl2
                obtain ⟨lst1, hl1⟩ := Option.isSome_iff_exists.mp heS
                rw [hl1, Option.map_some'] at hl2
                have hlst2 : lst2 = lst1 ++ [h] := (Option.some_inj.mp hl2).symm
                subst hlst2
                have hfacts : lst1.Nodup
                    ∧ (∀ x ∈ lst1, alook s.cacheKeyMap x = some (hits + 1))
                    ∧ h ∉ lst1 := by
                  rcases heD (hits + 1) lst1 hl1 with h1 | ⟨_, rfl⟩
                  · refine ⟨(hW1 _ lst1 h1).1, (hW1 _ lst1 h1).2, ?_⟩
                    intro hmem1
                    have hcx := (hW1 _ lst1 h1).2 h hmem1
                    rw [htr] at hcx
                    exact hne (Option.some_inj.mp hcx)
                  · exact ⟨List.nodup_nil, fun x hx => absurd hx (List.not_mem_nil x),
                      List.not_mem_nil h⟩
                obtain ⟨hnd1, htrk1, hnoh⟩ := hfacts
                constructor
                · simp [List.nodup_append, hnd1, hnoh]
                · intro x hx
                  rcases List.mem_append.mp hx with hx | hx
                  · have hxh : x ≠ h := fun he => hnoh (he ▸ hx)
                    rw [alook_aset_ne _ _ _ _ hxh]
                    exact htrk1 x hx
                  · simp only [List.mem_singleton] at hx
                    subst hx
                    exact alook_aset_self _ _ _
              · rw [alook_aupd_ne _ _ _ _ hc1] at hl2
                by_cases hch : c = hits
                · subst hch
                  rw [alook_aupd_self, hbk1, Option.map_some'] at hl2
                  have hlst2 : lst2 = lst.erase h := (Option.some_inj.mp hl2).symm
                  subst hlst2
                  refine ⟨hndl.erase h, ?_⟩
                  intro x hx
                  obtain ⟨hxh, hxl⟩ := (hndl.mem_erase_iff).mp hx
                  rw [alook_aset_ne _ _ _ _ hxh]
                  exact htrk x hxl
                · rw [alook_aupd_ne _ _ _ _ hch, heN c hc1] at hl2
                  obtain ⟨hnd2, htrk2⟩ := hW1 c lst2 hl2
                  refine ⟨hnd2, ?_⟩
                  intro x hx
                  have hxh : x ≠ h := by
                    intro he
                    have hcx := htrk2 x hx
                    rw [he, htr] at hcx
                    exact hch (Option.some_inj.mp hcx).symm
                  rw [alook_aset_ne _ _ _ _ hxh]
                  exact htrk2 x hx
            have hkeys2 : (aupd (aupd kom1 hits (fun l => l.erase h)) (hits + 1)
                (fun l => l ++ [h])).map Prod.fst = kom1.map Prod.fst := by
              rw [map_fst_aupd, map_fst_aupd]
            by_cases hlen : (lst.erase h).length = 0
            · rw [if_pos hlen]
              refine ⟨?_, ?_, ?_⟩
              · show (((adel (aupd (aupd kom1 hits (fun l => l.erase h)) (hits + 1)
                    (fun l => l ++ [h])) hits)).map Prod.fst).Nodup
                rw [map_fst_adel, hkeys2]
                exact he5.erase hits
              · show (if (lst.erase h).length = 0 ∧ s.lowestHitCount = hits
                      then minKeys (adel (aupd (aupd kom1 hits (fun l => l.erase h))
                        (hits + 1) (fun l => l ++ [h])) hits)
                      else s.lowestHitCount)
                    = minNat ((adel (aupd (aupd kom1 hits (fun l => l.erase h))
                        (hits + 1) (fun l => l ++ [h])) hits).map Prod.fst)
                by_cases hlow : s.lowestHitCount = hits
                · rw [if_pos ⟨hlen, hlow⟩, minKeys_eq_minNat]
                · rw [if_neg (fun hc => hlow hc.2), map_fst_adel, hkeys2]
                  have hnh : hits ≠ minNat (kom1.map Prod.fst) := by
                    rw [hm2]
                    intro he
                    exact hlow (hW4.trans he.symm)
                  rw [minNat_erase _ _ hhitsmem1 hnh, hm2]
                  exact hW4
              · show ∀ c lst2,
                    alook (adel (aupd (aupd kom1 hits (fun l => l.erase h)) (hits + 1)
                      (fun l => l ++ [h])) hits) c = some lst2 →
                    lst2.Nodup ∧
                      ∀ x ∈ lst2, alook (aset s.cacheKeyMap h (hits + 1)) x = some c
                intro c lst2 hl2
                by_cases hch : c = hits
                · subst hch
                  rw [alook_adel_self _ _ (by rw [hkeys2]; exact he5)] at hl2
                  cases hl2
                · rw [alook_adel_ne _ _ _ hch] at hl2
                  exact hkom2W1 c lst2 hl2
            · rw [if_neg hlen]
              refine ⟨?_, ?_, ?_⟩
              · show (((aupd (aupd kom1 hits (fun l => l.erase h)) (hits + 1)
                    (fun l => l ++ [h]))).map Prod.fst).Nodup
                rw [hkeys2]
                exact he5
              · show (if (lst.erase h).length = 0 ∧ s.lowestHitCount = hits
                      then minKeys (aupd (aupd kom1 hits (fun l => l.erase h))
                        (hits + 1) (fun l => l ++ [h]))
                      else s.lowestHitCount)
                    = minNat ((aupd (aupd kom1 hits (fun l => l.erase h))
                        (hits + 1) (fun l => l ++ [h])).map Prod.fst)
                rw [if_neg (fun hc => hlen hc.1), hkeys2, hm2]
                exact hW4
              · show ∀ c lst2,
                    alook (aupd (aupd kom1 hits (fun l => l.erase h)) (hits + 1)
                      (fun l => l ++ [h])) c = some lst2 →
                    lst2.Nodup ∧
                      ∀ x ∈ lst2, alook (aset s.cacheKeyMap h (hits + 1)) x = some c
                exact hkom2W1
          · rw [if_neg hmem]
            exact ⟨hW5, hW4, hW1⟩
  | evict s hr ih =>
      obtain ⟨hW5, hW4, hW1⟩ := ih
      simp only [lfuEvict]
      split
      · exact ⟨hW5, hW4, hW1⟩
      · rename_i lst hbk
        split
        · exact ⟨hW5, hW4, hW1⟩
        · rename_i h rest
          obtain ⟨hndl, htrk⟩ := hW1 s.lowestHitCount _ hbk
          have hnotr : h ∉ rest := (List.nodup_cons.mp hndl).1
          have hrnodup : rest.Nodup := (List.nodup_cons.mp hndl).2
          have htrh : alook s.cacheKeyMap h = some s.lowestHitCount :=
            htrk h (List.mem_cons_self _ _)
          by_cases hlen : rest.length = 0
          · rw [if_pos hlen]
            refine ⟨?_, ?_, ?_⟩
            · show (((adel (aupd s.keyOrderMap s.lowestHitCount (fun _ => rest))
                  s.lowestHitCount)).map Prod.fst).Nodup
              rw [map_fst_adel, map_fst_aupd]
              exact hW5.erase _
            · show minKeys (adel (aupd s.keyOrderMap s.lowestHitCount (fun _ => rest))
                  s.lowestHitCount)
                = minNat ((adel (aupd s.keyOrderMap s.lowestHitCount (fun _ => rest))
                    s.lowestHitCount).map Prod.fst)
              rw [minKeys_eq_minNat]
            · show ∀ c lst2,
                  alook (adel (aupd s.keyOrderMap s.lowestHitCount (fun _ => rest))
                    s.lowestHitCount) c = some lst2 →
                  lst2.Nodup ∧ ∀ x ∈ lst2, alook (adel s.cacheKeyMap h) x = some c
              intro c lst2 hl2
              by_cases hch : c = s.lowestHitCount
              · subst hch
                rw [alook_adel_self _ _ (by rw [map_fst_aupd]; exact hW5)] at hl2
                cases hl2
              · rw [alook_adel_ne _ _ _ hch, alook_aupd_ne _ _ _ _ hch] at hl2
                obtain ⟨hnd2, htrk2⟩ := hW1 c lst2 hl2
                refine ⟨hnd2, ?_⟩
                intro x hx
                have hxh : x ≠ h := by
                  intro he
                  have hcx := htrk2 x hx
                  rw [he, htrh] at hcx
                  exact hch (Option.some_inj.mp hcx).symm
                rw [alook_adel_ne _ _ _ hxh]
                exact htrk2 x hx
          · rw [if_neg hlen]
            refine ⟨?_, ?_, ?_⟩
            · show (((aupd s.keyOrderMap s.lowestHitCount (fun _ => rest))).map
                  Prod.fst).Nodup
              rw [map_fst_aupd]
              exact hW5
            · show s.lowestHitCount
                  = minNat ((aupd s.keyOrderMap s.lowestHitCount (fun _ => rest)).map
                      Prod.fst)
              rw [map_fst_aupd]
              exact hW4
            · show ∀ c lst2,
                  alook (aupd s.keyOrderMap s.lowestHitCount (fun _ => rest)) c = some lst2 →
                  lst2.Nodup ∧ ∀ x ∈ lst2, alook (adel s.cacheKeyMap h) x = some c
              intro c lst2 hl2
              by_cases hch : c = s.lowestHitCount
              · subst hch
                rw [alook_aupd_self, hbk, Option.map_some'] at hl2
                have hlst2 : lst2 = rest := (Option.some_inj.mp hl2).symm
                subst hlst2
                refine ⟨hrnodup, ?_⟩
                intro x hx
                have hxh : x ≠ h := fun he => hnotr (he ▸ hx)
                rw [alook_adel_ne _ _ _ hxh]
                exact htrk x (List.mem_cons_of_mem h hx)
              · rw [alook_aupd_ne _ _ _ _ hch] at hl2
                obtain ⟨hnd2, htrk2⟩ := hW1 c lst2 hl2
                refine ⟨hnd2, ?_⟩
                intro x hx
                have hxh : x ≠ h := by
                  intro he
                  have hcx := htrk2 x hx
                  rw [he, htrh] at hcx
                  exact hch (Option.some_inj.mp hcx).symm
                rw [alook_adel_ne _ _ _ hxh]
                exact htrk2 x hx

/-- Restoring the LFU snapshot of a reachable state onto a fresh policy
reproduces the bucket map and the cached lowest hit count. -/
theorem lfu_restore_eq {s : LFUState} (hr : LFUReach s) :
    (lfuApplySnapshot (lfuTracked s) (lfuGetSnapshot s)).keyOrderMap = s.keyOrderMap ∧
    (lfuApplySnapshot (lfuTracked s) (lfuGetSnapshot s)).lowestHitCount
      = s.lowestHitCount := by
  obtain ⟨hW5, hW4, hW1⟩ := lfu_reach_wf hr
  have hpt : ∀ kv ∈ s.keyOrderMap,
      (kv.1, kv.2.filter (fun k => k ∈ lfuTracked s)) = kv := by
    intro kv hkv
    have hal : alook s.keyOrderMap kv.1 = some kv.2 :=
      alook_of_mem_nodup _ _ _ hW5 hkv
    have hfil : kv.2.filter (fun k => k ∈ lfuTracked s) = kv.2 := by
      rw [List.filter_eq_self]
      intro x hx
      have htl := (hW1 kv.1 kv.2 hal).2 x hx
      simp only [lfuTracked]
      exact decide_eq_true (mem_map_fst_of_alook _ _ _ htl)
    rw [hfil]
  have hmap : s.keyOrderMap.map
      (fun kv => (kv.1, kv.2.filter (fun k => k ∈ lfuTracked s))) = s.keyOrderMap :=
    (List.map_congr_left hpt).trans (List.map_id _)
  constructor
  · simpa [lfuApplySnapshot, lfuGetSnapshot] using hmap
  · simp only [lfuApplySnapshot, lfuGetSnapshot]
    show minKeys (s.keyOrderMap.map
        (fun kv => (kv.1, kv.2.filter (fun k => k ∈ lfuTracked s)))) = s.lowestHitCount
    rw [hmap, minKeys_eq_minNat]
    exact hW4.symm

/-- `lfuEvict` reads and writes only the bucket map and the cached minimum, so
draining is independent of `cacheKeyMap`. -/
theorem lfuDrainF_ckm : ∀ (n : Nat) (kom : List (Nat × List String)) (lo : Nat)
    (ckm ckm' : List (String × Nat)),
    lfuDrainF n { cacheKeyMap := ckm, keyOrderMap := kom, lowestHitCount := lo }
      = lfuDrainF n { cacheKeyMap := ckm', keyOrderMap := kom, lowestHitCount := lo } := by
  intro n
  induction n with
  | zero => intro kom lo ckm ckm'; rfl
  | succ n ih =>
      intro kom lo ckm ckm'
      rcases hbk : alook kom lo with _ | lst
      · simp [lfuDrainF, lfuEvict, hbk]
      · rcases lst with _ | ⟨h, rest⟩
        · simp [lfuDrainF, lfuEvict, hbk]
        · by_cases hlen : rest.length = 0
          · simp only [lfuDrainF, lfuEvict, hbk, if_pos hlen]
            exact congrArg (fun t => h :: t) (ih _ _ _ _)
          · simp only [lfuDrainF, lfuEvict, hbk, if_neg hlen]
            exact congrArg (fun t => h :: t) (ih _ _ _ _)

/-! ### `applySnapshot` restores tracking for every listed valid key -/

/-- `Map.set` puts the written key into the key list. -/
theorem mem_map_fst_aset_self {κ α : Type} [DecidableEq κ] (l : List (κ × α))
    (k : κ) (v : α) : k ∈ (aset l k v).map Prod.fst := by
  rw [map_fst_aset]
  by_cases h : k ∈ l.map Prod.fst
  · rw [if_pos h]; exact h
  · rw [if_neg h]; exact List.mem_append_right _ (List.mem_singleton_self k)

/-- `Map.set` keeps every existing key in the key list. -/
theorem mem_map_fst_aset_of_mem {κ α : Type} [DecidableEq κ] (l : List (κ × α))
    (k k' : κ) (v : α) (h : k' ∈ l.map Prod.fst) :
    k' ∈ (aset l k v).map Prod.fst := by
  rw [map_fst_aset]
  by_cases hm : k ∈ l.map Prod.fst
  · rw [if_pos hm]; exact h
  · rw [if_neg hm]; exact List.mem_append_left _ h

/-- Folding `Map.set` over a hash list records every hash (and keeps prior
keys). -/
theorem mem_foldl_aset (c : Nat) : ∀ (l : List String) (m : List (String × Nat))
    (x : String), (x ∈ l ∨ x ∈ m.map Prod.fst) →
    x ∈ (l.foldl (fun m' h => aset m' h c) m).map Prod.fst := by
  intro l
  induction l with
  | nil =>
      intro m x h
      rcases h with h | h
      · simp at h
      · exact h
  | cons y t ih =>
      intro m x h
      rw [List.foldl_cons]
      apply ih
      rcases h with h | h
      · rcases List.mem_cons.mp h with rfl | h
        · exact Or.inr (mem_map_fst_aset_self m x c)
        · exact Or.inl h
      · exact Or.inr (mem_map_fst_aset_of_mem m y x c h)

/-- Every iteration of `MRUPolicy.applySnapshot`'s rebuild loop records the
current key in `_cacheKeyMap` and keeps all previously recorded keys. -/
theorem mruApplyLoop_tracks : ∀ (keys : List String) (total idx : Nat)
    (pk : Option String) (s : MRUState) (x : String),
    (x ∈ keys ∨ x ∈ s.keyMap.map Prod.fst) →
    x ∈ (mruApplyLoop keys total idx pk s).keyMap.map Prod.fst := by
  intro keys
  induction keys with
  | nil =>
      intro total idx pk s x h
      rcases h with h | h
      · simp at h
      · exact h
  | cons key rest ih =>
      intro total idx pk s x h
      simp only [mruApplyLoop]
      apply ih
      rcases h with h | h
      · rcases List.mem_cons.mp h with rfl | h
        · right
          split
          · exact mem_map_fst_aset_self _ _ _
          · split
            · exact mem_map_fst_aset_self _ _ _
            · exact mem_map_fst_aset_self _ _ _
        · exact Or.inl h
      · right
        split
        · exact mem_map_fst_aset_of_mem _ _ _ _ h
        · split
          · exact mem_map_fst_aset_of_mem _ _ _ _ h
          · exact mem_map_fst_aset_of_mem _ _ _ _ h

/-- LRU `applySnapshot` tracks every valid key its snapshot lists. -/
theorem lruApplySnapshot_tracks (valid ko : List String) (h : String)
    (h1 : h ∈ ko) (h2 : h ∈ valid) : h ∈ lruTracked (lruApplySnapshot valid ko) := by
  simp only [lruTracked, lruApplySnapshot]
  rw [List.mem_filter]
  exact ⟨h1, decide_eq_true h2⟩

/-- MRU `applySnapshot` tracks every valid key its snapshot lists. -/
theorem mruApplySnapshot_tracks (valid ko : List String) (h : String)
    (h1 : h ∈ ko) (h2 : h ∈ valid) : h ∈ mruTracked (mruApplySnapshot valid ko) := by
  simp only [mruTracked, mruApplySnapshot]
  apply mruApplyLoop_tracks
  left
  rw [List.mem_filter]
  exact ⟨h1, decide_eq_true h2⟩

/-- FIFO `applySnapshot` tracks every valid key its snapshot lists. -/
theorem fifoApplySnapshot_tracks (valid ko : List String) (h : String)
    (h1 : h ∈ ko) (h2 : h ∈ valid) : h ∈ fifoTracked (fifoApplySnapshot valid ko) := by
  simp only [fifoTracked, fifoApplySnapshot]
  apply mem_foldl_sadd
  right
  rw [List.mem_filter]
  exact ⟨h1, decide_eq_true h2⟩

/-- RR `applySnapshot` tracks every valid key its snapshot lists. -/
theorem rrApplySnapshot_tracks (valid ko : List String) (h : String)
    (h1 : h ∈ ko) (h2 : h ∈ valid) : h ∈ rrTracked (rrApplySnapshot valid ko) := by
  simp only [rrTracked, rrApplySnapshot]
  apply mem_foldl_sadd
  right
  rw [List.mem_filter]
  exact ⟨h1, decide_eq_true h2⟩

/-- The MFU `applySnapshot` fold records every valid hash listed in a processed
bucket (and keeps prior recorded hashes). -/
theorem mfuApply_fold_ckm_mem (valid : List String) :
    ∀ (entries : List (Nat × List String)) (s0 : MFUState) (x : String),
    ((∃ kv, kv ∈ entries ∧ x ∈ kv.2 ∧ x ∈ valid) ∨ x ∈ s0.cacheKeyMap.map Prod.fst) →
    x ∈ (entries.foldl (mfuApplyStep valid) s0).cacheKeyMap.map Prod.fst := by
  intro entries
  induction entries with
  | nil =>
      intro s0 x h
      rcases h with ⟨kv, hkv, _⟩ | h
      · simp at hkv
      · exact h
  | cons kv rest ih =>
      intro s0 x h
      rw [List.foldl_cons]
      apply ih
      have hstep : (mfuApplyStep valid s0 kv).cacheKeyMap
          = (kv.2.filter (fun k => k ∈ valid)).foldl (fun m h => aset m h kv.1)
              s0.cacheKeyMap := by
        simp only [mfuApplyStep]
        split
        · rfl
        · rfl
      rcases h with ⟨kv', hkv', hx2, hx3⟩ | h
      · rcases List.mem_cons.mp hkv' with rfl | hkv'
        · right
          rw [hstep]
          apply mem_foldl_aset
          left
          rw [List.mem_filter]
          exact ⟨hx2, decide_eq_true hx3⟩
        · exact Or.inl ⟨kv', hkv', hx2, hx3⟩
      · right
        rw [hstep]
        exact mem_foldl_aset _ _ _ _ (Or.inr h)

/-- MFU `applySnapshot` tracks every valid key listed in a snapshot bucket. -/
theorem mfuApplySnapshot_tracks (valid : List String)
    (kom : List (Nat × List String)) (c : Nat) (lst : List String) (h : String)
    (h1 : (c, lst) ∈ kom) (h2 : h ∈ lst) (h3 : h ∈ valid) :
    h ∈ mfuTracked (mfuApplySnapshot valid kom) := by
  simp only [mfuTracked, mfuApplySnapshot]
  exact mfuApply_fold_ckm_mem valid kom mfuInit h (Or.inl ⟨(c, lst), h1, h2, h3⟩)

/-- The LFU restore fold records every hash listed in a restored bucket. -/
theorem lfuRestore_fold_mem : ∀ (entries : List (Nat × List String))
    (m : List (String × Nat)) (x : String),
    ((∃ kv, kv ∈ entries ∧ x ∈ kv.2) ∨ x ∈ m.map Prod.fst) →
    x ∈ (entries.foldl lfuApplyStep m).map Prod.fst := by
  intro entries
  induction entries with
  | nil =>
      intro m x h
      rcases h with ⟨kv, hkv, _⟩ | h
      · simp at hkv
      · exact h
  | cons kv rest ih =>
      intro m x h
      rw [List.foldl_cons]
      apply ih
      rcases h with ⟨kv', hkv', hx2⟩ | h
      · rcases List.mem_cons.mp hkv' with rfl | hkv'
        · right
          simp only [lfuApplyStep]
          exact mem_foldl_aset _ _ _ _ (Or.inl hx2)
        · exact Or.inl ⟨kv', hkv', hx2⟩
      · right
        simp only [lfuApplyStep]
        exact mem_foldl_aset _ _ _ _ (Or.inr h)

/-- LFU `applySnapshot` tracks every valid key listed in a snapshot bucket. -/
theorem lfuApplySnapshot_tracks (valid : List String)
    (kom : List (Nat × List String)) (c : Nat) (lst : List String) (h : String)
    (h1 : (c, lst) ∈ kom) (h2 : h ∈ lst) (h3 : h ∈ valid) :
    h ∈ lfuTracked (lfuApplySnapshot valid kom) := by
  simp only [lfuTracked, lfuApplySnapshot]
  apply lfuRestore_fold_mem
  left
  refine ⟨(c, lst.filter (fun k => k ∈ valid)), ?_, ?_⟩
  · exact List.mem_map_of_mem _ h1
  · rw [List.mem_filter]
    exact ⟨h2, decide_eq_true h3⟩

/-- C4 (corrected, amended claim): on startup recovery of the memory driver,
every snapshot entry with `options.ttl > 0` and `ctime + ttl < now` is
dropped — it is neither placed in the entry table nor added to the valid-key
set passed to the policy's `applySnapshot`; every other entry is placed in
the table, its key is added to that valid set, and it is tracked by its
policy: for each of the six policies, `applySnapshot` tracks every valid key
its policy snapshot lists.  Each surviving entry with a positive TTL has its
timer re-registered with the FULL original `ttl` (so it expires a full TTL
after recovery, not at `ctime + ttl`); the file-system driver's TTL recovery,
by contrast, removes the cache file of every `ttl.dat` entry whose absolute
expiration is past and re-registers each remaining entry with the REMAINING
duration `expiration - now`. -/
theorem c4_amended_recovery :
    (∀ (digest : Identifier → String) (now : Nat)
        (entries : List (String × Cache)) (h : String) (c : Cache),
        (entries.map Prod.fst).Nodup → (h, c) ∈ entries →
        ((c.options.ttl ≠ 0 ∧ now > c.ctime + c.options.ttl →
            alook (memoryRecoverPolicy digest now entries).table h = none ∧
            h ∉ (memoryRecoverPolicy digest now entries).valid ∧
            alook (memoryRecoverPolicy digest now entries).ttlRegs h = none) ∧
         (¬(c.options.ttl ≠ 0 ∧ now > c.ctime + c.options.ttl) →
            alook (memoryRecoverPolicy digest now entries).table h = some c ∧
            h ∈ (memoryRecoverPolicy digest now entries).valid ∧
            (c.options.ttl ≠ 0 →
              alook (memoryRecoverPolicy digest now entries).ttlRegs h
                = some c.options.ttl)))) ∧
    (∀ (now : Nat) (tm : List (String × Nat)) (h : String) (ts : Nat),
        (tm.map Prod.fst).Nodup → (h, ts) ∈ tm →
        ((now > ts →
            h ∈ (fsRecoverTTL now tm).removedFiles ∧
            alook (fsRecoverTTL now tm).kept h = none ∧
            alook (fsRecoverTTL now tm).regs h = none) ∧
         (¬ now > ts →
            alook (fsRecoverTTL now tm).kept h = some ts ∧
            alook (fsRecoverTTL now tm).regs h = some (ts - now)))) ∧
    (∀ (valid ko : List String) (h : String), h ∈ ko → h ∈ valid →
        h ∈ lruTracked (lruApplySnapshot valid ko) ∧
        h ∈ mruTracked (mruApplySnapshot valid ko) ∧
        h ∈ fifoTracked (fifoApplySnapshot valid ko) ∧
        h ∈ rrTracked (rrApplySnapshot valid ko)) ∧
    (∀ (valid : List String) (kom : List (Nat × List String)) (c : Nat)
        (lst : List String) (h : String),
        (c, lst) ∈ kom → h ∈ lst → h ∈ valid →
        h ∈ mfuTracked (mfuApplySnapshot valid kom) ∧
        h ∈ lfuTracked (lfuApplySnapshot valid kom)) := by
  refine ⟨?_, ?_, ?_, ?_⟩
  · intro digest now entries h c hnd hmem
    have := memRecover_foldl_mem digest now entries
      { table := [], valid := [], ttlRegs := [], inv := [] } h c hnd hmem
    refine ⟨fun hk => ?_, this.2⟩
    have hd := this.1 hk
    refine ⟨hd.1, ?_, hd.2.2⟩
    intro habs
    simpa using hd.2.1.mp habs
  · intro now tm h ts hnd hmem
    have := fsRecover_foldl_mem now tm { kept := [], removedFiles := [], regs := [] }
      h ts hnd hmem
    exact ⟨fun hk => (this.1 hk), this.2⟩
  · intro valid ko h h1 h2
    exact ⟨lruApplySnapshot_tracks valid ko h h1 h2,
      mruApplySnapshot_tracks valid ko h h1 h2,
      fifoApplySnapshot_tracks valid ko h h1 h2,
      rrApplySnapshot_tracks valid ko h h1 h2⟩
  · intro valid kom c lst h h1 h2 h3
    exact ⟨mfuApplySnapshot_tracks valid kom c lst h h1 h2 h3,
      lfuApplySnapshot_tracks valid kom c lst h h1 h2 h3⟩

/-- Witness for `c4_amended_recovery`: recovering at time 50 a snapshot entry
with `ctime = 0`, `ttl = 100` keeps it, registers the full duration 100, and
its key — being in the recovery's valid set — is tracked after `applySnapshot`
of a snapshot listing it (LRU, MRU and MFU shown); a `ttl.dat` entry expiring
at 100 is re-registered with the remaining 50. -/
theorem c4_witness :
    alook (memoryRecoverPolicy dStr 50 [("c.A", ttlCache)]).table "c.A" = some ttlCache ∧
    "c.A" ∈ (memoryRecoverPolicy dStr 50 [("c.A", ttlCache)]).valid ∧
    alook (memoryRecoverPolicy dStr 50 [("c.A", ttlCache)]).ttlRegs "c.A" = some 100 ∧
    alook (fsRecoverTTL 50 [("c.A", 100)]).regs "c.A" = some 50 ∧
    "c.A" ∈ lruTracked (lruApplySnapshot
        (memoryRecoverPolicy dStr 50 [("c.A", ttlCache)]).valid ["c.A"]) ∧
    "c.A" ∈ mruTracked (mruApplySnapshot
        (memoryRecoverPolicy dStr 50 [("c.A", ttlCache)]).valid ["c.A"]) ∧
    "c.A" ∈ mfuTracked (mfuApplySnapshot
        (memoryRecoverPolicy dStr 50 [("c.A", ttlCache)]).valid [(0, ["c.A"])]) := by
  have hmem := (c4_amended_recovery.1 dStr 50 [("c.A", ttlCache)] "c.A" ttlCache
      (by decide) (by simp)).2 (by decide)
  refine ⟨hmem.1, hmem.2.1, hmem.2.2 (by decide),
    ((c4_amended_recovery.2.1 50 [("c.A", 100)] "c.A" 100 (by decide) (by simp)).2
      (by decide)).2, ?_, ?_, ?_⟩
  · exact (c4_amended_recovery.2.2.1 _ ["c.A"] "c.A" (by decide) hmem.2.1).1
  · exact (c4_amended_recovery.2.2.1 _ ["c.A"] "c.A" (by decide) hmem.2.1).2.1
  · exact (c4_amended_recovery.2.2.2 _ [(0, ["c.A"])] 0 ["c.A"] "c.A" (by simp)
      (by decide) hmem.2.1).1

/-! ### Lemmas for the snapshot round trip -/

/-- Draining an LRU policy returns exactly the chain from least- to
most-recently used. -/
theorem lruDrainF_eq_order : ∀ (n : Nat) (s : LRUState), s.order.length ≤ n →
    lruDrainF n s = s.order := by
  intro n
  induction n with
  | zero =>
      intro s hlen
      rw [List.length_eq_zero.mp (Nat.le_zero.mp hlen)]
      rfl
  | succ n ih =>
      intro s hlen
      rcases horder : s.order with _ | ⟨k, rest⟩
      · simp [lruDrainF, lruEvict, horder]
      · rw [horder] at hlen
        simp only [lruDrainF, lruEvict, horder]
        rw [ih _ (by simpa using hlen)]

/-- Every reachable LRU state keeps `_keyOrder` identical to the chain order
and duplicate-free. -/
theorem lru_reach_wf {s : LRUState} (hr : LRUReach s) :
    s.keyOrder = s.order ∧ s.order.Nodup := by
  induction hr with
  | init => exact ⟨rfl, List.nodup_nil⟩
  | track h s hr ih =>
      simp only [lruTrack]
      split
      · exact ih
      · next hmem =>
          exact ⟨by rw [ih.1], by simp [List.nodup_append, ih.2, hmem]⟩
  | stop h s hr ih =>
      simp only [lruStopTracking]
      split
      · exact ⟨by rw [ih.1], ih.2.erase h⟩
      · exact ih
  | hit h s hr ih =>
      simp only [lruHit]
      split
      · next hc =>
          have hlen : 1 < s.order.length := by
            rcases horder : s.order with _ | ⟨a, rest⟩
            · rw [horder] at hc
              simp at hc
            · rcases rest with _ | ⟨b, r2⟩
              · rw [horder] at hc
                simp at hc
                exact absurd (congrArg some hc.1.symm) (by simpa using hc.2)
              · simp
          have hlen' : s.keyOrder.length > 1 := by rw [ih.1]; exact hlen
          refine ⟨?_, by simp [List.nodup_append, ih.2.erase h, ih.2.not_mem_erase]⟩
          rw [if_pos hlen', ih.1]
      · exact ih
  | evict s hr ih =>
      rcases horder : s.order with _ | ⟨k, rest⟩
      · simp only [lruEvict, horder]
        rw [← horder]
        exact ih
      · simp only [lruEvict, horder]
        have hnd : (k :: rest).Nodup := horder ▸ ih.2
        refine ⟨?_, hnd.of_cons⟩
        rw [ih.1, horder]
        simp only [List.filter_cons]
        have : (decide (k ≠ k)) = false := by simp
        rw [this]
        simp only [Bool.false_eq_true, if_false]
        rw [List.filter_eq_self]
        intro a ha
        simp only [ne_eq, decide_eq_true_eq]
        intro he
        exact (List.nodup_cons.mp hnd).1 (he ▸ ha)

/-- Draining a FIFO policy ignores the `_hashes` set: the result is a function
of the queue alone. -/
theorem fifoDrainF_hashes : ∀ (n : Nat) (q hs hs' : List String),
    fifoDrainF n { queue := q, hashes := hs }
      = fifoDrainF n { queue := q, hashes := hs' } := by
  intro n
  induction n with
  | zero => intro q hs hs'; rfl
  | succ n ih =>
      intro q hs hs'
      rcases q with _ | ⟨h, rest⟩
      · rfl
      · by_cases hemp : h = ""
        · simp [fifoDrainF, fifoEvict, hemp]
        · simp only [fifoDrainF, fifoEvict, if_neg hemp]
          rw [ih]

/-- Draining a FIFO policy returns the queue up to the first empty-string
key. -/
theorem fifoDrain_queue (s : FIFOState) :
    fifoDrain s = fifoDrainF s.queue.length { queue := s.queue, hashes := s.hashes } := rfl

/-- Every reachable FIFO state has a duplicate-free queue whose members are
all in the `_hashes` set. -/
theorem fifo_reach_wf {s : FIFOState} (hr : FIFOReach s) :
    s.queue.Nodup ∧ ∀ k ∈ s.queue, k ∈ s.hashes := by
  induction hr with
  | init => exact ⟨List.nodup_nil, fun k hk => absurd hk (List.not_mem_nil k)⟩
  | track h s hr ih =>
      simp only [fifoTrack]
      split
      · exact ih
      · next hmem =>
          constructor
          · have : h ∉ s.queue := fun hq => hmem (ih.2 h hq)
            simp [List.nodup_append, ih.1, this]
          · intro k hk
            rw [List.mem_append] at hk
            rcases hk with hk | hk
            · exact List.mem_append_left _ (ih.2 k hk)
            · simp only [List.mem_singleton] at hk
              subst hk
              exact List.mem_append_right _ (by simp)
  | stop h s hr ih =>
      simp only [fifoStopTracking]
      split
      · next hc =>
          refine ⟨ih.1.erase h, ?_⟩
          intro k hk
          have hkq : k ∈ s.queue := List.mem_of_mem_erase hk
          have hkh : k ≠ h := ((ih.1.mem_erase_iff).mp hk).1
          exact (List.mem_erase_of_ne hkh).mpr (ih.2 k hkq)
      · exact ih
  | hit h s hr ih => exact ih
  | evict s hr ih =>
      rcases hq : s.queue with _ | ⟨h, rest⟩
      · simp only [fifoEvict, hq]
        rw [← hq]
        exact ih
      · have hnd : (h :: rest).Nodup := hq ▸ ih.1
        by_cases hemp : h = ""
        · simp only [fifoEvict, hq, if_pos hemp]
          refine ⟨hnd.of_cons, ?_⟩
          intro k hk
          exact ih.2 k (hq ▸ List.mem_cons_of_mem h hk)
        · simp only [fifoEvict, hq, if_neg hemp]
          refine ⟨hnd.of_cons, ?_⟩
          intro k hk
          have hkh : k ≠ h := fun he => (List.nodup_cons.mp hnd).1 (he ▸ hk)
          exact (List.mem_erase_of_ne hkh).mpr
            (ih.2 k (hq ▸ List.mem_cons_of_mem h hk))

/-- C6 (corrected, amended claim): for the LRU, FIFO, MFU and LFU policies,
applying `getSnapshot()` to a fresh policy via `applySnapshot` with the
valid-key set equal to all currently tracked keys reconstructs the same
eviction order — draining the restored policy with `evict()` yields the same
key sequence as draining the original, for every reachable policy state.  For
MRU the round trip fails because `hit` swaps the key with its `_keyOrder`
successor instead of moving it to the end — see the counterexample.  (RR
`evict` draws a random element, so no deterministic drain-sequence statement
is made for it.) -/
theorem c6_amended_roundtrip :
    (∀ (s : LRUState), LRUReach s →
      lruDrain (lruApplySnapshot (lruTracked s) (lruGetSnapshot s)) = lruDrain s) ∧
    (∀ (s : FIFOState), FIFOReach s →
      fifoDrain (fifoApplySnapshot (fifoTracked s) (fifoGetSnapshot s)) = fifoDrain s) ∧
    (∀ (s : MFUState), MFUReach s →
      mfuDrain (mfuApplySnapshot (mfuTracked s) (mfuGetSnapshot s)) = mfuDrain s) ∧
    (∀ (s : LFUState), LFUReach s →
      lfuDrain (lfuApplySnapshot (lfuTracked s) (lfuGetSnapshot s)) = lfuDrain s) := by
  refine ⟨?_, ?_, ?_, ?_⟩
  · intro s hr
    obtain ⟨hko, hnd⟩ := lru_reach_wf hr
    have horder : (lruApplySnapshot (lruTracked s) (lruGetSnapshot s)).order = s.order := by
      simp only [lruApplySnapshot, lruTracked, lruGetSnapshot]
      rw [hko, List.filter_eq_self]
      intro a ha
      simpa using ha
    have hko' : (lruApplySnapshot (lruTracked s) (lruGetSnapshot s)).keyOrder
        = s.order := by
      simp only [lruApplySnapshot, lruTracked, lruGetSnapshot]
      rw [hko, List.filter_eq_self]
      intro a ha
      simpa using ha
    rw [lruDrain, lruDrain, horder,
      lruDrainF_eq_order s.order.length _ (by rw [horder]),
      lruDrainF_eq_order s.order.length s (Nat.le_refl _), horder]
  · intro s hr
    obtain ⟨hnd, hsub⟩ := fifo_reach_wf hr
    have hqueue : (fifoApplySnapshot (fifoTracked s) (fifoGetSnapshot s)).queue
        = s.queue := by
      simp only [fifoApplySnapshot, fifoTracked, fifoGetSnapshot]
      rw [List.filter_eq_self]
      intro a ha
      simpa using hsub a ha
    rw [fifoDrain, fifoDrain]
    rw [hqueue]
    have hrec : fifoApplySnapshot (fifoTracked s) (fifoGetSnapshot s)
        = { queue := (fifoGetSnapshot s).filter (fun k => k ∈ fifoTracked s)
            hashes := ((fifoGetSnapshot s).filter (fun k => k ∈ fifoTracked s)).foldl sadd [] } := rfl
    rw [hrec]
    have hq2 : (fifoGetSnapshot s).filter (fun k => k ∈ fifoTracked s) = s.queue := by
      simpa [fifoApplySnapshot] using hqueue
    rw [hq2]
    have := fifoDrainF_hashes s.queue.length s.queue
      (s.queue.foldl sadd []) s.hashes
    rw [this]
  · intro s hr
    obtain ⟨hkom, hhigh⟩ := mfu_restore_eq hr
    simp only [mfuDrain]
    have hsz : mfuSize (mfuApplySnapshot (mfuTracked s) (mfuGetSnapshot s))
        = mfuSize s := by
      simp only [mfuSize]
      rw [hkom]
    rw [hsz]
    have hre : mfuApplySnapshot (mfuTracked s) (mfuGetSnapshot s)
        = { cacheKeyMap :=
              (mfuApplySnapshot (mfuTracked s) (mfuGetSnapshot s)).cacheKeyMap,
            keyOrderMap := s.keyOrderMap,
            highestHitCount := s.highestHitCount } := by
      rw [← hkom, ← hhigh]
    rw [hre]
    exact mfuDrainF_ckm (mfuSize s) s.keyOrderMap s.highestHitCount _ s.cacheKeyMap
  · intro s hr
    obtain ⟨hkom, hlow⟩ := lfu_restore_eq hr
    simp only [lfuDrain]
    have hsz : lfuSize (lfuApplySnapshot (lfuTracked s) (lfuGetSnapshot s))
        = lfuSize s := by
      simp only [lfuSize]
      rw [hkom]
    rw [hsz]
    have hre : lfuApplySnapshot (lfuTracked s) (lfuGetSnapshot s)
        = { cacheKeyMap :=
              (lfuApplySnapshot (lfuTracked s) (lfuGetSnapshot s)).cacheKeyMap,
            keyOrderMap := s.keyOrderMap,
            lowestHitCount := s.lowestHitCount } := by
      rw [← hkom, ← hlow]
    rw [hre]
    exact lfuDrainF_ckm (lfuSize s) s.keyOrderMap s.lowestHitCount _ s.cacheKeyMap

/-- Witness for `c6_amended_roundtrip` at the reachable LRU state obtained by
tracking `A`, `B` and hitting `A`; the FIFO state obtained by tracking `A`,
`B`; and the MFU and LFU states obtained by tracking `A`, `B` and hitting
`A`. -/
theorem c6_witness :
    lruDrain (lruApplySnapshot
        (lruTracked (lruHit "A" (lruTrack "B" (lruTrack "A" lruInit))))
        (lruGetSnapshot (lruHit "A" (lruTrack "B" (lruTrack "A" lruInit)))))
      = lruDrain (lruHit "A" (lruTrack "B" (lruTrack "A" lruInit))) ∧
    fifoDrain (fifoApplySnapshot
        (fifoTracked (fifoTrack "B" (fifoTrack "A" fifoInit)))
        (fifoGetSnapshot (fifoTrack "B" (fifoTrack "A" fifoInit))))
      = fifoDrain (fifoTrack "B" (fifoTrack "A" fifoInit)) ∧
    mfuDrain (mfuApplySnapshot
        (mfuTracked (mfuHit "A" (mfuTrack "B" (mfuTrack "A" mfuInit))))
        (mfuGetSnapshot (mfuHit "A" (mfuTrack "B" (mfuTrack "A" mfuInit)))))
      = mfuDrain (mfuHit "A" (mfuTrack "B" (mfuTrack "A" mfuInit))) ∧
    lfuDrain (lfuApplySnapshot
        (lfuTracked (lfuHit "A" (lfuTrack "B" (lfuTrack "A" lfuInit))))
        (lfuGetSnapshot (lfuHit "A" (lfuTrack "B" (lfuTrack "A" lfuInit)))))
      = lfuDrain (lfuHit "A" (lfuTrack "B" (lfuTrack "A" lfuInit))) :=
  ⟨c6_amended_roundtrip.1 _
      (LRUReach.hit "A" _ (LRUReach.track "B" _ (LRUReach.track "A" _ LRUReach.init))),
   c6_amended_roundtrip.2.1 _
      (FIFOReach.track "B" _ (FIFOReach.track "A" _ FIFOReach.init)),
   c6_amended_roundtrip.2.2.1 _
      (MFUReach.hit "A" _ (MFUReach.track "B" _ (MFUReach.track "A" _ MFUReach.init))),
   c6_amended_roundtrip.2.2.2 _
      (LFUReach.hit "A" _ (LFUReach.track "B" _ (LFUReach.track "A" _ LFUReach.init)))⟩
